import Mathlib

/-!
# arpack-arma: implicitly restarted Lanczos eigensolver

A shallow embedding of `include/SymEigsSolver.h` and `include/SelectionRule.h`
over an arbitrary linearly ordered field `K` (exact arithmetic), followed by
theorems about the embedded functions.

Vectors (`arma::Col`) and matrices (`arma::Mat`) are index functions; the sizes
are the ones the C++ objects carry (`dim_n`, `ncv`, `nev`), and entries outside
of them are never read by the embedded code.  Calls that leave the two headers
(the user's operator, `arma::norm`, `arma::clamp`, `arma::eig_sym`, `std::sort`,
`TridiagQR::compute`) are fields of the record `Ops`.
-/

namespace ArpackArma

/-- A column vector, `arma::Col<Scalar>`. -/
abbrev Vec (K : Type) := Nat → K

/-- A dense matrix, `arma::Mat<Scalar>`, addressed as `M row col`. -/
abbrev Mat (K : Type) := Nat → Nat → K

/-- The pair `std::pair<Scalar, int>` that the sorts work on: (value, original index). -/
abbrev SortPair (K : Type) := K × Nat

/-- Exceptions thrown by the solver or by the libraries it calls. -/
inductive Err where
  | invalid_argument (what : String)
  | logic_error (what : String)
  deriving DecidableEq, Repr

/-- The enumeration `SELECT_EIGENVALUE` of `SelectionRule.h`. -/
inductive SELECT_EIGENVALUE where
  | LARGEST_MAGN
  | LARGEST_REAL
  | LARGEST_IMAG
  | LARGEST_ALGE
  | SMALLEST_MAGN
  | SMALLEST_REAL
  | SMALLEST_IMAG
  | SMALLEST_ALGE
  | BOTH_ENDS
  deriving DecidableEq, Repr

section Defs

variable {K : Type} [LinearOrderedField K]

/-! ## Dense primitives -/

/-- The inner product `arma::dot` of two vectors of length `n`. -/
def dot (n : Nat) (x y : Vec K) : K := ∑ i in Finset.range n, x i * y i

/-- Column `j` of a matrix, `M.col(j)`. -/
def col (M : Mat K) (j : Nat) : Vec K := fun r => M r j

/-- Assignment `M.col(j) = v`. -/
def setCol (M : Mat K) (j : Nat) (v : Vec K) : Mat K :=
  fun r c => if c = j then v r else M r c

/-- Assignment `M(i, j) = x`. -/
def setEntry (M : Mat K) (i j : Nat) (x : K) : Mat K :=
  fun r c => if r = i ∧ c = j then x else M r c

/-- The update `M.diag() += x`. -/
def addDiag (M : Mat K) (x : K) : Mat K :=
  fun r c => if r = c then M r c + x else M r c

/-- The matrix `arma::symmatl(M)`: the lower triangle of `M` reflected upwards. -/
def symmatl (M : Mat K) : Mat K := fun r c => if c ≤ r then M r c else M c r

/-- The product `M * z` of a matrix with `m` columns and a vector. -/
def mulVec (m : Nat) (M : Mat K) (z : Vec K) : Vec K :=
  fun r => ∑ j in Finset.range m, M r j * z j

/-- The member `x.max()` of a vector of length `n ≥ 1`. -/
def vec_max (n : Nat) (x : Vec K) : K :=
  (List.range n).foldl (fun m i => max m (x i)) (x 0)

/-! ## SelectionRule.h -/

/-- The comparator `EigenvalueComparator<Scalar, LARGEST_MAGN>`. -/
def comp_LARGEST_MAGN (v1 v2 : SortPair K) : Bool := decide (|v1.1| > |v2.1|)

/-- The comparator `EigenvalueComparator<Scalar, LARGEST_ALGE>`. -/
def comp_LARGEST_ALGE (v1 v2 : SortPair K) : Bool := decide (v1.1 > v2.1)

/-- The comparator `EigenvalueComparator<Scalar, BOTH_ENDS>`. -/
def comp_BOTH_ENDS (v1 v2 : SortPair K) : Bool := decide (v1.1 > v2.1)

/-- The comparator `EigenvalueComparator<Scalar, SMALLEST_MAGN>`. -/
def comp_SMALLEST_MAGN (v1 v2 : SortPair K) : Bool := decide (|v1.1| ≤ |v2.1|)

/-- The comparator `EigenvalueComparator<Scalar, SMALLEST_ALGE>`. -/
def comp_SMALLEST_ALGE (v1 v2 : SortPair K) : Bool := decide (v1.1 ≤ v2.1)

/-- The class template `EigenvalueComparator<Scalar, SelectionRule>` for a real `Scalar`.
The rules `*_REAL` and `*_IMAG` are specialised for `std::complex` only: for a real
scalar they select the empty primary template, which has no `operator()`. -/
def EigenvalueComparator : SELECT_EIGENVALUE → Option (SortPair K → SortPair K → Bool)
  | .LARGEST_MAGN => some comp_LARGEST_MAGN
  | .LARGEST_ALGE => some comp_LARGEST_ALGE
  | .BOTH_ENDS => some comp_BOTH_ENDS
  | .SMALLEST_MAGN => some comp_SMALLEST_MAGN
  | .SMALLEST_ALGE => some comp_SMALLEST_ALGE
  | .LARGEST_REAL => none
  | .LARGEST_IMAG => none
  | .SMALLEST_REAL => none
  | .SMALLEST_IMAG => none

/-! ## The tridiagonal QR helper -/

/-- The state of `UpperHessenbergQR` / `TridiagQR` after `compute`
(`eigs_linalg_hessenqr_bones.hpp`): the order, the working copy holding `R`, and the
Givens parameters of `Q = G1 * G2 * ... * G_{n-1}`, `Gi = [cos[i] sin[i]; -sin[i] cos[i]]`. -/
structure TridiagQR (K : Type) where
  n : Nat
  mat_T : Mat K
  rot_cos : Vec K
  rot_sin : Vec K

/-- Right multiplication of `Y` by the plane rotation `G_i` on the columns `(i, i+1)`. -/
def rot_cols (c s : K) (i : Nat) (Y : Mat K) : Mat K :=
  fun r j =>
    if j = i then c * Y r i - s * Y r (i + 1)
    else if j = i + 1 then s * Y r i + c * Y r (i + 1)
    else Y r j

/-- Modelled from the spec: `TridiagQR::apply_YQ` is declared in
`eigs_linalg_hessenqr_bones.hpp` and its body is missing; the spec (§4.1) has it overwrite
`Y` with `Y·Q`, "executed as successive column-pair rotations" with `Q = G1·G2·…·G_{p−1}`. -/
def TridiagQR.apply_YQ (d : TridiagQR K) (Y : Mat K) : Mat K :=
  (List.range (d.n - 1)).foldl (fun Z i => rot_cols (d.rot_cos i) (d.rot_sin i) i Z) Y

/-- Modelled from the spec: `TridiagQR::matrix_RQ` is declared in
`eigs_linalg_hessenqr_bones.hpp` and its body is missing; the spec (§4.1) has it return
`R·Q`, the rotations being applied "column-pair-wise from the right" to the stored `R`. -/
def TridiagQR.matrix_RQ (d : TridiagQR K) : Mat K :=
  d.apply_YQ d.mat_T

/-- Modelled from the spec: `apply_QtY` is called by `restart` and its body is missing; the
spec (§4.2.2) has it replace `e` by `Qᵀ·e`, "the same Givens rotations transposed" applied to
the sentinel vector: `Qᵀ = G_{p−1}ᵀ·…·G1ᵀ`, so `G1ᵀ` acts first. -/
def TridiagQR.apply_QtY (d : TridiagQR K) (y : Vec K) : Vec K :=
  (List.range (d.n - 1)).foldl
    (fun z i => fun r =>
      if r = i then d.rot_cos i * z i - d.rot_sin i * z (i + 1)
      else if r = i + 1 then d.rot_sin i * z i + d.rot_cos i * z (i + 1)
      else z r) y

/-! ## External operations -/

/-- The calls of `SymEigsSolver.h` whose code is outside of it. -/
structure Ops (K : Type) where
  /-- The virtual `matrix_operation`: `op->prod` (or `op_shift->shift_solve`), `y ← A·x`. -/
  prod : Vec K → Vec K
  /-- The Euclidean norm `arma::norm` of a vector of the given length. -/
  norm : Nat → Vec K → K
  /-- The call `arma::clamp(x, lo, hi)` on a vector of the given length. -/
  clamp : Nat → Vec K → K → K → Except Err (Vec K)
  /-- The call `arma::eig_sym(evals, evecs, X)` on a matrix of the given order. -/
  eig_sym : Nat → Mat K → Vec K × Mat K
  /-- The call `std::sort(first, last, comp)`. -/
  sort : (SortPair K → SortPair K → Bool) → List (SortPair K) → List (SortPair K)
  /-- The call `TridiagQR::compute` on a matrix of the given order. -/
  qr_compute : Nat → Mat K → TridiagQR K

/-! ## SymEigsSolver -/

/-- The data members of `SymEigsSolver<Scalar, SelectionRule>`; the template parameter
`SelectionRule` is the first field. -/
structure SymEigsSolver (K : Type) where
  SelectionRule : SELECT_EIGENVALUE
  dim_n : Nat
  nev : Nat
  ncv : Nat
  nmatop : Nat
  niter : Nat
  fac_V : Mat K
  fac_H : Mat K
  fac_f : Vec K
  ritz_val : Vec K
  ritz_vec : Mat K
  ritz_conv : Nat → Bool
  prec : K

namespace SymEigsSolver

/-- One pass of the loop body of `factorize_from`, for the column `i`. -/
def factorize_step (ops : Ops K) (i : Nat) (st : SymEigsSolver K) : SymEigsSolver K :=
  let beta := ops.norm st.dim_n st.fac_f
  let v : Vec K := fun r => st.fac_f r / beta
  let V1 := setCol st.fac_V i v
  let H1 := setEntry st.fac_H i (i - 1) beta
  let w := ops.prod v
  let Hii := dot st.dim_n v w
  let H2 := setEntry (setEntry H1 (i - 1) i beta) i i Hii
  let f1 : Vec K := fun r => w r - beta * V1 r (i - 1) - Hii * v r
  let v1f := dot st.dim_n f1 (col V1 0)
  let f2 : Vec K :=
    if v1f > st.prec ∨ v1f < -st.prec then
      let Vf : Vec K := fun j => if j = 0 then v1f else dot st.dim_n (col V1 j) f1
      fun r => f1 r - ∑ j in Finset.range (i + 1), V1 r j * Vf j
    else f1
  { st with fac_V := V1, fac_H := H2, fac_f := f2, nmatop := st.nmatop + 1 }

/-- The method `factorize_from(from_k, to_m, fk)`; it is called with `from_k ≥ 1`. -/
def factorize_from (ops : Ops K) (st : SymEigsSolver K) (from_k to_m : Nat) (fk : Vec K) :
    SymEigsSolver K :=
  if to_m ≤ from_k then st
  else
    let H0 : Mat K := fun r c => if from_k ≤ c ∨ from_k ≤ r then 0 else st.fac_H r c
    (List.range' from_k (to_m - from_k)).foldl (fun s i => factorize_step ops i s)
      { st with fac_f := fk, fac_H := H0 }

/-- The method `retrieve_ritzpair()`. -/
def retrieve_ritzpair (ops : Ops K) (st : SymEigsSolver K) : SymEigsSolver K :=
  match EigenvalueComparator st.SelectionRule with
  | none => st
  | some comp =>
    let ee := ops.eig_sym st.ncv (symmatl st.fac_H)
    let evals := ee.1
    let evecs := ee.2
    let sorted := ops.sort comp ((List.range st.ncv).map (fun i => (evals i, i)))
    let pairs : List (SortPair K) :=
      if st.SelectionRule = .BOTH_ENDS then
        (List.range st.ncv).map (fun i =>
          if i % 2 = 0 then sorted.getD (i / 2) (0, 0)
          else sorted.getD (st.ncv - 1 - i / 2) (0, 0))
      else sorted
    { st with
      ritz_val := fun i => if i < st.ncv then (pairs.getD i (0, 0)).1 else st.ritz_val i
      ritz_vec := fun r i =>
        if i < st.nev then evecs r (pairs.getD i (0, 0)).2 else st.ritz_vec r i }

/-- One pass of the shift loop of `restart`, for the shift `ritz_val[i]`. -/
def restart_shift (ops : Ops K) (i : Nat) (s : SymEigsSolver K × Vec K) :
    SymEigsSolver K × Vec K :=
  let st := s.1
  let decomp := ops.qr_compute st.ncv (addDiag st.fac_H (-(st.ritz_val i)))
  ({ st with
      fac_V := decomp.apply_YQ st.fac_V
      fac_H := addDiag decomp.matrix_RQ (st.ritz_val i) },
    decomp.apply_QtY s.2)

/-- The method `restart(k)`; it is called with `k ≥ 1`. -/
def restart (ops : Ops K) (st : SymEigsSolver K) (k : Nat) : SymEigsSolver K :=
  if k ≥ st.ncv then st
  else
    let em0 : Vec K := fun i => if i = st.ncv - 1 then 1 else 0
    let s := (List.range' k (st.ncv - k)).foldl (fun s i => restart_shift ops i s) (st, em0)
    let fk : Vec K := fun r => s.1.fac_f r * s.2 (k - 1) + s.1.fac_V r k * s.1.fac_H k (k - 1)
    retrieve_ritzpair ops (factorize_from ops s.1 k st.ncv fk)

/-- The method `num_converged(tol)`: the new state and the returned count. -/
def num_converged (ops : Ops K) (st : SymEigsSolver K) (tol : K) :
    Except Err (SymEigsSolver K × Nat) :=
  let rv : Vec K := fun i => |st.ritz_val i|
  match ops.clamp st.nev rv st.prec (vec_max st.nev rv) with
  | .error e => .error e
  | .ok cl =>
    let thresh : Vec K := fun i => tol * cl i
    let resid : Vec K := fun i => |st.ritz_vec (st.ncv - 1) i| * ops.norm st.dim_n st.fac_f
    let conv : Nat → Bool := fun i => decide (resid i < thresh i)
    .ok ({ st with ritz_conv := conv }, (List.range st.nev).countP conv)

/-- The method `nev_adjusted(nconv)`, in `int` arithmetic. -/
def nev_adjusted (st : SymEigsSolver K) (nconv : Int) : Int :=
  let nev : Int := st.nev
  let ncv : Int := st.ncv
  let nev_new := nev + min nconv (Int.tdiv (ncv - nev) 2)
  if nev = 1 ∧ ncv ≥ 6 then Int.tdiv ncv 2
  else if nev = 1 ∧ ncv > 2 then 2
  else nev_new

/-- The method `SymEigsSolver::sort_ritzpair()` of the base class. -/
def sort_ritzpair (ops : Ops K) (st : SymEigsSolver K) : SymEigsSolver K :=
  let pairs := ops.sort comp_LARGEST_MAGN ((List.range st.nev).map (fun i => (st.ritz_val i, i)))
  { st with
    ritz_val := fun i => if i < st.nev then (pairs.getD i (0, 0)).1 else st.ritz_val i
    ritz_vec := fun r i => st.ritz_vec r (pairs.getD i (0, 0)).2
    ritz_conv := fun i => st.ritz_conv (pairs.getD i (0, 0)).2 }

/-- The constructor `SymEigsSolver(op_, nev_, ncv_)`; `n` is `op->rows()` and `prec` the
value of `std::pow(std::numeric_limits<Scalar>::epsilon(), Scalar(2.0 / 3))`. The matrices
and vectors are default-constructed (empty). -/
def create (rule : SELECT_EIGENVALUE) (n nev_ ncv_ : Int) (prec : K) :
    Except Err (SymEigsSolver K) :=
  if nev_ < 1 ∨ nev_ ≥ n then
    .error (.invalid_argument "nev must be greater than zero and less than the size of the matrix")
  else if ncv_ ≤ nev_ then
    .error (.invalid_argument "ncv must be greater than nev")
  else
    .ok { SelectionRule := rule
          dim_n := n.toNat
          nev := nev_.toNat
          ncv := (if ncv_ > n then n else ncv_).toNat
          nmatop := 0
          niter := 0
          fac_V := fun _ _ => 0
          fac_H := fun _ _ => 0
          fac_f := fun _ => 0
          ritz_val := fun _ => 0
          ritz_vec := fun _ _ => 0
          ritz_conv := fun _ => false
          prec := prec }

/-- The method `init(init_resid)`. -/
def init (ops : Ops K) (st : SymEigsSolver K) (init_resid : Vec K) :
    Except Err (SymEigsSolver K) :=
  let vnorm := ops.norm st.dim_n init_resid
  if vnorm < st.prec then
    .error (.invalid_argument "initial residual vector cannot be zero")
  else
    let v : Vec K := fun r => init_resid r / vnorm
    let w := ops.prod v
    let H00 := dot st.dim_n v w
    .ok { st with
          fac_V := setCol (fun _ _ => 0) 0 v
          fac_H := setEntry (fun _ _ => 0) 0 0 H00
          fac_f := fun r => w r - v r * H00
          ritz_val := fun _ => 0
          ritz_vec := fun _ _ => 0
          ritz_conv := fun _ => false
          nmatop := 1
          niter := 0 }

/-- The restart loop of `compute`: `rem` passes remain, `i` is the loop counter and `nconv`
the current value of the local variable. Returns the state, `nconv` and `i` at loop exit. -/
def compute_loop (ops : Ops K) (tol : K) :
    Nat → SymEigsSolver K → Int → Nat → Except Err (SymEigsSolver K × Int × Nat)
  | 0, st, nconv, i => .ok (st, nconv, i)
  | rem + 1, st, _, i =>
    match num_converged ops st tol with
    | .error e => .error e
    | .ok (st1, nc) =>
      if (nc : Int) ≥ (st1.nev : Int) then .ok (st1, (nc : Int), i)
      else compute_loop ops tol rem (restart ops st1 (nev_adjusted st1 nc).toNat) nc (i + 1)

/-- The method `compute(maxit, tol)` with the virtual `sort_ritzpair` passed as `sortrp`.
The local `nconv` is declared without an initial value; `nconv0` stands for the
indeterminate value it holds when the loop body never runs. Returns the state and the
returned `int`. -/
def compute_with (sortrp : SymEigsSolver K → SymEigsSolver K) (ops : Ops K)
    (st : SymEigsSolver K) (maxit : Int) (tol : K) (nconv0 : Int) :
    Except Err (SymEigsSolver K × Int) :=
  let st1 := retrieve_ritzpair ops (factorize_from ops st 1 st.ncv st.fac_f)
  match compute_loop ops tol maxit.toNat st1 nconv0 0 with
  | .error e => .error e
  | .ok (st2, nconv, i) =>
    let st3 := sortrp st2
    .ok ({ st3 with niter := st3.niter + (i + 1) }, min (st3.nev : Int) nconv)

/-- The method `compute` of the base class `SymEigsSolver`. -/
def compute (ops : Ops K) (st : SymEigsSolver K) (maxit : Int) (tol : K) (nconv0 : Int) :
    Except Err (SymEigsSolver K × Int) :=
  compute_with (sort_ritzpair ops) ops st maxit tol nconv0

/-- The method `info(iters, mat_ops)`. -/
def info (st : SymEigsSolver K) : Nat × Nat := (st.niter, st.nmatop)

/-- The method `eigenvalues()`: the returned vector as a list. -/
def eigenvalues (st : SymEigsSolver K) : List K :=
  let nconv := (List.range st.nev).countP st.ritz_conv
  if nconv = 0 then []
  else ((List.range st.nev).filter st.ritz_conv).map st.ritz_val

/-- The method `eigenvectors()`: the columns of the returned matrix as a list. -/
def eigenvectors (st : SymEigsSolver K) : List (Vec K) :=
  let nconv := (List.range st.nev).countP st.ritz_conv
  if nconv = 0 then []
  else ((List.range st.nev).filter st.ritz_conv).map
    (fun i => mulVec st.ncv st.fac_V (col st.ritz_vec i))

end SymEigsSolver

/-! ## SymEigsShiftSolver -/

/-- The class `SymEigsShiftSolver`: the base object and the shift `sigma`. Its
`matrix_operation` is the field `prod` of `Ops` (the shift-solve of the operator). -/
structure SymEigsShiftSolver (K : Type) where
  base : SymEigsSolver K
  sigma : K

namespace SymEigsShiftSolver

/-- The override `SymEigsShiftSolver::sort_ritzpair()`. -/
def sort_ritzpair (ops : Ops K) (sigma : K) (st : SymEigsSolver K) : SymEigsSolver K :=
  let ritz_val_org : Vec K := fun i => 1 / st.ritz_val i + sigma
  SymEigsSolver.sort_ritzpair ops
    { st with ritz_val := fun i => if i < st.nev then ritz_val_org i else st.ritz_val i }

/-- The method `compute` inherited by `SymEigsShiftSolver`, dispatching to its own
`sort_ritzpair`. Returns the new object and the returned `int`. -/
def compute (ops : Ops K) (s : SymEigsShiftSolver K) (maxit : Int) (tol : K) (nconv0 : Int) :
    Except Err (SymEigsShiftSolver K × Int) :=
  match SymEigsSolver.compute_with (sort_ritzpair ops s.sigma) ops s.base maxit tol nconv0 with
  | .error e => .error e
  | .ok (st, r) => .ok ({ s with base := st }, r)

end SymEigsShiftSolver

/-! ## A model of `std::sort` on short ranges -/

/-- The helper `__unguarded_linear_insert` of libstdc++, acting on the sorted prefix held in
reverse order: `val` moves left past every element `next` with `comp(val, next)`. -/
def unguarded_linear_insert {α : Type} (comp : α → α → Bool) (val : α) : List α → List α
  | [] => [val]
  | next :: rest =>
    if comp val next then next :: unguarded_linear_insert comp val rest
    else val :: next :: rest

/-- One pass of the loop of libstdc++ `__insertion_sort`: `rev` is the sorted prefix in
reverse order (its last element is `*first`). -/
def insertion_sort_step {α : Type} (comp : α → α → Bool) (rev : List α) (x : α) : List α :=
  match rev.getLast? with
  | none => [x]
  | some first =>
    if comp x first then rev ++ [x]
    else unguarded_linear_insert comp x rev

/-- The algorithm libstdc++ runs for `std::sort` on a range of at most 16 elements
(`__insertion_sort`); an instance of the field `sort` of `Ops`. -/
def std_sort {α : Type} (comp : α → α → Bool) (l : List α) : List α :=
  (l.foldl (insertion_sort_step comp) []).reverse

end Defs

/-! ## Exact rational instances of the external operations -/

/-- Newton iteration for the integer square root of `n`, from the guess `g`. -/
def sqrt_iter : Nat → Nat → Nat → Nat
  | 0, _, g => g
  | fuel + 1, n, g =>
    let next := (g + n / g) / 2
    if next < g then sqrt_iter fuel n next else g

/-- Integer square root (rounded down). -/
def nat_sqrt (n : Nat) : Nat := if n ≤ 1 then n else sqrt_iter n n (n / 2)

/-- Square root of a rational number, exact whenever the argument is the square of a
rational number. -/
def rat_sqrt (q : ℚ) : ℚ := (nat_sqrt q.num.toNat : ℚ) / (nat_sqrt q.den : ℚ)

/-- The Euclidean norm over `ℚ`, exact whenever it is rational. -/
def rat_norm (n : Nat) (x : Vec ℚ) : ℚ := rat_sqrt (dot n x x)

/-- The function `arma::clamp` of Armadillo: the bounds are checked once
(`arma_debug_check(min_val > max_val, ...)`), then every element `val` becomes
`(val < min_val) ? min_val : ((val > max_val) ? max_val : val)`. -/
def arma_clamp {K : Type} [LinearOrderedField K] (_n : Nat) (x : Vec K) (min_val max_val : K) :
    Except Err (Vec K) :=
  if min_val > max_val then
    .error (.logic_error "clamp(): min_val has to be smaller than max_val")
  else
    .ok (fun i => if x i < min_val then min_val else if x i > max_val then max_val else x i)

/-- Eigenvalues (ascending) and orthonormal eigenvectors (as columns) of a symmetric matrix
of order 2 over `ℚ`, exact whenever they are rational. -/
def eig_sym2 (_m : Nat) (X : Mat ℚ) : Vec ℚ × Mat ℚ :=
  let a := X 0 0
  let b := X 1 0
  let d := X 1 1
  let disc := rat_sqrt (((a - d) / 2) ^ 2 + b ^ 2)
  let l0 := (a + d) / 2 - disc
  let l1 := (a + d) / 2 + disc
  let evals : Vec ℚ := fun i => if i = 0 then l0 else l1
  let evecs : Mat ℚ := fun r j =>
    let l := evals j
    if b = 0 then (if (r = j) = (a ≤ d) then 1 else 0)
    else
      let nrm := rat_sqrt (b ^ 2 + (l - a) ^ 2)
      if r = 0 then b / nrm else (l - a) / nrm
  (evals, evecs)

/-- One Givens step of the QR factorization of an upper Hessenberg matrix: the rotation
in the plane `(i, i+1)` that zeroes `T[i+1, i]`, applied to the rows `i` and `i+1`. -/
def givens_step (i : Nat) (d : TridiagQR ℚ) : TridiagQR ℚ :=
  let a := d.mat_T i i
  let b := d.mat_T (i + 1) i
  let r := rat_sqrt (a ^ 2 + b ^ 2)
  let c := if r = 0 then 1 else a / r
  let s := if r = 0 then 0 else -b / r
  { d with
    mat_T := fun p q =>
      if p = i then c * d.mat_T i q - s * d.mat_T (i + 1) q
      else if p = i + 1 then (if q = i then 0 else s * d.mat_T i q + c * d.mat_T (i + 1) q)
      else d.mat_T p q
    rot_cos := fun j => if j = i then c else d.rot_cos j
    rot_sin := fun j => if j = i then s else d.rot_sin j }

/-- Modelled from the spec: `TridiagQR::compute` is declared in
`eigs_linalg_hessenqr_bones.hpp` and its body is missing; the spec (§4.1) has it store `R`
and the pairs `(cos, sin)` of `Q = G1·G2·…·G_{p−1}`, "where Gᵢ is the plane rotation in the
(i, i+1) plane that zeroes T[i+1, i] at step i", computed from `(T[i,i], T[i+1,i])`, and
"after the pair is applied, T[i+1, i] is set exactly to zero". Over `ℚ`, exact whenever the
rotations are rational. -/
def givens_qr (n : Nat) (T : Mat ℚ) : TridiagQR ℚ :=
  (List.range (n - 1)).foldl (fun d i => givens_step i d)
    { n := n, mat_T := T, rot_cos := fun _ => 0, rot_sin := fun _ => 0 }

/-- The external operations over `ℚ` for the operator `x ↦ A·x` of order `n`. -/
def ratOps (n : Nat) (A : Mat ℚ) : Ops ℚ where
  prod := mulVec n A
  norm := rat_norm
  clamp := arma_clamp
  eig_sym := eig_sym2
  sort := std_sort
  qr_compute := givens_qr

/-- The matrix with rows `(34, 12, 0)`, `(12, 41, 30)`, `(0, 30, 36)`. -/
def A3 : Mat ℚ := fun r c =>
  if r = 0 then (if c = 0 then 34 else if c = 1 then 12 else 0)
  else if r = 1 then (if c = 0 then 12 else if c = 1 then 41 else if c = 2 then 30 else 0)
  else if r = 2 then (if c = 1 then 30 else if c = 2 then 36 else 0)
  else 0

/-- The first unit vector. -/
def e0 : Vec ℚ := fun i => if i = 0 then 1 else 0

/-- A freshly constructed solver for an operator of order 3 with `nev = 1`, `ncv = 2`,
rule `LARGEST_MAGN` and `prec = 2⁻³⁴`. -/
def solver3 : SymEigsSolver ℚ :=
  { SelectionRule := .LARGEST_MAGN, dim_n := 3, nev := 1, ncv := 2, nmatop := 0, niter := 0
    fac_V := fun _ _ => 0, fac_H := fun _ _ => 0, fac_f := fun _ => 0
    ritz_val := fun _ => 0, ritz_vec := fun _ _ => 0, ritz_conv := fun _ => false
    prec := 1 / 2 ^ 34 }

/-- The state or, after an exception, a fallback. -/
def okState {K : Type} (d : SymEigsSolver K) : Except Err (SymEigsSolver K) → SymEigsSolver K
  | .ok s => s
  | .error _ => d

/-- The result of a `compute` call or, after an exception, a fallback. -/
def okResult {K : Type} (d : SymEigsSolver K) :
    Except Err (SymEigsSolver K × Int) → SymEigsSolver K × Int
  | .ok p => p
  | .error _ => (d, 0)

/-- The solver `solver3` after `init` on the first unit vector, for the operator `A3`. -/
def solver3_init : SymEigsSolver ℚ := okState solver3 (SymEigsSolver.init (ratOps 3 A3) solver3 e0)

/-! ## Contracts of the external operations -/

/-- The guarantee of `std::sort` for the comparator `comp`: the result is a rearrangement of
the range in which no element compares before an element placed ahead of it. -/
def SortSpec {α : Type} (sort : (α → α → Bool) → List α → List α) (comp : α → α → Bool) : Prop :=
  ∀ l, (sort comp l).Perm l ∧ (sort comp l).Pairwise (fun a b => comp b a = false)

/-- A strict weak ordering, the requirement of `std::sort` on its comparator. -/
def StrictWeak {α : Type} (comp : α → α → Bool) : Prop :=
  (∀ a b, comp a b = true → comp b a = false) ∧
  (∀ a b c, comp a b = false → comp b c = false → comp a c = false)

/-- The list `pairs` of `retrieve_ritzpair` before the sort: the eigenvalues returned by
`eig_sym`, each with its index. -/
def SymEigsSolver.eig_pairs {K : Type} [LinearOrderedField K] (ops : Ops K) (st : SymEigsSolver K) :
    List (SortPair K) :=
  (List.range st.ncv).map (fun i => ((ops.eig_sym st.ncv (symmatl st.fac_H)).1 i, i))

/-- The list `pairs` of `sort_ritzpair` before the sort: the first `nev` Ritz values, each
with its index. -/
def SymEigsSolver.ritz_pairs {K : Type} (st : SymEigsSolver K) : List (SortPair K) :=
  (List.range st.nev).map (fun i => (st.ritz_val i, i))

/-- A shift-invert solver with `sigma = 11/2`, `nev = 2`, `ncv = 3` whose Ritz values are
`1/(λ − sigma)` for `λ = 5, 6, 7`. -/
def shift_solver3 : SymEigsShiftSolver ℚ :=
  { base :=
      { solver3 with
        nev := 2
        ncv := 3
        ritz_val := fun i => if i = 0 then -2 else if i = 1 then 2 else if i = 2 then 2 / 3 else 0 }
    sigma := 11 / 2 }

/-- External operations whose `eig_sym` is exact on diagonal matrices with an ascending
diagonal: the eigenvalues are the diagonal entries, the eigenvectors the unit vectors. -/
def diagOps : Ops ℚ :=
  { ratOps 5 (fun r c => if r = c then (r : ℚ) + 1 else 0) with
    eig_sym := fun _ X => (fun i => X i i, fun r c => if r = c then 1 else 0) }

/-- A `BOTH_ENDS` solver with `nev = 2`, `ncv = 5` and `H = diag(1, 2, 3, 4, 5)`. -/
def solver5 : SymEigsSolver ℚ :=
  { solver3 with
    SelectionRule := .BOTH_ENDS
    dim_n := 5
    nev := 2
    ncv := 5
    fac_H := fun r c => if r = c ∧ r < 5 then (r : ℚ) + 1 else 0 }

/-- The two states have the same constants (`nev`, `ncv`, `dim_n`, `prec`, rule). -/
def SameParams {K : Type} (a b : SymEigsSolver K) : Prop :=
  a.nev = b.nev ∧ a.ncv = b.ncv ∧ a.dim_n = b.dim_n ∧ a.prec = b.prec ∧
  a.SelectionRule = b.SelectionRule

/-- What `num_converged` needs of `arma::clamp(x, lo, hi)`: when it returns, every element that
does not exceed `hi` has been raised to at least `lo` and is otherwise unchanged. -/
def ClampSpec {K : Type} [LinearOrderedField K]
    (clamp : Nat → Vec K → K → K → Except Err (Vec K)) : Prop :=
  ∀ n x lo hi y, clamp n x lo hi = .ok y → ∀ i, i < n → x i ≤ hi → y i = max lo (x i)

/-- The operator is linear on vectors of length `n`. -/
def LinearOp {K : Type} [LinearOrderedField K] (n : Nat) (prod : Vec K → Vec K) : Prop :=
  (∀ x y r, r < n → prod (fun i => x i + y i) r = prod x r + prod y r) ∧
  (∀ c x r, r < n → prod (fun i => c * x i) r = c * prod x r)

/-- The run `init(e0)`, `compute(5, 1)` on the operator `A3`: it converges at the first test. -/
def run_converged : SymEigsSolver ℚ × Int :=
  okResult solver3 (SymEigsSolver.compute (ratOps 3 A3) solver3_init 5 1 0)

/-- The run `init(e0)`, `compute(1, 1/4)` on the operator `A3`: one restart, `maxit` reached. -/
def run_maxit : SymEigsSolver ℚ × Int :=
  okResult solver3 (SymEigsSolver.compute (ratOps 3 A3) solver3_init 1 (1 / 4) 0)

/-- The comparator strictly prefers `a` to `b`: it puts `a` before `b` and not `b` before `a`. -/
def StrictlyPreferred {α : Type} (comp : α → α → Bool) (a b : α) : Prop :=
  comp a b = true ∧ comp b a = false

/-- Stability of a sorted list of (value, original index) pairs: two entries neither of which
is strictly preferred to the other appear in the order of their original indices. -/
def TiesKeepOrder {K : Type} (comp : SortPair K → SortPair K → Bool) (l : List (SortPair K)) :
    Prop :=
  l.Pairwise (fun a b => ¬StrictlyPreferred comp a b → ¬StrictlyPreferred comp b a → a.2 < b.2)

/-- The matrix with rows `(-7, 24, 0)`, `(24, 7, 1)`, `(0, 1, 0)`. -/
def A4 : Mat ℚ := fun r c =>
  if r = 0 then (if c = 0 then -7 else if c = 1 then 24 else 0)
  else if r = 1 then (if c = 0 then 24 else if c = 1 then 7 else if c = 2 then 1 else 0)
  else if r = 2 then (if c = 1 then 1 else 0)
  else 0

/-- A `SMALLEST_MAGN` solver (`nev = 1`, `ncv = 2`) for the operator `A4` after `init(e0)` and
the call `factorize_from(1, ncv, f)` that opens `compute`; its `H` has the rows `(-7, 24)`,
`(24, 7)` and the eigenvalues `−25` and `25`. -/
def solver_sm : SymEigsSolver ℚ :=
  let s0 := okState solver3
    (SymEigsSolver.init (ratOps 3 A4) { solver3 with SelectionRule := .SMALLEST_MAGN } e0)
  SymEigsSolver.factorize_from (ratOps 3 A4) s0 1 s0.ncv s0.fac_f

/-- A sort that meets the guarantee of `std::sort` without being stable: the insertion sort
run on the reversed range. -/
def reversing_sort {α : Type} (comp : α → α → Bool) (l : List α) : List α :=
  std_sort comp l.reverse

/-- The solver `solver3_init` after the call `factorize_from(1, ncv, f)` that opens `compute`;
its `H` has the rows `(34, 12)`, `(12, 41)`. -/
def solver3_fact : SymEigsSolver ℚ :=
  SymEigsSolver.factorize_from (ratOps 3 A3) solver3_init 1 solver3_init.ncv solver3_init.fac_f

/-- The invariant of the loop of `factorize_from` before the pass for column `i`: the first
`i` columns of `V` are orthonormal, `f` is orthogonal to them, `H` is symmetric tridiagonal
and zero outside its leading `i × i` block, and `A·V[:, :i] = V[:, :i]·H[:i, :i] + f·e_{i−1}ᵀ`. -/
def LanczosInv {K : Type} [LinearOrderedField K] (prod : Vec K → Vec K) (i : Nat)
    (s : SymEigsSolver K) : Prop :=
  (∀ a b, a < i → b < i → dot s.dim_n (col s.fac_V a) (col s.fac_V b) = if a = b then 1 else 0) ∧
  (∀ a, a < i → dot s.dim_n (col s.fac_V a) s.fac_f = 0) ∧
  (∀ r c, i ≤ r ∨ i ≤ c → s.fac_H r c = 0) ∧
  (∀ r c, s.fac_H r c = s.fac_H c r) ∧
  (∀ r c, r + 1 < c → s.fac_H r c = 0) ∧
  (∀ j, j < i → ∀ r, r < s.dim_n →
    prod (col s.fac_V j) r =
      (∑ l in Finset.range i, s.fac_V r l * s.fac_H l j) + (if j + 1 = i then s.fac_f r else 0))

/-- External operations for the operator `x ↦ A·x` of order `n` over a field with a square
root function: the norm is `sqrt ⟨x, x⟩`; `eig_sym` and `TridiagQR::compute` are stubs, not
used by `factorize_from`. -/
def sqrtOps {K : Type} [LinearOrderedField K] (sqrt : K → K) (n : Nat) (A : Mat K) : Ops K where
  prod := mulVec n A
  norm := fun m x => sqrt (dot m x x)
  clamp := arma_clamp
  eig_sym := fun _ _ => (fun _ => 0, fun _ _ => 0)
  sort := std_sort
  qr_compute := fun m T => { n := m, mat_T := T, rot_cos := fun _ => 1, rot_sin := fun _ => 0 }

/-- The matrix with rows `(0, 1)`, `(1, 0)`. -/
def swap2 {K : Type} [LinearOrderedField K] : Mat K := fun r c => if r + c = 1 then 1 else 0

/-- The solver (`n = 2`, `nev = 1`, `ncv = 2`) for the operator `swap2` after `init` on the
first unit vector: `V[:, 0] = e0`, `H[0, 0] = 0`, `f = e1`. -/
def lanczos_start {K : Type} [LinearOrderedField K] : SymEigsSolver K :=
  { SelectionRule := .LARGEST_MAGN, dim_n := 2, nev := 1, ncv := 2, nmatop := 1, niter := 0
    fac_V := fun r c => if r = 0 ∧ c = 0 then 1 else 0
    fac_H := fun _ _ => 0
    fac_f := fun r => if r = 1 then 1 else 0
    ritz_val := fun _ => 0, ritz_vec := fun _ _ => 0, ritz_conv := fun _ => false
    prec := 1 / 2 ^ 34 }

/-- The identity matrix. -/
def id2 : Mat ℚ := fun r c => if r = c then 1 else 0

/-- The solver (`n = 2`, `nev = 1`, `ncv = 2`) for the identity operator after `init` on the
first unit vector: `V[:, 0] = e0`, `H[0, 0] = 1`, `f = 0`. -/
def solver_id : SymEigsSolver ℚ :=
  okState solver3 (SymEigsSolver.init (ratOps 2 id2) { solver3 with dim_n := 2 } e0)

/-- The shift loop of `restart(k)`, `for(i = k; i < ncv; i++)`, cut after its first `cnt`
passes: the state and the vector `em`, which starts as the last unit vector. -/
def SymEigsSolver.shift_loop {K : Type} [LinearOrderedField K] (ops : Ops K)
    (st : SymEigsSolver K) (k cnt : Nat) : SymEigsSolver K × Vec K :=
  (List.range' k cnt).foldl (fun s i => SymEigsSolver.restart_shift ops i s)
    (st, fun i => if i = st.ncv - 1 then 1 else 0)

/-- The residual `fk = fac_f * em[k - 1] + fac_V.col(k) * fac_H(k, k - 1)` that `restart(k)`
forms after its shift loop. -/
def SymEigsSolver.restart_fk {K : Type} [LinearOrderedField K]
    (s : SymEigsSolver K × Vec K) (k : Nat) : Vec K :=
  fun r => s.1.fac_f r * s.2 (k - 1) + s.1.fac_V r k * s.1.fac_H k (k - 1)

/-- The number of `restart(nev_adj)` calls made by the loop of `compute` when `rem` passes
remain and it starts in the state `st`: a pass that throws or leaves by the `break` makes no
call, every other pass makes one. -/
def SymEigsSolver.restart_calls {K : Type} [LinearOrderedField K] (ops : Ops K) (tol : K) :
    Nat → SymEigsSolver K → Nat
  | 0, _ => 0
  | rem + 1, st =>
    match SymEigsSolver.num_converged ops st tol with
    | .error _ => 0
    | .ok (st1, nc) =>
      if (nc : Int) ≥ (st1.nev : Int) then 0
      else 1 + SymEigsSolver.restart_calls ops tol rem
        (SymEigsSolver.restart ops st1 (SymEigsSolver.nev_adjusted st1 nc).toNat)

/-- The run `init(e0)`, `compute(2, 1/4)` on the operator `A3`: one restart, then convergence
at the second test. -/
def run_restarted : SymEigsSolver ℚ × Int :=
  okResult solver3 (SymEigsSolver.compute (ratOps 3 A3) solver3_init 2 (1 / 4) 0)

/-- The exception that ended a call, if one did. -/
def thrown {α : Type} : Except Err α → Option Err
  | .ok _ => none
  | .error e => some e

/-- The matrix `A4` scaled by `2⁻⁴⁰`: rows `2⁻⁴⁰ · (-7, 24, 0)`, `2⁻⁴⁰ · (24, 7, 1)`,
`2⁻⁴⁰ · (0, 1, 0)`. -/
def A5 : Mat ℚ := fun r c => A4 r c / 2 ^ 40

/-- The solver `solver3` for the operator `A5` after `init(e0)`. -/
def solver_tiny_init : SymEigsSolver ℚ :=
  okState solver3 (SymEigsSolver.init (ratOps 3 A5) solver3 e0)

/-- The state in which `compute` on `solver_tiny_init` makes its first `num_converged` call:
after `factorize_from(1, ncv, fac_f)` and `retrieve_ritzpair()`. Its `H` has the rows
`2⁻⁴⁰ · (-7, 24)`, `2⁻⁴⁰ · (24, 7)` and the Ritz values `± 25 · 2⁻⁴⁰`. -/
def solver_tiny : SymEigsSolver ℚ :=
  SymEigsSolver.retrieve_ritzpair (ratOps 3 A5)
    (SymEigsSolver.factorize_from (ratOps 3 A5) solver_tiny_init 1 solver_tiny_init.ncv
      solver_tiny_init.fac_f)

/-- The product `X * Y` of two matrices, `m` being the number of columns of `X` and of rows
of `Y`. -/
def matMul {K : Type} [LinearOrderedField K] (m : Nat) (X Y : Mat K) : Mat K :=
  fun r c => ∑ l in Finset.range m, X r l * Y l c

/-- The identity matrix. -/
def idMat {K : Type} [LinearOrderedField K] : Mat K := fun r c => if r = c then 1 else 0

/-- The transposed matrix. -/
def transp {K : Type} (X : Mat K) : Mat K := fun r c => X c r

/-- The first `p` rotations `G1, …, Gp` of a decomposition applied to `Y` from the right;
`apply_YQ` applies all `n - 1` of them. -/
def TridiagQR.apply_rots {K : Type} [LinearOrderedField K] (d : TridiagQR K) (p : Nat)
    (Y : Mat K) : Mat K :=
  (List.range p).foldl (fun Z i => rot_cols (d.rot_cos i) (d.rot_sin i) i Z) Y

/-- The matrix `Q = G1 * G2 * ... * G_{n-1}` of a decomposition: `apply_YQ` on the identity. -/
def TridiagQR.Qmat {K : Type} [LinearOrderedField K] (d : TridiagQR K) : Mat K :=
  d.apply_YQ idMat

/-- What the restart assumes of `TridiagQR::compute` on a matrix `T` of order `m`: the order is
recorded, `Q = G1 * ... * G_{m-1}` is orthogonal, the stored `R` is upper triangular, and
`Q * R = T`. -/
def QRExact {K : Type} [LinearOrderedField K] (m : Nat) (T : Mat K) (d : TridiagQR K) : Prop :=
  d.n = m ∧
  (∀ a, a < m → ∀ b, b < m → matMul m (transp d.Qmat) d.Qmat a b = if a = b then 1 else 0) ∧
  (∀ r, r < m → ∀ c, c < r → d.mat_T r c = 0) ∧
  (∀ r, r < m → ∀ c, c < m → matMul m d.Qmat d.mat_T r c = T r c)

/-- The decomposition computed in pass `j` (counted from 0) of the shift loop of `restart(k)`:
`decomp.compute(fac_H)` after `fac_H.diag() -= ritz_val[k + j]`. -/
def SymEigsSolver.shift_decomp {K : Type} [LinearOrderedField K] (ops : Ops K)
    (st : SymEigsSolver K) (k j : Nat) : TridiagQR K :=
  ops.qr_compute (SymEigsSolver.shift_loop ops st k j).1.ncv
    (addDiag (SymEigsSolver.shift_loop ops st k j).1.fac_H
      (-((SymEigsSolver.shift_loop ops st k j).1.ritz_val (k + j))))

/-- The product of the matrices `Q` of the first `cnt` passes of the shift loop of
`restart(k)`. -/
def SymEigsSolver.shift_Q {K : Type} [LinearOrderedField K] (ops : Ops K)
    (st : SymEigsSolver K) (k : Nat) : Nat → Mat K
  | 0 => idMat
  | j + 1 => matMul st.ncv (SymEigsSolver.shift_Q ops st k j)
      (SymEigsSolver.shift_decomp ops st k j).Qmat

/-- The leading `m × m` block of a matrix. -/
def blk {K : Type} (m : Nat) (M : Mat K) : Matrix (Fin m) (Fin m) K :=
  fun a b => M a.val b.val

/-- The first `m` entries of a vector. -/
def rowOf {K : Type} (m : Nat) (x : Vec K) : Fin m → K := fun a => x a.val

/-- The state in which `compute` on `solver3_init` makes its first `num_converged` call: after
`factorize_from(1, ncv, fac_f)` and `retrieve_ritzpair()`. Its `H` has the rows `(34, 12)`,
`(12, 41)` and the Ritz values `50`, `25`. -/
def solver3_ritz : SymEigsSolver ℚ := SymEigsSolver.retrieve_ritzpair (ratOps 3 A3) solver3_fact

/-- The matrix with rows `(-5, 6, 0)`, `(6, -2, 6)`, `(0, 6, 1)`; its eigenvalues are `-11`,
`-2`, `7` with the eigenvectors `(2, -2, 1)/3`, `(2, 1, -2)/3`, `(1, 2, 2)/3`. -/
def A6 : Mat ℚ := fun r c =>
  if r = 0 then (if c = 0 then -5 else if c = 1 then 6 else 0)
  else if r = 1 then (if c = 0 then 6 else if c = 1 then -2 else if c = 2 then 6 else 0)
  else if r = 2 then (if c = 1 then 6 else if c = 2 then 1 else 0)
  else 0

/-- Eigenvalues (ascending) and orthonormal eigenvectors (as columns) of a symmetric matrix
of order 3, exact on the matrices `A6 + c·I`: the eigenvalues are `X[1,1] - 9`, `X[1,1]`,
`X[1,1] + 9`. -/
def eig_sym3 (_m : Nat) (X : Mat ℚ) : Vec ℚ × Mat ℚ :=
  (fun i => if i = 0 then X 1 1 - 9 else if i = 1 then X 1 1 else X 1 1 + 9,
   fun r j =>
    if j = 0 then (if r = 0 then 2 / 3 else if r = 1 then -2 / 3 else 1 / 3)
    else if j = 1 then (if r = 0 then 2 / 3 else if r = 1 then 1 / 3 else -2 / 3)
    else (if r = 0 then 1 / 3 else 2 / 3))

/-- The external operations over `ℚ` for the operator `x ↦ A6·x` of order 3. -/
def ops6 : Ops ℚ := { ratOps 3 A6 with eig_sym := eig_sym3 }

/-- The solver constructed with `nev_ = 2`, `ncv_ = 3` for an operator of order 3 under the
given rule (`prec = 2⁻³⁴`), after `init` on the first unit vector for the operator `A6`. -/
def solver6 (rule : SELECT_EIGENVALUE) : SymEigsSolver ℚ :=
  okState solver3
    (SymEigsSolver.init ops6 (okState solver3 (SymEigsSolver.create rule 3 2 3 (1 / 2 ^ 34))) e0)

/-- The run `init(e0)`, `compute(5, 1/4)` of the `BOTH_ENDS` solver on the operator `A6`. -/
def run_both_ends : SymEigsSolver ℚ × Int :=
  okResult solver3 (SymEigsSolver.compute ops6 (solver6 .BOTH_ENDS) 5 (1 / 4) 0)

/-- The shift-invert solver with `sigma = 1`, `nev = 2`, `ncv = 3` and rule `LARGEST_MAGN`
after `init(e0)`; its shift-solve is `x ↦ A6·x`, so the operator is `I + A6⁻¹` with the
eigenvalues `10/11`, `1/2`, `8/7`. -/
def shift6 : SymEigsShiftSolver ℚ := { base := solver6 .LARGEST_MAGN, sigma := 1 }

/-- The result of a `compute` call of the shift-invert solver or, after an exception, a
fallback. -/
def okShiftResult {K : Type} (d : SymEigsShiftSolver K) :
    Except Err (SymEigsShiftSolver K × Int) → SymEigsShiftSolver K × Int
  | .ok p => p
  | .error _ => (d, 0)

/-- The run `compute(5, 1/4)` of the shift-invert solver `shift6`. -/
def run_shift : SymEigsShiftSolver ℚ × Int :=
  okShiftResult shift6 (SymEigsShiftSolver.compute ops6 shift6 5 (1 / 4) 0)

/-- The run `init(e0)`, `compute(5, 1/4)` of the `SMALLEST_MAGN` solver on the operator `A6`. -/
def run_smallest_magn : SymEigsSolver ℚ × Int :=
  okResult solver3 (SymEigsSolver.compute ops6 (solver6 .SMALLEST_MAGN) 5 (1 / 4) 0)

/-! # Theorems -/

section Theorems

variable {K : Type} [LinearOrderedField K]

/-! ## The insertion sort meets the guarantee of `std::sort` -/

theorem uli_perm {α : Type} (comp : α → α → Bool) (v : α) (R : List α) :
    (unguarded_linear_insert comp v R).Perm (v :: R) := by
  induction R with
  | nil => simp [unguarded_linear_insert]
  | cons next rest ih =>
    unfold unguarded_linear_insert
    split
    · exact (List.Perm.cons next ih).trans (List.Perm.swap v next rest)
    · exact List.Perm.refl _

theorem uli_pairwise {α : Type} {comp : α → α → Bool} (h : StrictWeak comp) (v : α) (R : List α)
    (hR : R.Pairwise (fun a b => comp a b = false)) :
    (unguarded_linear_insert comp v R).Pairwise (fun a b => comp a b = false) := by
  induction R with
  | nil => simp [unguarded_linear_insert]
  | cons next rest ih =>
    rw [List.pairwise_cons] at hR
    unfold unguarded_linear_insert
    split
    · rename_i hc
      rw [List.pairwise_cons]
      refine ⟨?_, ih hR.2⟩
      intro y hy
      have hy2 : y ∈ v :: rest := (uli_perm comp v rest).subset hy
      rcases List.mem_cons.mp hy2 with rfl | hy3
      · exact h.1 _ _ hc
      · exact hR.1 y hy3
    · rename_i hc
      have hc2 : comp v next = false := by simpa using hc
      rw [List.pairwise_cons]
      refine ⟨?_, List.pairwise_cons.mpr hR⟩
      intro y hy
      rcases List.mem_cons.mp hy with rfl | hy3
      · exact hc2
      · exact h.2 _ _ _ hc2 (hR.1 y hy3)

theorem insertion_sort_step_perm {α : Type} (comp : α → α → Bool) (R : List α) (x : α) :
    (insertion_sort_step comp R x).Perm (x :: R) := by
  unfold insertion_sort_step
  split
  · rename_i hn
    rw [List.getLast?_eq_none_iff] at hn
    subst hn
    exact List.Perm.refl _
  · split
    · exact List.perm_append_singleton x R
    · exact uli_perm comp x R

theorem insertion_sort_step_pairwise {α : Type} {comp : α → α → Bool} (h : StrictWeak comp)
    (R : List α) (x : α) (hR : R.Pairwise (fun a b => comp a b = false)) :
    (insertion_sort_step comp R x).Pairwise (fun a b => comp a b = false) := by
  unfold insertion_sort_step
  split
  · simp
  · rename_i first hf
    split
    · rename_i hc
      obtain ⟨ys, rfl⟩ := List.getLast?_eq_some_iff.mp hf
      rw [List.pairwise_append] at hR
      have hfx : comp first x = false := h.1 _ _ hc
      rw [List.pairwise_append]
      refine ⟨List.pairwise_append.mpr hR, List.pairwise_singleton _ _, ?_⟩
      intro a ha b hb
      rw [List.mem_singleton] at hb
      subst hb
      rcases List.mem_append.mp ha with ha1 | ha1
      · exact h.2 _ _ _ (hR.2.2 a ha1 first (List.mem_singleton.mpr rfl)) hfx
      · rw [List.mem_singleton] at ha1
        subst ha1
        exact hfx
    · exact uli_pairwise h x R hR

theorem insertion_foldl_spec {α : Type} {comp : α → α → Bool} (h : StrictWeak comp)
    (l R : List α) (hR : R.Pairwise (fun a b => comp a b = false)) :
    (l.foldl (insertion_sort_step comp) R).Perm (l.reverse ++ R) ∧
    (l.foldl (insertion_sort_step comp) R).Pairwise (fun a b => comp a b = false) := by
  induction l generalizing R with
  | nil => exact ⟨by simp, hR⟩
  | cons x xs ih =>
    have h1 := ih (insertion_sort_step comp R x) (insertion_sort_step_pairwise h R x hR)
    refine ⟨?_, h1.2⟩
    refine h1.1.trans ?_
    rw [List.reverse_cons, List.append_assoc]
    exact List.Perm.append_left _ (insertion_sort_step_perm comp R x)

/-- The insertion sort of libstdc++ meets the guarantee of `std::sort` for every strict
weak ordering. -/
theorem std_sort_spec {α : Type} {comp : α → α → Bool} (h : StrictWeak comp) :
    SortSpec std_sort comp := by
  intro l
  have h1 := insertion_foldl_spec h l [] List.Pairwise.nil
  unfold std_sort
  constructor
  · refine (List.reverse_perm _).trans (h1.1.trans ?_)
    simp
  · rw [List.pairwise_reverse]
    exact h1.2

theorem strictWeak_LARGEST_MAGN {K : Type} [LinearOrderedField K] :
    StrictWeak (comp_LARGEST_MAGN : SortPair K → SortPair K → Bool) := by
  constructor
  · intro a b hab
    simp only [comp_LARGEST_MAGN, decide_eq_true_eq, decide_eq_false_iff_not, not_lt, gt_iff_lt] at *
    exact le_of_lt hab
  · intro a b c hab hbc
    simp only [comp_LARGEST_MAGN, decide_eq_true_eq, decide_eq_false_iff_not, not_lt, gt_iff_lt] at *
    exact le_trans hab hbc

theorem strictWeak_LARGEST_ALGE {K : Type} [LinearOrderedField K] :
    StrictWeak (comp_LARGEST_ALGE : SortPair K → SortPair K → Bool) := by
  constructor
  · intro a b hab
    simp only [comp_LARGEST_ALGE, decide_eq_true_eq, decide_eq_false_iff_not, not_lt, gt_iff_lt] at *
    exact le_of_lt hab
  · intro a b c hab hbc
    simp only [comp_LARGEST_ALGE, decide_eq_true_eq, decide_eq_false_iff_not, not_lt, gt_iff_lt] at *
    exact le_trans hab hbc


/-! ## Constructor and `init` -/

/-- C5: the constructor throws `invalid_argument` exactly when `nev_ < 1`, `nev_ ≥ n` or
`ncv_ ≤ nev_`; in every other case it succeeds with `nev = nev_`, `ncv = min(ncv_, n)` and
`dim_n = n`, so that `1 ≤ nev < ncv ≤ n` holds for every constructed solver. -/
theorem C5_create_validates (rule : SELECT_EIGENVALUE) (n nev_ ncv_ : Int) (prec : K) :
    ((∃ what, SymEigsSolver.create rule n nev_ ncv_ prec = .error (.invalid_argument what)) ↔
      (nev_ < 1 ∨ nev_ ≥ n ∨ ncv_ ≤ nev_)) ∧
    ((∃ st, SymEigsSolver.create rule n nev_ ncv_ prec = .ok st) ↔
      ¬(nev_ < 1 ∨ nev_ ≥ n ∨ ncv_ ≤ nev_)) ∧
    (∀ st, SymEigsSolver.create rule n nev_ ncv_ prec = .ok st →
      (st.nev : Int) = nev_ ∧ (st.ncv : Int) = min ncv_ n ∧ (st.dim_n : Int) = n ∧
      1 ≤ st.nev ∧ st.nev < st.ncv ∧ st.ncv ≤ st.dim_n ∧ st.SelectionRule = rule ∧
      st.prec = prec) := by
  unfold SymEigsSolver.create
  by_cases h1 : nev_ < 1 ∨ nev_ ≥ n
  · rw [if_pos h1]
    refine ⟨⟨fun _ => ?_, fun _ => ⟨_, rfl⟩⟩, ⟨fun h => ?_, fun h => ?_⟩, fun st h => ?_⟩
    · rcases h1 with h | h
      · exact Or.inl h
      · exact Or.inr (Or.inl h)
    · obtain ⟨st, hst⟩ := h
      cases hst
    · exfalso
      apply h
      rcases h1 with h | h
      · exact Or.inl h
      · exact Or.inr (Or.inl h)
    · cases h
  · rw [if_neg h1]
    by_cases h2 : ncv_ ≤ nev_
    · rw [if_pos h2]
      refine ⟨⟨fun _ => Or.inr (Or.inr h2), fun _ => ⟨_, rfl⟩⟩, ⟨fun h => ?_, fun h => ?_⟩,
        fun st h => ?_⟩
      · obtain ⟨st, hst⟩ := h
        cases hst
      · exact absurd (Or.inr (Or.inr h2)) h
      · cases h
    · rw [if_neg h2]
      have hnot : ¬(nev_ < 1 ∨ nev_ ≥ n ∨ ncv_ ≤ nev_) := by
        rintro (h | h | h)
        · exact h1 (Or.inl h)
        · exact h1 (Or.inr h)
        · exact h2 h
      refine ⟨⟨fun h => ?_, fun h => absurd h hnot⟩, ⟨fun _ => hnot, fun _ => ⟨_, rfl⟩⟩,
        fun st h => ?_⟩
      · obtain ⟨w, hw⟩ := h
        cases hw
      · injection h with h
        subst h
        push_neg at h1 h2
        obtain ⟨h1a, h1b⟩ := h1
        have e1 : ((nev_.toNat : Nat) : Int) = nev_ := Int.toNat_of_nonneg (by omega)
        have e2 : ((n.toNat : Nat) : Int) = n := Int.toNat_of_nonneg (by omega)
        have e3 : (((if ncv_ > n then n else ncv_).toNat : Nat) : Int) = min ncv_ n := by
          rw [Int.toNat_of_nonneg]
          · split
            · rw [min_eq_right]; omega
            · rw [min_eq_left]; omega
          · split <;> omega
        refine ⟨e1, e3, e2, ?_, ?_, ?_, rfl, rfl⟩
        · show 1 ≤ nev_.toNat
          omega
        · show nev_.toNat < (if ncv_ > n then n else ncv_).toNat
          have : (nev_.toNat : Int) < ((if ncv_ > n then n else ncv_).toNat : Int) := by
            rw [e1, e3]; exact lt_min h2 h1b
          exact_mod_cast this
        · show (if ncv_ > n then n else ncv_).toNat ≤ n.toNat
          have : (((if ncv_ > n then n else ncv_).toNat : Nat) : Int) ≤ (n.toNat : Int) := by
            rw [e2, e3]; exact min_le_right _ _
          exact_mod_cast this

/-- C6: `init(r)` throws `invalid_argument` exactly when `‖r‖ < prec`; otherwise it succeeds
and leaves `nmatop = 1`, `niter = 0`, `V[:,0] = v = r/‖r‖`, `H[0,0] = ⟨v, A·v⟩`,
`f = A·v − H[0,0]·v` and every other entry of `V`, `H`, `ritz_val`, `ritz_vec`, `ritz_conv`
zero. -/
theorem C6_init_contract (ops : Ops K) (st : SymEigsSolver K) (r : Vec K) :
    ((∃ what, SymEigsSolver.init ops st r = .error (.invalid_argument what)) ↔
      ops.norm st.dim_n r < st.prec) ∧
    ((∃ st1, SymEigsSolver.init ops st r = .ok st1) ↔ st.prec ≤ ops.norm st.dim_n r) ∧
    (∀ st1, SymEigsSolver.init ops st r = .ok st1 →
      st1.nmatop = 1 ∧ st1.niter = 0 ∧
      (∀ i, st1.fac_V i 0 = r i / ops.norm st.dim_n r) ∧
      (∀ i j, j ≠ 0 → st1.fac_V i j = 0) ∧
      st1.fac_H 0 0 = dot st.dim_n (col st1.fac_V 0) (ops.prod (col st1.fac_V 0)) ∧
      (∀ i j, ¬(i = 0 ∧ j = 0) → st1.fac_H i j = 0) ∧
      (∀ i, st1.fac_f i = ops.prod (col st1.fac_V 0) i - st1.fac_H 0 0 * st1.fac_V i 0) ∧
      (∀ i, st1.ritz_val i = 0) ∧ (∀ i j, st1.ritz_vec i j = 0) ∧
      (∀ i, st1.ritz_conv i = false) ∧
      st1.dim_n = st.dim_n ∧ st1.nev = st.nev ∧ st1.ncv = st.ncv ∧ st1.prec = st.prec ∧
      st1.SelectionRule = st.SelectionRule) := by
  unfold SymEigsSolver.init
  by_cases h : ops.norm st.dim_n r < st.prec
  · rw [if_pos h]
    refine ⟨⟨fun _ => h, fun _ => ⟨_, rfl⟩⟩, ⟨fun h1 => ?_, fun h1 => ?_⟩, fun st1 h1 => ?_⟩
    · obtain ⟨s, hs⟩ := h1
      cases hs
    · exact absurd h (not_lt.mpr h1)
    · cases h1
  · rw [if_neg h]
    refine ⟨⟨fun h1 => ?_, fun h1 => absurd h1 h⟩, ⟨fun _ => not_lt.mp h, fun _ => ⟨_, rfl⟩⟩,
      fun st1 h1 => ?_⟩
    · obtain ⟨w, hw⟩ := h1
      cases hw
    · injection h1 with h1
      subst h1
      have hcol : col (setCol (fun _ _ => (0 : K)) 0 (fun i => r i / ops.norm st.dim_n r)) 0
          = fun i => r i / ops.norm st.dim_n r := by
        funext i
        simp [col, setCol]
      refine ⟨rfl, rfl, ?_, ?_, ?_, ?_, ?_, ?_, ?_, ?_, rfl, rfl, rfl, rfl, rfl⟩
      · intro i
        simp [setCol]
      · intro i j hj
        simp [setCol, hj]
      · simp only [hcol]
        simp [setEntry]
      · intro i j hij
        simp only [setEntry]
        rw [if_neg hij]
      · intro i
        simp only [hcol]
        simp [setEntry, setCol, mul_comm]
      · intro i; rfl
      · intro i j; rfl
      · intro i; rfl

/-! ## `BOTH_ENDS` interleave -/

theorem interleave_perm {α : Type} (d : α) (sv : List α) (k : Nat) (hk : k ≤ sv.length) :
    ((List.range k).map (fun i =>
        if i % 2 = 0 then sv.getD (i / 2) d else sv.getD (sv.length - 1 - i / 2) d)).Perm
      (sv.take ((k + 1) / 2) ++ sv.drop (sv.length - k / 2)) := by
  induction k with
  | zero => simp
  | succ k ih =>
    have ih1 := ih (Nat.le_of_succ_le hk)
    rw [List.range_succ, List.map_append, List.map_singleton]
    rcases Nat.even_or_odd' k with ⟨j, hj | hj⟩
    · -- k = 2 j
      have e1 : (k + 1) / 2 = j := by omega
      have e2 : k / 2 = j := by omega
      have e3 : (k + 1 + 1) / 2 = j + 1 := by omega
      have e4 : k % 2 = 0 := by omega
      have hjl : j < sv.length := by omega
      rw [e1, e2] at ih1
      rw [e3, e1, if_pos e4, e2]
      rw [List.getD_eq_getElem _ _ hjl]
      have ht : sv.take (j + 1) = sv.take j ++ [sv[j]] := by
        rw [List.take_succ, List.getElem?_eq_getElem hjl]
        rfl
      rw [ht, List.append_assoc]
      refine (List.Perm.append_right _ ih1).trans ?_
      rw [List.append_assoc]
      exact List.Perm.append_left _ List.perm_append_comm
    · -- k = 2 j + 1
      have e1 : (k + 1) / 2 = j + 1 := by omega
      have e2 : k / 2 = j := by omega
      have e3 : (k + 1 + 1) / 2 = j + 1 := by omega
      have e4 : ¬ k % 2 = 0 := by omega
      have hjl : sv.length - 1 - j < sv.length := by omega
      rw [e1, e2] at ih1
      rw [e3, e1, if_neg e4, e2]
      rw [List.getD_eq_getElem _ _ hjl]
      have e5 : sv.length - (j + 1) = sv.length - 1 - j := by omega
      have hd : sv.drop (sv.length - (j + 1)) = sv[sv.length - 1 - j] :: sv.drop (sv.length - j) := by
        rw [e5, List.drop_eq_getElem_cons hjl]
        congr 2
        omega
      rw [hd]
      refine (List.Perm.append_right _ ih1).trans ?_
      rw [List.append_assoc]
      exact List.Perm.append_left _ List.perm_append_comm

theorem getD_map_range {α : Type} (g : Nat → α) (d : α) (m i : Nat) (hi : i < m) :
    ((List.range m).map g).getD i d = g i := by
  rw [List.getD_eq_getElem _ _ (by simpa using hi)]
  simp

theorem retrieve_ritz_val_both_ends (ops : Ops K) (st : SymEigsSolver K)
    (hrule : st.SelectionRule = .BOTH_ENDS) (i : Nat) (hi : i < st.ncv) :
    (SymEigsSolver.retrieve_ritzpair ops st).ritz_val i =
      if i % 2 = 0 then
        ((ops.sort comp_BOTH_ENDS (SymEigsSolver.eig_pairs ops st)).map Prod.fst).getD (i / 2) 0
      else
        ((ops.sort comp_BOTH_ENDS (SymEigsSolver.eig_pairs ops st)).map Prod.fst).getD
          (st.ncv - 1 - i / 2) 0 := by
  unfold SymEigsSolver.retrieve_ritzpair
  rw [hrule]
  simp only [EigenvalueComparator, if_true, if_pos hi]
  rw [getD_map_range _ _ _ _ hi]
  have hmap : ∀ (l : List (SortPair K)) (j : Nat),
      (l.map Prod.fst).getD j 0 = (l.getD j (0, 0)).1 := by
    intro l j
    exact List.getD_map (f := Prod.fst) (d := ((0 : K), 0)) (l := l) (n := j)
  rw [hmap, hmap]
  simp only [SymEigsSolver.eig_pairs]
  split <;> rfl

/-- C9: under `BOTH_ENDS`, with `s` the eigenvalues in the order `std::sort` left them
(descending), `retrieve_ritzpair` stores `ritz_val[i] = s[i/2]` for even `i` and
`ritz_val[i] = s[m−1−i/2]` for odd `i`; the stored list is a rearrangement of `s`, and for
every `k ≤ m` its first `k` entries are the first `⌈k/2⌉` (largest) and the last `⌊k/2⌋`
(smallest) entries of `s`: each of the former is at least every entry left out, which is at
least each of the latter. -/
theorem C9_both_ends_interleave (ops : Ops K) (st : SymEigsSolver K)
    (hrule : st.SelectionRule = .BOTH_ENDS)
    (hlen : (ops.sort comp_BOTH_ENDS (SymEigsSolver.eig_pairs ops st)).length = st.ncv)
    (hdesc : ((ops.sort comp_BOTH_ENDS (SymEigsSolver.eig_pairs ops st)).map Prod.fst).Pairwise
      (fun a b => a ≥ b)) :
    (∀ i, i < st.ncv →
      (SymEigsSolver.retrieve_ritzpair ops st).ritz_val i =
        if i % 2 = 0 then
          ((ops.sort comp_BOTH_ENDS (SymEigsSolver.eig_pairs ops st)).map Prod.fst).getD (i / 2) 0
        else
          ((ops.sort comp_BOTH_ENDS (SymEigsSolver.eig_pairs ops st)).map Prod.fst).getD
            (st.ncv - 1 - i / 2) 0) ∧
    ((List.range st.ncv).map (SymEigsSolver.retrieve_ritzpair ops st).ritz_val).Perm
      ((ops.sort comp_BOTH_ENDS (SymEigsSolver.eig_pairs ops st)).map Prod.fst) ∧
    (∀ k, k ≤ st.ncv →
      (((List.range st.ncv).map (SymEigsSolver.retrieve_ritzpair ops st).ritz_val).take k).Perm
        (((ops.sort comp_BOTH_ENDS (SymEigsSolver.eig_pairs ops st)).map Prod.fst).take
            ((k + 1) / 2) ++
          ((ops.sort comp_BOTH_ENDS (SymEigsSolver.eig_pairs ops st)).map Prod.fst).drop
            (st.ncv - k / 2))) ∧
    (∀ k, k ≤ st.ncv →
      ∀ x ∈ ((ops.sort comp_BOTH_ENDS (SymEigsSolver.eig_pairs ops st)).map Prod.fst).take
          ((k + 1) / 2),
      ∀ y ∈ (((ops.sort comp_BOTH_ENDS (SymEigsSolver.eig_pairs ops st)).map Prod.fst).drop
          ((k + 1) / 2)).take (st.ncv - k),
      ∀ z ∈ ((ops.sort comp_BOTH_ENDS (SymEigsSolver.eig_pairs ops st)).map Prod.fst).drop
          (st.ncv - k / 2),
      x ≥ y ∧ y ≥ z) := by
  generalize hsv : (ops.sort comp_BOTH_ENDS (SymEigsSolver.eig_pairs ops st)).map Prod.fst = sv
    at hdesc
  have hval := retrieve_ritz_val_both_ends ops st hrule
  rw [hsv] at hval
  have hl : sv.length = st.ncv := by rw [← hsv, List.length_map, hlen]
  have htake : ∀ k, k ≤ st.ncv →
      ((List.range st.ncv).map (SymEigsSolver.retrieve_ritzpair ops st).ritz_val).take k =
      (List.range k).map (fun i =>
        if i % 2 = 0 then sv.getD (i / 2) 0 else sv.getD (sv.length - 1 - i / 2) 0) := by
    intro k hk
    rw [← List.map_take, List.take_range, min_eq_left hk]
    apply List.map_congr_left
    intro i hi
    rw [List.mem_range] at hi
    rw [hval i (lt_of_lt_of_le hi hk), hl]
  refine ⟨hval, ?_, ?_, ?_⟩
  · have h1 := htake st.ncv le_rfl
    rw [List.take_of_length_le (by simp)] at h1
    rw [h1]
    have h2 := interleave_perm (0 : K) sv st.ncv (le_of_eq hl.symm)
    refine h2.trans ?_
    have e : sv.length - st.ncv / 2 = (st.ncv + 1) / 2 := by omega
    rw [e, List.take_append_drop]
  · intro k hk
    rw [htake k hk]
    have h2 := interleave_perm (0 : K) sv k (by omega)
    rw [← hl]
    exact h2
  · intro k hk x hx y hy z hz
    have hsplit : sv = sv.take ((k + 1) / 2) ++
        ((sv.drop ((k + 1) / 2)).take (st.ncv - k) ++ sv.drop (st.ncv - k / 2)) := by
      have e : st.ncv - k / 2 = (k + 1) / 2 + (st.ncv - k) := by omega
      rw [e, ← List.drop_drop, List.take_append_drop, List.take_append_drop]
    rw [hsplit, List.pairwise_append, List.pairwise_append] at hdesc
    exact ⟨hdesc.2.2 x hx y (List.mem_append_left _ hy), hdesc.2.1.2.2 y hy z hz⟩

/-! ## `sort_ritzpair` and the order of the results -/

theorem map_getD_range {α β : Type} (l : List α) (d : α) (f : α → β) :
    (List.range l.length).map (fun i => f (l.getD i d)) = l.map f := by
  apply List.ext_getElem
  · simp
  · intro i h1 h2
    have hi : i < l.length := by simpa using h2
    simp [List.getElem?_eq_getElem hi]

theorem sortSpec_length {α : Type} {sort : (α → α → Bool) → List α → List α}
    {comp : α → α → Bool} (h : SortSpec sort comp) (l : List α) :
    (sort comp l).length = l.length := (h l).1.length_eq

theorem sort_ritzpair_vals (ops : Ops K) (st : SymEigsSolver K)
    (hsort : SortSpec ops.sort comp_LARGEST_MAGN) :
    (List.range st.nev).map (SymEigsSolver.sort_ritzpair ops st).ritz_val =
      (ops.sort comp_LARGEST_MAGN st.ritz_pairs).map Prod.fst := by
  have hlen : (ops.sort comp_LARGEST_MAGN st.ritz_pairs).length = st.nev := by
    rw [sortSpec_length hsort]
    simp [SymEigsSolver.ritz_pairs]
  rw [← map_getD_range (ops.sort comp_LARGEST_MAGN st.ritz_pairs) (0, 0) Prod.fst, hlen]
  apply List.map_congr_left
  intro i hi
  rw [List.mem_range] at hi
  simp only [SymEigsSolver.sort_ritzpair, if_pos hi, SymEigsSolver.ritz_pairs]

theorem sort_ritzpair_perm (ops : Ops K) (st : SymEigsSolver K)
    (hsort : SortSpec ops.sort comp_LARGEST_MAGN) :
    ((List.range st.nev).map (SymEigsSolver.sort_ritzpair ops st).ritz_val).Perm
      ((List.range st.nev).map st.ritz_val) := by
  rw [sort_ritzpair_vals ops st hsort]
  refine ((hsort st.ritz_pairs).1.map Prod.fst).trans ?_
  simp [SymEigsSolver.ritz_pairs, Function.comp_def]

theorem sort_ritzpair_sorted (ops : Ops K) (st : SymEigsSolver K)
    (hsort : SortSpec ops.sort comp_LARGEST_MAGN) :
    ((List.range st.nev).map (SymEigsSolver.sort_ritzpair ops st).ritz_val).Pairwise
      (fun a b => |a| ≥ |b|) := by
  rw [sort_ritzpair_vals ops st hsort, List.pairwise_map]
  refine (hsort st.ritz_pairs).2.imp ?_
  intro a b hab
  simpa [comp_LARGEST_MAGN] using hab

omit [LinearOrderedField K] in
theorem eigenvalues_sublist (st : SymEigsSolver K) :
    (SymEigsSolver.eigenvalues st).Sublist ((List.range st.nev).map st.ritz_val) := by
  unfold SymEigsSolver.eigenvalues
  simp only
  split
  · exact List.nil_sublist _
  · exact List.Sublist.map _ (List.filter_sublist _)

theorem eigenvalues_sort_ritzpair_sorted (ops : Ops K) (st : SymEigsSolver K)
    (hsort : SortSpec ops.sort comp_LARGEST_MAGN) :
    (SymEigsSolver.eigenvalues (SymEigsSolver.sort_ritzpair ops st)).Pairwise
      (fun a b => |a| ≥ |b|) :=
  (sort_ritzpair_sorted ops st hsort).sublist (eigenvalues_sublist _)

theorem compute_with_ok (sortrp : SymEigsSolver K → SymEigsSolver K) (ops : Ops K)
    (st : SymEigsSolver K) (maxit : Int) (tol : K) (nconv0 : Int) (st1 : SymEigsSolver K)
    (r : Int) (h : SymEigsSolver.compute_with sortrp ops st maxit tol nconv0 = .ok (st1, r)) :
    ∃ st2 nc i,
      SymEigsSolver.compute_loop ops tol maxit.toNat
        (SymEigsSolver.retrieve_ritzpair ops
          (SymEigsSolver.factorize_from ops st 1 st.ncv st.fac_f)) nconv0 0 = .ok (st2, nc, i) ∧
      st1 = { sortrp st2 with niter := (sortrp st2).niter + (i + 1) } ∧
      r = min ((sortrp st2).nev : Int) nc := by
  unfold SymEigsSolver.compute_with at h
  simp only at h
  split at h
  · cases h
  · rename_i st2 nc i heq
    injection h with h
    injection h with h1 h2
    exact ⟨st2, nc, i, heq, h1.symm, h2.symm⟩

/-- C2: whenever `compute` returns, for the base solver and for the shift-invert solver and
under every selection rule, the vector returned by `eigenvalues()` is ordered by descending
magnitude. -/
theorem C2_eigenvalues_descending_magnitude (ops : Ops K)
    (hsort : SortSpec ops.sort comp_LARGEST_MAGN) (maxit : Int) (tol : K) (nconv0 : Int) :
    (∀ st st1 r, SymEigsSolver.compute ops st maxit tol nconv0 = .ok (st1, r) →
      (SymEigsSolver.eigenvalues st1).Pairwise (fun a b => |a| ≥ |b|)) ∧
    (∀ s s1 r, SymEigsShiftSolver.compute ops s maxit tol nconv0 = .ok (s1, r) →
      (SymEigsSolver.eigenvalues s1.base).Pairwise (fun a b => |a| ≥ |b|)) := by
  constructor
  · intro st st1 r h
    obtain ⟨st2, nc, i, _, h1, _⟩ := compute_with_ok _ ops st maxit tol nconv0 st1 r h
    subst h1
    exact eigenvalues_sort_ritzpair_sorted ops st2 hsort
  · intro s s1 r h
    unfold SymEigsShiftSolver.compute at h
    split at h
    · cases h
    · rename_i st1 r1 heq
      injection h with h
      injection h with h1 h2
      subst h1
      obtain ⟨st2, nc, i, _, h1, _⟩ := compute_with_ok _ ops s.base maxit tol nconv0 st1 r1 heq
      subst h1
      exact eigenvalues_sort_ritzpair_sorted ops
        { st2 with ritz_val := fun i =>
            if i < st2.nev then 1 / st2.ritz_val i + s.sigma else st2.ritz_val i } hsort

theorem okResult_eq {K : Type} (d : SymEigsSolver K) (x : Except Err (SymEigsSolver K × Int))
    (h : x.isOk = true) : x = .ok (okResult d x) := by
  cases x with
  | error e => simp [Except.isOk, Except.toBool] at h
  | ok p => rfl

theorem okShiftResult_eq {K : Type} (d : SymEigsShiftSolver K)
    (x : Except Err (SymEigsShiftSolver K × Int)) (h : x.isOk = true) :
    x = .ok (okShiftResult d x) := by
  cases x with
  | error e => simp [Except.isOk, Except.toBool] at h
  | ok p => rfl

/-- C2 at concrete runs with `nev = 2`, `ncv = 3` on the operator `A6` (eigenvalues `-11`,
`-2`, `7`), start vector `e0`, `compute(5, 1/4)`. Under `BOTH_ENDS` the wanted values are
stored as `7, -11` and returned as `-11, 7`; under `SMALLEST_MAGN` they are stored as `-2, 7`
and returned as `7, -2`; the shift-invert solver with `sigma = 1` under `LARGEST_MAGN` has the
Ritz values `-11, 7` and returns `1/7 + 1, 1 - 1/11`. The Lanczos run is exact (`H = A6`,
`V = I`, `f = 0`) and the stored pairs are eigenpairs of `H`. -/
theorem C2_eigenvalues_descending_magnitude_witness :
    SortSpec ops6.sort comp_LARGEST_MAGN ∧
    (solver6 .BOTH_ENDS).nev = 2 ∧
    (∀ i, i < 2 → ∀ l, l < 3 →
      (∑ c in Finset.range 3, run_both_ends.1.fac_H l c * run_both_ends.1.ritz_vec c i) =
        run_both_ends.1.ritz_val i * run_both_ends.1.ritz_vec l i) ∧
    SymEigsSolver.eigenvalues run_both_ends.1 = [-11, 7] ∧
    (SymEigsSolver.eigenvalues run_both_ends.1).Pairwise (fun a b => |a| ≥ |b|) ∧
    SymEigsSolver.eigenvalues run_smallest_magn.1 = [7, -2] ∧
    (SymEigsSolver.eigenvalues run_smallest_magn.1).Pairwise (fun a b => |a| ≥ |b|) ∧
    SymEigsSolver.eigenvalues run_shift.1.base = [8 / 7, 10 / 11] ∧
    (SymEigsSolver.eigenvalues run_shift.1.base).Pairwise (fun a b => |a| ≥ |b|) :=
  ⟨std_sort_spec strictWeak_LARGEST_MAGN, by decide!, by decide!, by decide!,
    (C2_eigenvalues_descending_magnitude ops6 (std_sort_spec strictWeak_LARGEST_MAGN)
      5 (1 / 4) 0).1 (solver6 .BOTH_ENDS) _ _ (okResult_eq solver3 _ (by decide!)),
    by decide!,
    (C2_eigenvalues_descending_magnitude ops6 (std_sort_spec strictWeak_LARGEST_MAGN)
      5 (1 / 4) 0).1 (solver6 .SMALLEST_MAGN) _ _ (okResult_eq solver3 _ (by decide!)),
    by decide!,
    (C2_eigenvalues_descending_magnitude ops6 (std_sort_spec strictWeak_LARGEST_MAGN)
      5 (1 / 4) 0).2 shift6 _ _ (okShiftResult_eq shift6 _ (by decide!))⟩

/-- C10: the `sort_ritzpair` of the shift solver is the base `sort_ritzpair` run on the state
in which each of the first `nev` Ritz values `θ` is replaced by `1/θ + σ`; it leaves
`ritz_val[nev..]` unchanged, and when the stored values are `θ_i = 1/(λ_i − σ)` with
`λ_i ≠ σ`, each replaced value is `λ_i` and the first `nev` values on exit are a
rearrangement of the `λ_i`. -/
theorem C10_shift_untransform (ops : Ops K) (sigma : K) (st : SymEigsSolver K) (lam : Vec K)
    (hsort : SortSpec ops.sort comp_LARGEST_MAGN)
    (hθ : ∀ i, i < st.nev → st.ritz_val i = 1 / (lam i - sigma))
    (hne : ∀ i, i < st.nev → lam i ≠ sigma) :
    SymEigsShiftSolver.sort_ritzpair ops sigma st =
      SymEigsSolver.sort_ritzpair ops
        { st with ritz_val := fun i =>
            if i < st.nev then 1 / st.ritz_val i + sigma else st.ritz_val i } ∧
    (∀ i, st.nev ≤ i →
      (SymEigsShiftSolver.sort_ritzpair ops sigma st).ritz_val i = st.ritz_val i) ∧
    ((List.range st.nev).map (SymEigsShiftSolver.sort_ritzpair ops sigma st).ritz_val).Perm
      ((List.range st.nev).map (fun i => 1 / st.ritz_val i + sigma)) ∧
    (∀ i, i < st.nev → 1 / st.ritz_val i + sigma = lam i) ∧
    ((List.range st.nev).map (SymEigsShiftSolver.sort_ritzpair ops sigma st).ritz_val).Perm
      ((List.range st.nev).map lam) := by
  have h3 : ((List.range st.nev).map (SymEigsShiftSolver.sort_ritzpair ops sigma st).ritz_val).Perm
      ((List.range st.nev).map (fun i => 1 / st.ritz_val i + sigma)) := by
    have h := sort_ritzpair_perm ops
      { st with ritz_val := fun i =>
          if i < st.nev then 1 / st.ritz_val i + sigma else st.ritz_val i } hsort
    refine h.trans (List.Perm.of_eq ?_)
    apply List.map_congr_left
    intro i hi
    rw [List.mem_range] at hi
    exact if_pos hi
  have h4 : ∀ i, i < st.nev → 1 / st.ritz_val i + sigma = lam i := by
    intro i hi
    have hx : lam i - sigma ≠ 0 := sub_ne_zero.mpr (hne i hi)
    rw [hθ i hi]
    field_simp
  refine ⟨rfl, ?_, h3, h4, ?_⟩
  · intro i hi
    have hi2 : ¬ i < st.nev := not_lt.mpr hi
    simp only [SymEigsShiftSolver.sort_ritzpair, SymEigsSolver.sort_ritzpair, if_neg hi2]
  · refine h3.trans (List.Perm.of_eq ?_)
    apply List.map_congr_left
    intro i hi
    rw [List.mem_range] at hi
    exact h4 i hi

/-- C10 at a concrete state: `σ = 11/2` and Ritz values `−2, 2` (that is `λ = 5, 6`). -/
theorem C10_shift_untransform_witness :
    (∀ i, i < shift_solver3.base.nev →
      shift_solver3.base.ritz_val i = 1 / ((fun i => if i = 0 then (5 : ℚ) else 6) i - 11 / 2)) ∧
    (List.range 3).map
      (SymEigsShiftSolver.sort_ritzpair (ratOps 3 A3) (11 / 2) shift_solver3.base).ritz_val
      = [6, 5, 2 / 3] ∧
    ((List.range shift_solver3.base.nev).map
      (SymEigsShiftSolver.sort_ritzpair (ratOps 3 A3) (11 / 2) shift_solver3.base).ritz_val).Perm
      ((List.range shift_solver3.base.nev).map (fun i => if i = 0 then (5 : ℚ) else 6)) :=
  ⟨by decide!, by decide!,
    (C10_shift_untransform (ratOps 3 A3) (11 / 2) shift_solver3.base
      (fun i => if i = 0 then (5 : ℚ) else 6) (std_sort_spec strictWeak_LARGEST_MAGN)
      (by decide!) (by decide!)).2.2.2.2⟩

/-- C9 at a concrete state: `H = diag(1, 2, 3, 4, 5)`, stored order `5, 1, 4, 2, 3`. -/
theorem C9_both_ends_interleave_witness :
    (List.range 5).map (SymEigsSolver.retrieve_ritzpair diagOps solver5).ritz_val
      = [5, 1, 4, 2, 3] ∧
    ((diagOps.sort comp_BOTH_ENDS (SymEigsSolver.eig_pairs diagOps solver5)).map Prod.fst)
      = [5, 4, 3, 2, 1] ∧
    (∀ k, k ≤ solver5.ncv →
      (((List.range solver5.ncv).map
          (SymEigsSolver.retrieve_ritzpair diagOps solver5).ritz_val).take k).Perm
        (((diagOps.sort comp_BOTH_ENDS (SymEigsSolver.eig_pairs diagOps solver5)).map
            Prod.fst).take ((k + 1) / 2) ++
          ((diagOps.sort comp_BOTH_ENDS (SymEigsSolver.eig_pairs diagOps solver5)).map
            Prod.fst).drop (solver5.ncv - k / 2))) :=
  ⟨by decide!, by decide!,
    (C9_both_ends_interleave diagOps solver5 rfl (by decide!) (by decide!)).2.2.1⟩

/-! ## The restart loop of `compute` -/

theorem foldl_invariant {σ ι : Type} (P : σ → Prop) (f : σ → ι → σ)
    (h : ∀ s i, P s → P (f s i)) (l : List ι) (s : σ) (hs : P s) : P (l.foldl f s) := by
  induction l generalizing s with
  | nil => exact hs
  | cons x xs ih => exact ih _ (h s x hs)

omit [LinearOrderedField K] in
theorem SameParams.refl (a : SymEigsSolver K) : SameParams a a := ⟨rfl, rfl, rfl, rfl, rfl⟩

omit [LinearOrderedField K] in
theorem SameParams.trans {a b c : SymEigsSolver K} (h1 : SameParams a b) (h2 : SameParams b c) :
    SameParams a c :=
  ⟨h1.1.trans h2.1, h1.2.1.trans h2.2.1, h1.2.2.1.trans h2.2.2.1, h1.2.2.2.1.trans h2.2.2.2.1,
    h1.2.2.2.2.trans h2.2.2.2.2⟩

theorem factorize_from_frame (ops : Ops K) (st : SymEigsSolver K) (from_k to_m : Nat)
    (fk : Vec K) :
    SameParams (SymEigsSolver.factorize_from ops st from_k to_m fk) st ∧
    (SymEigsSolver.factorize_from ops st from_k to_m fk).ritz_conv = st.ritz_conv ∧
    (SymEigsSolver.factorize_from ops st from_k to_m fk).niter = st.niter := by
  unfold SymEigsSolver.factorize_from
  split
  · exact ⟨SameParams.refl _, rfl, rfl⟩
  · exact foldl_invariant
      (fun s => SameParams s st ∧ s.ritz_conv = st.ritz_conv ∧ s.niter = st.niter)
      (fun s i => SymEigsSolver.factorize_step ops i s) (fun _ _ hs => hs) _ _
      ⟨SameParams.refl _, rfl, rfl⟩

theorem retrieve_ritzpair_frame (ops : Ops K) (st : SymEigsSolver K) :
    SameParams (SymEigsSolver.retrieve_ritzpair ops st) st ∧
    (SymEigsSolver.retrieve_ritzpair ops st).ritz_conv = st.ritz_conv ∧
    (SymEigsSolver.retrieve_ritzpair ops st).niter = st.niter ∧
    (SymEigsSolver.retrieve_ritzpair ops st).fac_V = st.fac_V ∧
    (SymEigsSolver.retrieve_ritzpair ops st).fac_H = st.fac_H ∧
    (SymEigsSolver.retrieve_ritzpair ops st).fac_f = st.fac_f := by
  unfold SymEigsSolver.retrieve_ritzpair
  split
  · exact ⟨SameParams.refl _, rfl, rfl, rfl, rfl, rfl⟩
  · exact ⟨SameParams.refl _, rfl, rfl, rfl, rfl, rfl⟩

theorem restart_shifts_frame (ops : Ops K) (st : SymEigsSolver K) (l : List Nat) (em : Vec K) :
    SameParams (l.foldl (fun s i => SymEigsSolver.restart_shift ops i s) (st, em)).1 st ∧
    (l.foldl (fun s i => SymEigsSolver.restart_shift ops i s) (st, em)).1.ritz_conv
      = st.ritz_conv ∧
    (l.foldl (fun s i => SymEigsSolver.restart_shift ops i s) (st, em)).1.niter = st.niter :=
  foldl_invariant
    (fun s : SymEigsSolver K × Vec K =>
      SameParams s.1 st ∧ s.1.ritz_conv = st.ritz_conv ∧ s.1.niter = st.niter)
    (fun s i => SymEigsSolver.restart_shift ops i s) (fun _ _ hs => hs) l (st, em)
    ⟨SameParams.refl _, rfl, rfl⟩

theorem restart_frame (ops : Ops K) (st : SymEigsSolver K) (k : Nat) :
    SameParams (SymEigsSolver.restart ops st k) st ∧
    (SymEigsSolver.restart ops st k).ritz_conv = st.ritz_conv ∧
    (SymEigsSolver.restart ops st k).niter = st.niter := by
  unfold SymEigsSolver.restart
  split
  · exact ⟨SameParams.refl _, rfl, rfl⟩
  · exact ⟨(retrieve_ritzpair_frame ops _).1.trans ((factorize_from_frame ops _ _ _ _).1.trans
        (restart_shifts_frame ops st _ _).1),
      (retrieve_ritzpair_frame ops _).2.1.trans ((factorize_from_frame ops _ _ _ _).2.1.trans
        (restart_shifts_frame ops st _ _).2.1),
      (retrieve_ritzpair_frame ops _).2.2.1.trans ((factorize_from_frame ops _ _ _ _).2.2.trans
        (restart_shifts_frame ops st _ _).2.2)⟩

theorem num_converged_ok (ops : Ops K) (st st1 : SymEigsSolver K) (tol : K) (nc : Nat)
    (h : SymEigsSolver.num_converged ops st tol = .ok (st1, nc)) :
    ∃ cl, ops.clamp st.nev (fun i => |st.ritz_val i|) st.prec
        (vec_max st.nev (fun i => |st.ritz_val i|)) = .ok cl ∧
      st1 = { st with ritz_conv := (fun i =>
        decide (|st.ritz_vec (st.ncv - 1) i| * ops.norm st.dim_n st.fac_f < tol * cl i)) } ∧
      nc = (List.range st.nev).countP st1.ritz_conv := by
  unfold SymEigsSolver.num_converged at h
  simp only at h
  split at h
  · cases h
  · rename_i cl hcl
    injection h with h
    injection h with h1 h2
    exact ⟨cl, hcl, h1.symm, by rw [← h1, ← h2]⟩

theorem num_converged_frame (ops : Ops K) (st st1 : SymEigsSolver K) (tol : K) (nc : Nat)
    (h : SymEigsSolver.num_converged ops st tol = .ok (st1, nc)) :
    SameParams st1 st ∧ st1.niter = st.niter := by
  obtain ⟨cl, _, h1, _⟩ := num_converged_ok ops st st1 tol nc h
  subst h1
  exact ⟨SameParams.refl _, rfl⟩

/-- The ways the restart loop of `compute` ends: without a pass (`rem = 0`), by the `break`
right after a `num_converged` call, or after the `restart` of the last pass. -/
theorem compute_loop_spec (ops : Ops K) (tol : K) (rem : Nat) :
    ∀ (st : SymEigsSolver K) (nconv : Int) (i : Nat) (st2 : SymEigsSolver K) (nc2 : Int)
      (i2 : Nat),
    SymEigsSolver.compute_loop ops tol rem st nconv i = .ok (st2, nc2, i2) →
    (rem = 0 ∧ st2 = st ∧ nc2 = nconv ∧ i2 = i) ∨
    (∃ (stX : SymEigsSolver K) (nc : Nat),
      SymEigsSolver.num_converged ops stX tol = .ok (st2, nc) ∧ nc2 = nc ∧ st2.nev ≤ nc ∧
      i ≤ i2 ∧ i2 < i + rem ∧ SameParams stX st ∧ stX.niter = st.niter) ∨
    (∃ (stX st1 : SymEigsSolver K) (nc : Nat),
      SymEigsSolver.num_converged ops stX tol = .ok (st1, nc) ∧ nc2 = nc ∧ nc < st1.nev ∧
      st2 = SymEigsSolver.restart ops st1 (SymEigsSolver.nev_adjusted st1 nc).toNat ∧
      i2 = i + rem ∧ 0 < rem ∧ SameParams stX st ∧ stX.niter = st.niter) := by
  induction rem with
  | zero =>
    intro st nconv i st2 nc2 i2 h
    unfold SymEigsSolver.compute_loop at h
    injection h with h
    injection h with h1 h2
    injection h2 with h2 h3
    exact Or.inl ⟨rfl, h1.symm, h2.symm, h3.symm⟩
  | succ rem ih =>
    intro st nconv i st2 nc2 i2 h
    unfold SymEigsSolver.compute_loop at h
    split at h
    · cases h
    · rename_i st1 nc hnc
      have hf := num_converged_frame ops st st1 tol nc hnc
      split at h
      · rename_i hge
        injection h with h
        injection h with h1 h2
        injection h2 with h2 h3
        subst h1
        refine Or.inr (Or.inl ⟨st, nc, hnc, h2.symm, ?_, ?_, ?_, SameParams.refl _, rfl⟩)
        · exact_mod_cast hge
        · omega
        · omega
      · rename_i hlt
        have hlt2 : nc < st1.nev := by
          have : ¬ ((st1.nev : Int) ≤ (nc : Int)) := hlt
          omega
        have hr := restart_frame ops st1 (SymEigsSolver.nev_adjusted st1 nc).toNat
        rcases ih _ _ _ _ _ _ h with ⟨h0, h1, h2, h3⟩ | ⟨stX, nc', h1, h2, h3, h4, h5, h6, h7⟩ |
          ⟨stX, st1', nc', h1, h2, h3, h4, h5, h6, h7, h8⟩
        · refine Or.inr (Or.inr ⟨st, st1, nc, hnc, h2, hlt2, h1, ?_, ?_, SameParams.refl _, rfl⟩)
          · omega
          · omega
        · refine Or.inr (Or.inl ⟨stX, nc', h1, h2, h3, ?_, ?_, ?_, ?_⟩)
          · omega
          · omega
          · exact h6.trans (hr.1.trans hf.1)
          · rw [h7, hr.2.2, hf.2]
        · refine Or.inr (Or.inr ⟨stX, st1', nc', h1, h2, h3, h4, ?_, ?_, ?_, ?_⟩)
          · omega
          · omega
          · exact h7.trans (hr.1.trans hf.1)
          · rw [h8, hr.2.2, hf.2]

theorem sort_ritzpair_indices (ops : Ops K) (st : SymEigsSolver K)
    (hsort : SortSpec ops.sort comp_LARGEST_MAGN) :
    ((List.range st.nev).map
      (fun i => ((ops.sort comp_LARGEST_MAGN st.ritz_pairs).getD i (0, 0)).2)).Perm
      (List.range st.nev) := by
  have hlen : (ops.sort comp_LARGEST_MAGN st.ritz_pairs).length = st.nev := by
    rw [sortSpec_length hsort]
    simp [SymEigsSolver.ritz_pairs]
  have h := map_getD_range (ops.sort comp_LARGEST_MAGN st.ritz_pairs) (0, 0) Prod.snd
  rw [hlen] at h
  rw [h]
  refine ((hsort st.ritz_pairs).1.map Prod.snd).trans (List.Perm.of_eq ?_)
  simp [SymEigsSolver.ritz_pairs, Function.comp_def]

theorem sort_ritzpair_count (ops : Ops K) (st : SymEigsSolver K)
    (hsort : SortSpec ops.sort comp_LARGEST_MAGN) :
    (List.range st.nev).countP (SymEigsSolver.sort_ritzpair ops st).ritz_conv =
      (List.range st.nev).countP st.ritz_conv := by
  have h := (sort_ritzpair_indices ops st hsort).countP_eq st.ritz_conv
  rw [List.countP_map] at h
  exact h

theorem sort_ritzpair_index (ops : Ops K) (st : SymEigsSolver K)
    (hsort : SortSpec ops.sort comp_LARGEST_MAGN) (i : Nat) (hi : i < st.nev) :
    ∃ j, j < st.nev ∧
      (SymEigsSolver.sort_ritzpair ops st).ritz_val i = st.ritz_val j ∧
      (∀ r, (SymEigsSolver.sort_ritzpair ops st).ritz_vec r i = st.ritz_vec r j) ∧
      (SymEigsSolver.sort_ritzpair ops st).ritz_conv i = st.ritz_conv j := by
  have hlen : (ops.sort comp_LARGEST_MAGN st.ritz_pairs).length = st.nev := by
    rw [sortSpec_length hsort]
    simp [SymEigsSolver.ritz_pairs]
  have hi2 : i < (ops.sort comp_LARGEST_MAGN st.ritz_pairs).length := by omega
  have hmem : (ops.sort comp_LARGEST_MAGN st.ritz_pairs).getD i (0, 0) ∈ st.ritz_pairs := by
    rw [List.getD_eq_getElem _ _ hi2]
    exact (hsort st.ritz_pairs).1.subset (List.getElem_mem _)
  unfold SymEigsSolver.ritz_pairs at hmem
  rw [List.mem_map] at hmem
  obtain ⟨j, hj, hjeq⟩ := hmem
  rw [List.mem_range] at hj
  have hjeq : (ops.sort comp_LARGEST_MAGN st.ritz_pairs).getD i (0, 0) = (st.ritz_val j, j) :=
    hjeq.symm
  refine ⟨j, hj, ?_, ?_, ?_⟩
  · simp only [SymEigsSolver.sort_ritzpair, if_pos hi]
    show ((ops.sort comp_LARGEST_MAGN st.ritz_pairs).getD i (0, 0)).1 = st.ritz_val j
    rw [hjeq]
  · intro r
    show st.ritz_vec r ((ops.sort comp_LARGEST_MAGN st.ritz_pairs).getD i (0, 0)).2 = _
    rw [hjeq]
  · show st.ritz_conv ((ops.sort comp_LARGEST_MAGN st.ritz_pairs).getD i (0, 0)).2 = _
    rw [hjeq]

omit [LinearOrderedField K] in
theorem eigenvalues_length (st : SymEigsSolver K) :
    (SymEigsSolver.eigenvalues st).length = (List.range st.nev).countP st.ritz_conv := by
  unfold SymEigsSolver.eigenvalues
  simp only
  split
  · rename_i h
    rw [h]
    rfl
  · rw [List.length_map, List.countP_eq_length_filter]

omit [LinearOrderedField K] in
theorem countP_range_le (p : Nat → Bool) (n : Nat) : (List.range n).countP p ≤ n := by
  have h := List.countP_le_length p (l := List.range n)
  simpa using h

/-- For `maxit ≥ 1` the value returned by `compute` is the number of flags set in
`ritz_conv`, which is the length of `eigenvalues()` and lies in `0..nev`. -/
theorem compute_returns_count (ops : Ops K) (hsort : SortSpec ops.sort comp_LARGEST_MAGN)
    (st st1 : SymEigsSolver K) (maxit : Int) (tol : K) (nconv0 r : Int) (hmaxit : 1 ≤ maxit)
    (h : SymEigsSolver.compute ops st maxit tol nconv0 = .ok (st1, r)) :
    r = ((List.range st1.nev).countP st1.ritz_conv : Nat) ∧
    r = ((SymEigsSolver.eigenvalues st1).length : Nat) ∧ 0 ≤ r ∧ r ≤ st1.nev := by
  obtain ⟨st2, nc, i, hloop, h1, h2⟩ := compute_with_ok _ ops st maxit tol nconv0 st1 r h
  have hrem : maxit.toNat ≠ 0 := by omega
  have hcount : nc = ((List.range st2.nev).countP st2.ritz_conv : Nat) := by
    rcases compute_loop_spec ops tol _ _ _ _ _ _ _ hloop with ⟨h0, _⟩ |
      ⟨stX, nc', ha, hb, _⟩ | ⟨stX, sta, nc', ha, hb, _, hd, _⟩
    · exact absurd h0 hrem
    · obtain ⟨cl, _, _, hc3⟩ := num_converged_ok ops stX st2 tol nc' ha
      have hp := (num_converged_frame ops stX st2 tol nc' ha).1.1
      rw [hb, hc3, hp]
    · obtain ⟨cl, _, _, hc3⟩ := num_converged_ok ops stX sta tol nc' ha
      have hp := (num_converged_frame ops stX sta tol nc' ha).1.1
      have hr := restart_frame ops sta (SymEigsSolver.nev_adjusted sta nc').toNat
      rw [hb, hc3, hd, hr.2.1, hr.1.1, hp]
  have hnev : st1.nev = st2.nev := by rw [h1]; rfl
  have hconv : (List.range st1.nev).countP st1.ritz_conv =
      (List.range st2.nev).countP st2.ritz_conv := by
    rw [h1]
    exact sort_ritzpair_count ops st2 hsort
  have hle := countP_range_le st2.ritz_conv st2.nev
  have hr : r = ((List.range st2.nev).countP st2.ritz_conv : Nat) := by
    rw [h2, hcount]
    show min (st2.nev : Int) _ = _
    rw [min_eq_right]
    exact_mod_cast hle
  rw [eigenvalues_length, hconv, hnev]
  refine ⟨hr, hr, ?_, ?_⟩
  · rw [hr]; exact Int.natCast_nonneg _
  · rw [hr]; exact_mod_cast hle

/-! ## Residual of the returned pairs -/

theorem foldl_max_ge (x : Vec K) (l : List Nat) (init : K) :
    init ≤ l.foldl (fun m i => max m (x i)) init ∧
    ∀ j ∈ l, x j ≤ l.foldl (fun m i => max m (x i)) init := by
  induction l generalizing init with
  | nil => exact ⟨le_rfl, fun j hj => by cases hj⟩
  | cons a as ih =>
    have h := ih (max init (x a))
    refine ⟨le_trans (le_max_left _ _) h.1, ?_⟩
    intro j hj
    rcases List.mem_cons.mp hj with rfl | hj2
    · exact le_trans (le_max_right _ _) h.1
    · exact h.2 j hj2

theorem vec_max_ge (n : Nat) (x : Vec K) (j : Nat) (hj : j < n) : x j ≤ vec_max n x :=
  (foldl_max_ge x (List.range n) (x 0)).2 j (List.mem_range.mpr hj)

theorem arma_clamp_spec : ClampSpec (arma_clamp : Nat → Vec K → K → K → Except Err (Vec K)) := by
  intro n x lo hi y h i _ hxi
  unfold arma_clamp at h
  split at h
  · cases h
  · injection h with h
    subst h
    simp only
    split
    · rename_i h1
      exact (max_eq_left (le_of_lt h1)).symm
    · rename_i h1
      rw [if_neg (not_lt.mpr hxi)]
      exact (max_eq_right (not_lt.mp h1)).symm

theorem mulVec_linear (n m : Nat) (A : Mat K) : LinearOp n (mulVec m A) := by
  constructor
  · intro x y r _
    simp only [mulVec, mul_add, Finset.sum_add_distrib]
  · intro c x r _
    simp only [mulVec, Finset.mul_sum]
    apply Finset.sum_congr rfl
    intro j _
    ring

theorem linear_mulVec (n : Nat) (prod : Vec K → Vec K) (h : LinearOp n prod) (m : Nat)
    (V : Mat K) (z : Vec K) (r : Nat) (hr : r < n) :
    prod (mulVec m V z) r = ∑ j in Finset.range m, prod (col V j) r * z j := by
  induction m with
  | zero =>
    have e : mulVec 0 V z = fun i => (0 : K) * (0 : K) := by
      funext i
      simp [mulVec]
    rw [e, h.2 0 (fun _ => 0) r hr]
    simp
  | succ m ih =>
    have e : mulVec (m + 1) V z = fun i => mulVec m V z i + (fun i => z m * col V m i) i := by
      funext i
      simp [mulVec, col, Finset.sum_range_succ, mul_comm]
    rw [e, h.1 _ _ r hr, h.2 _ _ r hr, ih, Finset.sum_range_succ]
    ring

/-- The residual of a Ritz pair: from `A·V = V·H + f·e_{m−1}ᵀ` and `H·z = θ·z` follows
`A·(V·z) − θ·(V·z) = z[m−1]·f`. -/
theorem ritz_residual_identity (n m : Nat) (prod : Vec K → Vec K) (V H : Mat K) (f z : Vec K)
    (θ : K) (hm : 1 ≤ m) (hlin : LinearOp n prod)
    (hfact : ∀ j, j < m → ∀ r, r < n →
      prod (col V j) r = (∑ l in Finset.range m, V r l * H l j) + (if j = m - 1 then f r else 0))
    (heig : ∀ l, l < m → (∑ c in Finset.range m, H l c * z c) = θ * z l)
    (r : Nat) (hr : r < n) :
    prod (mulVec m V z) r - θ * mulVec m V z r = z (m - 1) * f r := by
  rw [linear_mulVec n prod hlin m V z r hr]
  have h1 : ∑ j in Finset.range m, prod (col V j) r * z j =
      ∑ j in Finset.range m, ((∑ l in Finset.range m, V r l * H l j) * z j +
        (if j = m - 1 then f r * z j else 0)) := by
    apply Finset.sum_congr rfl
    intro j hj
    rw [hfact j (Finset.mem_range.mp hj) r hr, add_mul]
    congr 1
    split <;> simp
  rw [h1, Finset.sum_add_distrib]
  have h2 : ∑ j in Finset.range m, (if j = m - 1 then f r * z j else 0) = f r * z (m - 1) := by
    rw [Finset.sum_ite_eq' (Finset.range m) (m - 1) (fun j => f r * z j)]
    rw [if_pos (Finset.mem_range.mpr (by omega))]
  have h3 : ∑ j in Finset.range m, (∑ l in Finset.range m, V r l * H l j) * z j =
      θ * mulVec m V z r := by
    have : ∀ j ∈ Finset.range m, (∑ l in Finset.range m, V r l * H l j) * z j =
        ∑ l in Finset.range m, V r l * (H l j * z j) := by
      intro j _
      rw [Finset.sum_mul]
      apply Finset.sum_congr rfl
      intro l _
      ring
    rw [Finset.sum_congr rfl this, Finset.sum_comm]
    simp only [mulVec, Finset.mul_sum]
    apply Finset.sum_congr rfl
    intro l hl
    rw [← Finset.mul_sum, heig l (Finset.mem_range.mp hl)]
    ring
  rw [h2, h3]
  ring

omit [LinearOrderedField K] in
theorem all_of_countP_ge (p : Nat → Bool) (n : Nat) (h : n ≤ (List.range n).countP p) :
    ∀ i, i < n → p i = true := by
  have hle := countP_range_le p n
  have heq : (List.range n).countP p = (List.range n).length := by
    rw [List.length_range]; omega
  rw [List.countP_eq_length] at heq
  intro i hi
  exact heq i (List.mem_range.mpr hi)

omit [LinearOrderedField K] in
theorem filter_range_all (p : Nat → Bool) (n : Nat) (h : ∀ i, i < n → p i = true) :
    (List.range n).filter p = List.range n := by
  rw [List.filter_eq_self]
  intro i hi
  exact h i (List.mem_range.mp hi)

/-- When `compute` returns at least `nev` after `maxit ≥ 1`, the loop ended by its `break`:
every flag is set and every stored pair passed the test of `num_converged` on the final
factorization. -/
theorem compute_converged_exit (ops : Ops K) (hsort : SortSpec ops.sort comp_LARGEST_MAGN)
    (hclamp : ClampSpec ops.clamp)
    (st st1 : SymEigsSolver K) (maxit : Int) (tol : K) (nconv0 r : Int) (hmaxit : 1 ≤ maxit)
    (h : SymEigsSolver.compute ops st maxit tol nconv0 = .ok (st1, r))
    (hret : (st1.nev : Int) ≤ r) :
    ∀ i, i < st1.nev →
      st1.ritz_conv i = true ∧
      |st1.ritz_vec (st1.ncv - 1) i| * ops.norm st1.dim_n st1.fac_f <
        tol * max st1.prec |st1.ritz_val i| := by
  obtain ⟨st2, nc, k, hloop, h1, h2⟩ := compute_with_ok _ ops st maxit tol nconv0 st1 r h
  have hrem : maxit.toNat ≠ 0 := by omega
  have hnev : st1.nev = st2.nev := by rw [h1]; rfl
  have hr2 : r = min (st2.nev : Int) nc := h2
  rcases compute_loop_spec ops tol _ _ _ _ _ _ _ hloop with ⟨h0, _⟩ |
    ⟨stX, nc', ha, hb, hc, _⟩ | ⟨stX, sta, nc', ha, hb, hc, hd, _⟩
  · exact absurd h0 hrem
  · obtain ⟨cl, hcl, hst2, hcount⟩ := num_converged_ok ops stX st2 tol nc' ha
    have hall : ∀ j, j < st2.nev → st2.ritz_conv j = true :=
      all_of_countP_ge st2.ritz_conv st2.nev (by
        have e : st2.nev = stX.nev := by rw [hst2]
        rw [e, ← hcount, ← e]; exact hc)
    intro i hi
    obtain ⟨j, hj, hv, hz, hcv⟩ := sort_ritzpair_index ops st2 hsort i (by omega)
    have hflag := hall j hj
    have e1 : st1.ritz_conv i = st2.ritz_conv j := by rw [h1]; exact hcv
    have e2 : st1.ritz_val i = st2.ritz_val j := by rw [h1]; exact hv
    have e3 : st1.ritz_vec (st1.ncv - 1) i = st2.ritz_vec (st2.ncv - 1) j := by
      rw [h1]; exact hz _
    have e4 : st1.fac_f = st2.fac_f := by rw [h1]; rfl
    have e5 : st1.dim_n = st2.dim_n := by rw [h1]; rfl
    have e6 : st1.prec = st2.prec := by rw [h1]; rfl
    refine ⟨e1.trans hflag, ?_⟩
    rw [e2, e3, e4, e5, e6]
    have hjX : j < stX.nev := by rw [hst2] at hj; exact hj
    have hclj : cl j = max stX.prec |stX.ritz_val j| :=
      hclamp _ _ _ _ _ hcl j hjX (vec_max_ge stX.nev (fun i => |stX.ritz_val i|) j hjX)
    rw [hst2] at hflag ⊢
    simp only [decide_eq_true_eq] at hflag
    rw [hclj] at hflag
    exact hflag
  · exfalso
    have hr := restart_frame ops sta (SymEigsSolver.nev_adjusted sta nc').toNat
    have e : st2.nev = sta.nev := by rw [hd]; exact hr.1.1
    have : r ≤ nc := by rw [hr2]; exact min_le_right _ _
    rw [hb] at this
    omega

/-- C1: let `compute(maxit, tol)` with `maxit ≥ 1` return at least `nev`. If on the returned
state `A·V = V·H + f·e_{m−1}ᵀ` holds and the stored Ritz pairs are exact eigenpairs of `H`
(`A` linear, the norm absolutely homogeneous at `f`), then `eigenvalues()` and
`eigenvectors()` return all `nev` pairs `(λ_i, u_i = V·z_i)`, and each of them satisfies
`A·u_i − λ_i·u_i = z_i[m−1]·f`, `‖A·u_i − λ_i·u_i‖ = |z_i[m−1]|·‖f‖` and
`|z_i[m−1]|·‖f‖ ≤ tol·max(prec, |λ_i|)`. -/
theorem C1_residual_bound (ops : Ops K) (st st1 : SymEigsSolver K) (maxit : Int) (tol : K)
    (nconv0 r : Int) (hmaxit : 1 ≤ maxit)
    (hrun : SymEigsSolver.compute ops st maxit tol nconv0 = .ok (st1, r))
    (hret : (st1.nev : Int) ≤ r)
    (hncv : 1 ≤ st1.ncv)
    (hsort : SortSpec ops.sort comp_LARGEST_MAGN)
    (hclamp : ClampSpec ops.clamp)
    (hlin : LinearOp st1.dim_n ops.prod)
    (hnorm : ∀ (c : K) (y : Vec K), (∀ r, r < st1.dim_n → y r = c * st1.fac_f r) →
      ops.norm st1.dim_n y = |c| * ops.norm st1.dim_n st1.fac_f)
    (hfact : ∀ j, j < st1.ncv → ∀ r, r < st1.dim_n →
      ops.prod (col st1.fac_V j) r =
        (∑ l in Finset.range st1.ncv, st1.fac_V r l * st1.fac_H l j) +
          (if j = st1.ncv - 1 then st1.fac_f r else 0))
    (heig : ∀ i, i < st1.nev → ∀ l, l < st1.ncv →
      (∑ c in Finset.range st1.ncv, st1.fac_H l c * st1.ritz_vec c i) =
        st1.ritz_val i * st1.ritz_vec l i) :
    SymEigsSolver.eigenvalues st1 = (List.range st1.nev).map st1.ritz_val ∧
    SymEigsSolver.eigenvectors st1 =
      (List.range st1.nev).map (fun i => mulVec st1.ncv st1.fac_V (col st1.ritz_vec i)) ∧
    ∀ i, i < st1.nev →
      (∀ r, r < st1.dim_n →
        ops.prod (mulVec st1.ncv st1.fac_V (col st1.ritz_vec i)) r -
          st1.ritz_val i * mulVec st1.ncv st1.fac_V (col st1.ritz_vec i) r =
        st1.ritz_vec (st1.ncv - 1) i * st1.fac_f r) ∧
      ops.norm st1.dim_n (fun r =>
        ops.prod (mulVec st1.ncv st1.fac_V (col st1.ritz_vec i)) r -
          st1.ritz_val i * mulVec st1.ncv st1.fac_V (col st1.ritz_vec i) r) =
        |st1.ritz_vec (st1.ncv - 1) i| * ops.norm st1.dim_n st1.fac_f ∧
      |st1.ritz_vec (st1.ncv - 1) i| * ops.norm st1.dim_n st1.fac_f ≤
        tol * max st1.prec |st1.ritz_val i| := by
  have hexit := compute_converged_exit ops hsort hclamp st st1 maxit tol nconv0 r hmaxit hrun hret
  have hall : ∀ i, i < st1.nev → st1.ritz_conv i = true := fun i hi => (hexit i hi).1
  have hfilter := filter_range_all st1.ritz_conv st1.nev hall
  have hres : ∀ i, i < st1.nev → ∀ r, r < st1.dim_n →
      ops.prod (mulVec st1.ncv st1.fac_V (col st1.ritz_vec i)) r -
        st1.ritz_val i * mulVec st1.ncv st1.fac_V (col st1.ritz_vec i) r =
      st1.ritz_vec (st1.ncv - 1) i * st1.fac_f r := by
    intro i hi r hr
    exact ritz_residual_identity st1.dim_n st1.ncv ops.prod st1.fac_V st1.fac_H st1.fac_f
      (col st1.ritz_vec i) (st1.ritz_val i) hncv hlin hfact (heig i hi) r hr
  refine ⟨?_, ?_, ?_⟩
  · unfold SymEigsSolver.eigenvalues
    simp only
    split
    · rename_i h0
      rw [List.countP_eq_length_filter, hfilter, List.length_range] at h0
      rw [h0]
      rfl
    · rw [hfilter]
  · unfold SymEigsSolver.eigenvectors
    simp only
    split
    · rename_i h0
      rw [List.countP_eq_length_filter, hfilter, List.length_range] at h0
      rw [h0]
      rfl
    · rw [hfilter]
  · intro i hi
    exact ⟨hres i hi, hnorm _ _ (hres i hi), le_of_lt (hexit i hi).2⟩

theorem sqrt_iter_eq (fuel n g : Nat) (h : g ≤ fuel) : sqrt_iter fuel n g = Nat.sqrt.iter n g := by
  induction fuel generalizing g with
  | zero =>
    have hg : g = 0 := by omega
    subst hg
    unfold Nat.sqrt.iter
    simp [sqrt_iter]
  | succ fuel ih =>
    unfold Nat.sqrt.iter sqrt_iter
    simp only
    split
    · exact ih _ (by omega)
    · rfl

theorem nat_sqrt_eq (n : Nat) : nat_sqrt n = Nat.sqrt n := by
  unfold nat_sqrt Nat.sqrt
  split
  · rfl
  · exact sqrt_iter_eq n n (n / 2) (Nat.div_le_self n 2)

theorem rat_sqrt_mul_self (q : ℚ) : rat_sqrt (q * q) = |q| := by
  rw [← Rat.sqrt_eq q]
  unfold rat_sqrt Rat.sqrt
  rw [nat_sqrt_eq, nat_sqrt_eq, Rat.mkRat_eq_div]
  congr 1

/-- The rational norm is absolutely homogeneous at every vector whose norm is rational. -/
theorem rat_norm_homogeneous (n : Nat) (f : Vec ℚ) (ν : ℚ)
    (hf : dot n f f = ν * ν) (c : ℚ) (y : Vec ℚ) (hy : ∀ r, r < n → y r = c * f r) :
    rat_norm n y = |c| * rat_norm n f := by
  have h1 : dot n y y = (c * ν) * (c * ν) := by
    have : dot n y y = c * c * dot n f f := by
      unfold dot
      rw [Finset.mul_sum]
      apply Finset.sum_congr rfl
      intro r hr
      rw [hy r (Finset.mem_range.mp hr)]
      ring
    rw [this, hf]
    ring
  unfold rat_norm
  rw [h1, hf, rat_sqrt_mul_self, rat_sqrt_mul_self, abs_mul]

/-- C1 at a concrete run: the operator `A3`, start vector `e0`, `compute(5, 1)`; the returned
pair is `λ = 50`, `u = (3/5, 4/5, 0)` with residual `(0, 0, 24)`. -/
theorem C1_residual_bound_witness :
    run_converged.2 = 1 ∧
    SymEigsSolver.eigenvalues run_converged.1 = [50] ∧
    dot 3 run_converged.1.fac_f run_converged.1.fac_f = 30 * 30 ∧
    |run_converged.1.ritz_vec 1 0| * rat_norm 3 run_converged.1.fac_f = 24 ∧
    ∀ i, i < run_converged.1.nev →
      (∀ r, r < run_converged.1.dim_n →
        (ratOps 3 A3).prod
            (mulVec run_converged.1.ncv run_converged.1.fac_V (col run_converged.1.ritz_vec i)) r -
          run_converged.1.ritz_val i *
            mulVec run_converged.1.ncv run_converged.1.fac_V (col run_converged.1.ritz_vec i) r =
        run_converged.1.ritz_vec (run_converged.1.ncv - 1) i * run_converged.1.fac_f r) ∧
      (ratOps 3 A3).norm run_converged.1.dim_n (fun r =>
        (ratOps 3 A3).prod
            (mulVec run_converged.1.ncv run_converged.1.fac_V (col run_converged.1.ritz_vec i)) r -
          run_converged.1.ritz_val i *
            mulVec run_converged.1.ncv run_converged.1.fac_V (col run_converged.1.ritz_vec i) r) =
        |run_converged.1.ritz_vec (run_converged.1.ncv - 1) i| *
          (ratOps 3 A3).norm run_converged.1.dim_n run_converged.1.fac_f ∧
      |run_converged.1.ritz_vec (run_converged.1.ncv - 1) i| *
          (ratOps 3 A3).norm run_converged.1.dim_n run_converged.1.fac_f ≤
        1 * max run_converged.1.prec |run_converged.1.ritz_val i| :=
  ⟨by decide!, by decide!, by decide!, by decide!,
    (C1_residual_bound (ratOps 3 A3) solver3_init run_converged.1 5 1 0 run_converged.2
      (by decide) (okResult_eq solver3 _ (by decide!)) (by decide!) (by decide!)
      (std_sort_spec strictWeak_LARGEST_MAGN) arma_clamp_spec (mulVec_linear _ 3 A3)
      (rat_norm_homogeneous _ _ 30 (by decide!)) (by decide!) (by decide!)).2.2⟩

/-! ## The return value and the flags of `compute` -/

/-- With `maxit ≤ 0` the loop body never runs: `compute` returns `min(nev, nconv0)`, where
`nconv0` is whatever the uninitialised local `nconv` holds, and leaves the flags as they
were (up to the reordering of `sort_ritzpair`). -/
theorem compute_maxit_nonpos (ops : Ops K) (st : SymEigsSolver K) (maxit : Int) (tol : K)
    (nconv0 : Int) (h : maxit ≤ 0) :
    SymEigsSolver.compute ops st maxit tol nconv0 =
      .ok ({ SymEigsSolver.sort_ritzpair ops (SymEigsSolver.retrieve_ritzpair ops
              (SymEigsSolver.factorize_from ops st 1 st.ncv st.fac_f)) with
            niter := (SymEigsSolver.sort_ritzpair ops (SymEigsSolver.retrieve_ritzpair ops
              (SymEigsSolver.factorize_from ops st 1 st.ncv st.fac_f))).niter + (0 + 1) },
          min (st.nev : Int) nconv0) := by
  have h0 : maxit.toNat = 0 := by omega
  have hnev : (SymEigsSolver.retrieve_ritzpair ops
      (SymEigsSolver.factorize_from ops st 1 st.ncv st.fac_f)).nev = st.nev :=
    ((retrieve_ritzpair_frame ops _).1.trans (factorize_from_frame ops st 1 st.ncv st.fac_f).1).1
  unfold SymEigsSolver.compute SymEigsSolver.compute_with
  simp only [h0, SymEigsSolver.compute_loop]
  congr 3
  show ((SymEigsSolver.retrieve_ritzpair ops
      (SymEigsSolver.factorize_from ops st 1 st.ncv st.fac_f)).nev : Int) = _
  rw [hnev]

/-- C4 at the failing input `init(e0)`, `compute(0, 1/4)` on the operator `A3`: the call
returns `min(nev, nconv0)` for the indeterminate `nconv0` (1 for `nconv0 = 7`, −5 for
`nconv0 = −5`) although no flag of `ritz_conv` is set and `eigenvalues()` is empty. -/
theorem C4_maxit_zero_returns_uninitialised :
    (SymEigsSolver.compute (ratOps 3 A3) solver3_init 0 (1 / 4) 7).isOk = true ∧
    (okResult solver3 (SymEigsSolver.compute (ratOps 3 A3) solver3_init 0 (1 / 4) 7)).2 = 1 ∧
    (okResult solver3 (SymEigsSolver.compute (ratOps 3 A3) solver3_init 0 (1 / 4) (-5))).2 = -5 ∧
    (List.range 1).countP
      (okResult solver3 (SymEigsSolver.compute (ratOps 3 A3) solver3_init 0 (1 / 4) 7)).1.ritz_conv
      = 0 ∧
    SymEigsSolver.eigenvalues
      (okResult solver3 (SymEigsSolver.compute (ratOps 3 A3) solver3_init 0 (1 / 4) 7)).1 = [] := by
  decide!

/-- C3 at the failing input `init(e0)`, `compute(1, 1/4)` on the operator `A3`: the first
test fails (`24 ≥ 25/2`), `restart(1)` replaces the Ritz pair, and `compute` returns 0 with
the flag still unset, so `eigenvalues()` and `eigenvectors()` are empty; yet the pair stored
on return (`θ = 68`, `z = (4/5, 3/5)`, `‖f‖ = 18`) is an exact eigenpair of the final `H` and
passes the convergence test, `54/5 < 17`. -/
theorem C3_stale_flags_after_last_restart :
    (SymEigsSolver.compute (ratOps 3 A3) solver3_init 1 (1 / 4) 0).isOk = true ∧
    run_maxit.2 = 0 ∧
    run_maxit.1.ritz_conv 0 = false ∧
    SymEigsSolver.eigenvalues run_maxit.1 = [] ∧
    (SymEigsSolver.eigenvectors run_maxit.1).length = 0 ∧
    run_maxit.1.nev = 1 ∧ run_maxit.1.ncv = 2 ∧
    run_maxit.1.ritz_val 0 = 68 ∧
    (∀ l, l < 2 → (∑ c in Finset.range 2, run_maxit.1.fac_H l c * run_maxit.1.ritz_vec c 0) =
      run_maxit.1.ritz_val 0 * run_maxit.1.ritz_vec l 0) ∧
    dot 3 run_maxit.1.fac_f run_maxit.1.fac_f = 18 * 18 ∧
    |run_maxit.1.ritz_vec (run_maxit.1.ncv - 1) 0| * rat_norm 3 run_maxit.1.fac_f = 54 / 5 ∧
    1 / 4 * max run_maxit.1.prec |run_maxit.1.ritz_val 0| = 17 ∧
    |run_maxit.1.ritz_vec (run_maxit.1.ncv - 1) 0| * rat_norm 3 run_maxit.1.fac_f <
      1 / 4 * max run_maxit.1.prec |run_maxit.1.ritz_val 0| := by
  decide!

/-! ## The selection-rule sort of `retrieve_ritzpair` -/

theorem retrieve_with_comp (ops : Ops K) (st : SymEigsSolver K)
    (comp : SortPair K → SortPair K → Bool)
    (hc : EigenvalueComparator st.SelectionRule = some comp)
    (hnb : st.SelectionRule ≠ .BOTH_ENDS) :
    (∀ i, i < st.ncv → (SymEigsSolver.retrieve_ritzpair ops st).ritz_val i =
      ((ops.sort comp (SymEigsSolver.eig_pairs ops st)).getD i (0, 0)).1) ∧
    (∀ i, i < st.nev → ∀ r, (SymEigsSolver.retrieve_ritzpair ops st).ritz_vec r i =
      (ops.eig_sym st.ncv (symmatl st.fac_H)).2 r
        ((ops.sort comp (SymEigsSolver.eig_pairs ops st)).getD i (0, 0)).2) := by
  unfold SymEigsSolver.retrieve_ritzpair
  split
  · rename_i heq
    rw [hc] at heq
    cases heq
  · rename_i comp1 heq
    rw [hc] at heq
    injection heq with heq
    subst heq
    constructor
    · intro i hi
      simp only [if_neg hnb, if_pos hi]
      rfl
    · intro i hi r
      simp only [if_neg hnb, if_pos hi]
      rfl

/-- C8, amended: under the strict rules `LARGEST_MAGN` and `LARGEST_ALGE`, whenever
`std::sort` meets its guarantee, `retrieve_ritzpair` stores in `ritz_val` a rearrangement of
the eigenvalues in which no later entry is strictly preferred to an earlier one, and there
is a rearrangement `idx` of the indices with `ritz_val[i] = evals[idx i]` for `i < ncv` and
`ritz_vec[:, i] = evecs[:, idx i]` for `i < nev`. -/
theorem C8_strict_rules_sorted (ops : Ops K) (st : SymEigsSolver K)
    (hrule : st.SelectionRule = .LARGEST_MAGN ∨ st.SelectionRule = .LARGEST_ALGE)
    (hsortM : SortSpec ops.sort comp_LARGEST_MAGN)
    (hsortA : SortSpec ops.sort comp_LARGEST_ALGE) :
    ((List.range st.ncv).map (SymEigsSolver.retrieve_ritzpair ops st).ritz_val).Perm
      ((List.range st.ncv).map (ops.eig_sym st.ncv (symmatl st.fac_H)).1) ∧
    (st.SelectionRule = .LARGEST_MAGN →
      ((List.range st.ncv).map (SymEigsSolver.retrieve_ritzpair ops st).ritz_val).Pairwise
        (fun a b => ¬ |b| > |a|)) ∧
    (st.SelectionRule = .LARGEST_ALGE →
      ((List.range st.ncv).map (SymEigsSolver.retrieve_ritzpair ops st).ritz_val).Pairwise
        (fun a b => ¬ b > a)) ∧
    ∃ idx : Nat → Nat,
      ((List.range st.ncv).map idx).Perm (List.range st.ncv) ∧
      (∀ i, i < st.ncv → (SymEigsSolver.retrieve_ritzpair ops st).ritz_val i =
        (ops.eig_sym st.ncv (symmatl st.fac_H)).1 (idx i)) ∧
      (∀ i, i < st.nev → ∀ r, (SymEigsSolver.retrieve_ritzpair ops st).ritz_vec r i =
        (ops.eig_sym st.ncv (symmatl st.fac_H)).2 r (idx i)) := by
  -- the comparator of the rule and the guarantee of the sort for it
  obtain ⟨comp, hc, hnb, hsort⟩ : ∃ comp : SortPair K → SortPair K → Bool,
      EigenvalueComparator st.SelectionRule = some comp ∧ st.SelectionRule ≠ .BOTH_ENDS ∧
      SortSpec ops.sort comp := by
    rcases hrule with h | h
    · exact ⟨comp_LARGEST_MAGN, by rw [h]; rfl, by rw [h]; decide, hsortM⟩
    · exact ⟨comp_LARGEST_ALGE, by rw [h]; rfl, by rw [h]; decide, hsortA⟩
  obtain ⟨hval, hvec⟩ := retrieve_with_comp ops st comp hc hnb
  have hperm := (hsort (SymEigsSolver.eig_pairs ops st)).1
  have hlen : (ops.sort comp (SymEigsSolver.eig_pairs ops st)).length = st.ncv := by
    rw [hperm.length_eq]
    simp [SymEigsSolver.eig_pairs]
  have hvals : (List.range st.ncv).map (SymEigsSolver.retrieve_ritzpair ops st).ritz_val =
      (ops.sort comp (SymEigsSolver.eig_pairs ops st)).map Prod.fst := by
    rw [← map_getD_range (ops.sort comp (SymEigsSolver.eig_pairs ops st)) (0, 0) Prod.fst, hlen]
    apply List.map_congr_left
    intro i hi
    exact hval i (List.mem_range.mp hi)
  have hmem : ∀ i, i < st.ncv →
      ((ops.sort comp (SymEigsSolver.eig_pairs ops st)).getD i (0, 0)).1 =
        (ops.eig_sym st.ncv (symmatl st.fac_H)).1
          ((ops.sort comp (SymEigsSolver.eig_pairs ops st)).getD i (0, 0)).2 := by
    intro i hi
    have hi2 : i < (ops.sort comp (SymEigsSolver.eig_pairs ops st)).length := by omega
    have hm : (ops.sort comp (SymEigsSolver.eig_pairs ops st)).getD i (0, 0) ∈
        SymEigsSolver.eig_pairs ops st := by
      rw [List.getD_eq_getElem _ _ hi2]
      exact hperm.subset (List.getElem_mem _)
    unfold SymEigsSolver.eig_pairs at hm
    rw [List.mem_map] at hm
    obtain ⟨j, _, hj⟩ := hm
    have hj2 : (ops.sort comp (SymEigsSolver.eig_pairs ops st)).getD i (0, 0) =
        ((ops.eig_sym st.ncv (symmatl st.fac_H)).1 j, j) := hj.symm
    rw [hj2]
  refine ⟨?_, ?_, ?_, fun i => ((ops.sort comp (SymEigsSolver.eig_pairs ops st)).getD i (0, 0)).2,
    ?_, ?_, hvec⟩
  · rw [hvals]
    refine (hperm.map Prod.fst).trans (List.Perm.of_eq ?_)
    simp [SymEigsSolver.eig_pairs, Function.comp_def]
  · intro h
    have e : comp = comp_LARGEST_MAGN := by
      rw [h] at hc
      injection hc with hc
      exact hc.symm
    rw [hvals, List.pairwise_map]
    refine (hsort (SymEigsSolver.eig_pairs ops st)).2.imp ?_
    intro a b hab
    rw [e] at hab
    simpa [comp_LARGEST_MAGN] using hab
  · intro h
    have e : comp = comp_LARGEST_ALGE := by
      rw [h] at hc
      injection hc with hc
      exact hc.symm
    rw [hvals, List.pairwise_map]
    refine (hsort (SymEigsSolver.eig_pairs ops st)).2.imp ?_
    intro a b hab
    rw [e] at hab
    simpa [comp_LARGEST_ALGE] using hab
  · have h := map_getD_range (ops.sort comp (SymEigsSolver.eig_pairs ops st)) (0, 0) Prod.snd
    rw [hlen] at h
    rw [h]
    refine (hperm.map Prod.snd).trans (List.Perm.of_eq ?_)
    simp [SymEigsSolver.eig_pairs, Function.comp_def]
  · intro i hi
    rw [hval i hi]
    exact hmem i hi

/-- C8 at a concrete state: `H` with rows `(34, 12)`, `(12, 41)` under `LARGEST_MAGN`; the
eigenvalues `25, 50` are stored as `50, 25`. -/
theorem C8_strict_rules_sorted_witness :
    (List.range 2).map (SymEigsSolver.retrieve_ritzpair (ratOps 3 A3) solver3_fact).ritz_val
      = [50, 25] ∧
    (List.range 2).map ((ratOps 3 A3).eig_sym solver3_fact.ncv (symmatl solver3_fact.fac_H)).1
      = [25, 50] ∧
    ((List.range solver3_fact.ncv).map
      (SymEigsSolver.retrieve_ritzpair (ratOps 3 A3) solver3_fact).ritz_val).Perm
      ((List.range solver3_fact.ncv).map
        ((ratOps 3 A3).eig_sym solver3_fact.ncv (symmatl solver3_fact.fac_H)).1) :=
  ⟨by decide!, by decide!,
    (C8_strict_rules_sorted (ratOps 3 A3) solver3_fact (Or.inl (by decide!))
      (std_sort_spec strictWeak_LARGEST_MAGN) (std_sort_spec strictWeak_LARGEST_ALGE)).1⟩

/-- C8 refuted at a state reached by `compute` under `SMALLEST_MAGN` (operator `A4`, start
vector `e0`): `eig_sym` returns the eigenvalues `−25, 25` of `H`, which tie under
`|a| ≤ |b|`; the insertion sort that `std::sort` runs on short ranges moves the later one to
the front, so the tied entries leave the sort in the order of indices `1, 0`, `ritz_val` is
`25, −25` and column 0 of `ritz_vec` is the eigenvector of index 1. -/
theorem C8_ties_reordered_counterexample :
    solver_sm.SelectionRule = .SMALLEST_MAGN ∧
    solver_sm.fac_H 0 0 = -7 ∧ solver_sm.fac_H 1 0 = 24 ∧
    solver_sm.fac_H 0 1 = 24 ∧ solver_sm.fac_H 1 1 = 7 ∧
    SymEigsSolver.eig_pairs (ratOps 3 A4) solver_sm = [(-25, 0), (25, 1)] ∧
    comp_SMALLEST_MAGN ((-25 : ℚ), 0) ((25 : ℚ), 1) = true ∧
    comp_SMALLEST_MAGN ((25 : ℚ), 1) ((-25 : ℚ), 0) = true ∧
    (ratOps 3 A4).sort comp_SMALLEST_MAGN (SymEigsSolver.eig_pairs (ratOps 3 A4) solver_sm)
      = [(25, 1), (-25, 0)] ∧
    ¬TiesKeepOrder comp_SMALLEST_MAGN
      ((ratOps 3 A4).sort comp_SMALLEST_MAGN (SymEigsSolver.eig_pairs (ratOps 3 A4) solver_sm)) ∧
    (List.range 2).map (SymEigsSolver.retrieve_ritzpair (ratOps 3 A4) solver_sm).ritz_val
      = [25, -25] ∧
    (∀ r, r < 2 → (SymEigsSolver.retrieve_ritzpair (ratOps 3 A4) solver_sm).ritz_vec r 0 =
      ((ratOps 3 A4).eig_sym 2 (symmatl solver_sm.fac_H)).2 r 1) ∧
    (List.range 2).map (fun r => ((ratOps 3 A4).eig_sym 2 (symmatl solver_sm.fac_H)).2 r 0)
      = [4 / 5, -3 / 5] ∧
    (List.range 2).map (fun r => ((ratOps 3 A4).eig_sym 2 (symmatl solver_sm.fac_H)).2 r 1)
      = [3 / 5, 4 / 5] := by
  unfold TiesKeepOrder StrictlyPreferred
  decide!

theorem reversing_sort_spec {α : Type} {comp : α → α → Bool} (h : StrictWeak comp) :
    SortSpec reversing_sort comp := by
  intro l
  have h1 := std_sort_spec h l.reverse
  exact ⟨h1.1.trans (List.reverse_perm l), h1.2⟩

/-- The guarantee of `std::sort` does not fix the order of ties, also for a strict rule:
a sort that meets it returns the entries `1` and `−1`, tied under `LARGEST_MAGN`, in the
order of indices `1, 0`. -/
theorem strict_rule_ties_not_fixed :
    SortSpec reversing_sort (comp_LARGEST_MAGN : SortPair ℚ → SortPair ℚ → Bool) ∧
    reversing_sort comp_LARGEST_MAGN [((1 : ℚ), 0), ((-1 : ℚ), 1)] = [(-1, 1), (1, 0)] ∧
    ¬TiesKeepOrder comp_LARGEST_MAGN
      (reversing_sort comp_LARGEST_MAGN [((1 : ℚ), 0), ((-1 : ℚ), 1)]) := by
  refine ⟨reversing_sort_spec strictWeak_LARGEST_MAGN, by decide!, ?_⟩
  unfold TiesKeepOrder StrictlyPreferred
  decide!

/-! ## The Lanczos factorization -/

theorem dot_comm (n : Nat) (x y : Vec K) : dot n x y = dot n y x := by
  unfold dot
  exact Finset.sum_congr rfl (fun i _ => mul_comm _ _)

theorem dot_congr (n : Nat) (x x1 y y1 : Vec K) (hx : ∀ r, r < n → x r = x1 r)
    (hy : ∀ r, r < n → y r = y1 r) : dot n x y = dot n x1 y1 := by
  unfold dot
  apply Finset.sum_congr rfl
  intro r hr
  rw [hx r (Finset.mem_range.mp hr), hy r (Finset.mem_range.mp hr)]

theorem dot_smul_right (n : Nat) (x y : Vec K) (c : K) :
    dot n x (fun r => c * y r) = c * dot n x y := by
  unfold dot
  rw [Finset.mul_sum]
  exact Finset.sum_congr rfl (fun i _ => by ring)

theorem dot_div_right (n : Nat) (x y : Vec K) (c : K) :
    dot n x (fun r => y r / c) = dot n x y / c := by
  unfold dot
  rw [Finset.sum_div]
  exact Finset.sum_congr rfl (fun i _ => by ring)

theorem dot_add_right (n : Nat) (x y z : Vec K) :
    dot n x (fun r => y r + z r) = dot n x y + dot n x z := by
  unfold dot
  rw [← Finset.sum_add_distrib]
  exact Finset.sum_congr rfl (fun i _ => by ring)

theorem dot_sub_right (n : Nat) (x y z : Vec K) :
    dot n x (fun r => y r - z r) = dot n x y - dot n x z := by
  unfold dot
  rw [← Finset.sum_sub_distrib]
  exact Finset.sum_congr rfl (fun i _ => by ring)

theorem dot_sum_right (n m : Nat) (x : Vec K) (g : Nat → Nat → K) :
    dot n x (fun r => ∑ l in Finset.range m, g r l) =
      ∑ l in Finset.range m, dot n x (fun r => g r l) := by
  unfold dot
  simp only [Finset.mul_sum]
  exact Finset.sum_comm

theorem dot_zero_right (n : Nat) (x : Vec K) : dot n x (fun _ => 0) = 0 := by
  unfold dot
  simp

theorem factorize_step_H_old (ops : Ops K) (s : SymEigsSolver K) (i r c : Nat)
    (h : ¬(r = i ∨ c = i)) :
    (SymEigsSolver.factorize_step ops i s).fac_H r c = s.fac_H r c := by
  push_neg at h
  simp [SymEigsSolver.factorize_step, setEntry, h.1, h.2]

theorem factorize_step_inv (ops : Ops K) (s : SymEigsSolver K) (i : Nat) (hi : 1 ≤ i)
    (hprec : 0 ≤ s.prec)
    (hsym : ∀ x y, dot s.dim_n x (ops.prod y) = dot s.dim_n (ops.prod x) y)
    (hnorm : ops.norm s.dim_n s.fac_f * ops.norm s.dim_n s.fac_f = dot s.dim_n s.fac_f s.fac_f)
    (hβ : ops.norm s.dim_n s.fac_f ≠ 0)
    (hinv : LanczosInv ops.prod i s) :
    LanczosInv ops.prod (i + 1) (SymEigsSolver.factorize_step ops i s) := by
  obtain ⟨hO, hF, hZ, hS, hT, hA⟩ := hinv
  set n := s.dim_n with hn
  set β := ops.norm n s.fac_f with hβdef
  set v : Vec K := fun r => s.fac_f r / β with hvdef
  set w : Vec K := ops.prod v with hwdef
  set α : K := dot n v w with hαdef
  set V1 : Mat K := setCol s.fac_V i v with hV1def
  set f1 : Vec K := fun r => w r - β * V1 r (i - 1) - α * v r with hf1def
  set H2 : Mat K := setEntry (setEntry (setEntry s.fac_H i (i - 1) β) (i - 1) i β) i i α
    with hH2def
  have hcol : ∀ a, a ≠ i → col V1 a = col s.fac_V a := by
    intro a ha
    funext r
    simp [col, hV1def, setCol, ha]
  have hcoli : col V1 i = v := by
    funext r
    simp [col, hV1def, setCol]
  have hV1r : ∀ r a, a ≠ i → V1 r a = s.fac_V r a := by
    intro r a ha
    simp [hV1def, setCol, ha]
  have hV1i : ∀ r, V1 r i = v r := by
    intro r
    simp [hV1def, setCol]
  have hav : ∀ a, a < i → dot n (col s.fac_V a) v = 0 := by
    intro a ha
    rw [hvdef, dot_div_right, hF a ha, zero_div]
  have hfv : dot n s.fac_f v = β := by
    rw [hvdef, dot_div_right, ← hnorm]
    field_simp
  have hvv : dot n v v = 1 := by
    rw [dot_comm, hvdef, dot_div_right]
    have : dot n (fun r => s.fac_f r / β) s.fac_f = β := by
      rw [dot_comm]; exact hfv
    rw [this]
    exact div_self hβ
  have hAv : ∀ a, a < i → dot n (col s.fac_V a) w = if a + 1 = i then β else 0 := by
    intro a ha
    rw [hwdef, hsym, dot_comm]
    rw [dot_congr n v v (ops.prod (col s.fac_V a))
      (fun r => (∑ l in Finset.range i, s.fac_V r l * s.fac_H l a) +
        (if a + 1 = i then s.fac_f r else 0)) (fun _ _ => rfl) (fun r hr => hA a ha r hr)]
    rw [dot_add_right, dot_sum_right]
    have h1 : ∑ l in Finset.range i, dot n v (fun r => s.fac_V r l * s.fac_H l a) = 0 := by
      apply Finset.sum_eq_zero
      intro l hl
      have e : (fun r => s.fac_V r l * s.fac_H l a) = fun r => s.fac_H l a * col s.fac_V l r := by
        funext r
        simp [col, mul_comm]
      rw [e, dot_smul_right, dot_comm, hav l (Finset.mem_range.mp hl), mul_zero]
    rw [h1, zero_add]
    split
    · rw [dot_comm]; exact hfv
    · exact dot_zero_right n v
  have hf1 : ∀ a, a < i + 1 → dot n (col V1 a) f1 = 0 := by
    intro a ha
    have e : f1 = fun r => (w r - β * col s.fac_V (i - 1) r) - α * v r := by
      funext r
      simp only [hf1def, col]
      rw [hV1r r (i - 1) (by omega)]
    rw [e, dot_sub_right, dot_sub_right, dot_smul_right, dot_smul_right]
    by_cases hai : a = i
    · subst hai
      rw [hcoli, hvv, dot_comm n v (col s.fac_V (a - 1)), hav (a - 1) (by omega)]
      ring
    · have ha2 : a < i := by omega
      rw [hcol a hai, hAv a ha2, hav a ha2, hO a (i - 1) ha2 (by omega)]
      by_cases h1 : a + 1 = i
      · have h2 : a = i - 1 := by omega
        rw [if_pos h1, if_pos h2]
        ring
      · have h2 : ¬ a = i - 1 := by omega
        rw [if_neg h1, if_neg h2]
        ring
  have hv1f : dot n f1 (col V1 0) = 0 := by
    rw [dot_comm]
    exact hf1 0 (by omega)
  have hstep : SymEigsSolver.factorize_step ops i s =
      { s with fac_V := V1, fac_H := H2, fac_f := f1, nmatop := s.nmatop + 1 } := by
    unfold SymEigsSolver.factorize_step
    simp only
    have hcond : ¬(dot n f1 (col V1 0) > s.prec ∨ dot n f1 (col V1 0) < -s.prec) := by
      rw [hv1f]
      intro h
      rcases h with h | h
      · exact absurd h (not_lt.mpr hprec)
      · have : -s.prec ≤ 0 := neg_nonpos.mpr hprec
        exact absurd h (not_lt.mpr this)
    rw [if_neg hcond]
  rw [hstep]
  refine ⟨?_, ?_, ?_, ?_, ?_, ?_⟩
  · -- orthonormal columns
    intro a b ha hb
    show dot n (col V1 a) (col V1 b) = _
    by_cases hai : a = i
    · by_cases hbi : b = i
      · rw [hai, hbi, hcoli, hvv, if_pos rfl]
      · rw [hai, hcoli, hcol b hbi, dot_comm, hav b (by omega), if_neg (fun h => hbi h.symm)]
    · by_cases hbi : b = i
      · rw [hbi, hcoli, hcol a hai, hav a (by omega), if_neg hai]
      · rw [hcol a hai, hcol b hbi]
        exact hO a b (by omega) (by omega)
  · -- the residual is orthogonal to the columns
    intro a ha
    exact hf1 a ha
  · -- zero outside of the leading block
    intro r c hrc
    show H2 r c = 0
    have h1 : ¬(r = i ∧ c = i) := by omega
    have h2 : ¬(r = i - 1 ∧ c = i) := by omega
    have h3 : ¬(r = i ∧ c = i - 1) := by omega
    simp only [hH2def, setEntry, if_neg h1, if_neg h2, if_neg h3]
    exact hZ r c (by omega)
  · -- symmetric
    intro r c
    show H2 r c = H2 c r
    simp only [hH2def, setEntry]
    split_ifs <;> first | rfl | (exfalso; (try simp only [and_true, true_and] at *); omega) | exact hS r c
  · -- tridiagonal
    intro r c hrc
    show H2 r c = 0
    have h1 : ¬(r = i ∧ c = i) := by omega
    have h2 : ¬(r = i - 1 ∧ c = i) := by omega
    have h3 : ¬(r = i ∧ c = i - 1) := by omega
    simp only [hH2def, setEntry, if_neg h1, if_neg h2, if_neg h3]
    exact hT r c hrc
  · -- the factorization identity
    intro j hj r hr
    show ops.prod (col V1 j) r =
      (∑ l in Finset.range (i + 1), V1 r l * H2 l j) + (if j + 1 = i + 1 then f1 r else 0)
    rw [Finset.sum_range_succ, hV1i r]
    have hsum : ∀ g : Nat → K, (∑ l in Finset.range i, V1 r l * g l) =
        ∑ l in Finset.range i, s.fac_V r l * g l := by
      intro g
      apply Finset.sum_congr rfl
      intro l hl
      rw [hV1r r l (by have := Finset.mem_range.mp hl; omega)]
    rw [hsum]
    by_cases hji : j = i
    · subst hji
      rw [hcoli, if_pos rfl]
      have hH2jj : H2 j j = α := by simp [hH2def, setEntry]
      have hH2l : ∀ l, l < j → H2 l j = if l = j - 1 then β else 0 := by
        intro l hl
        simp only [hH2def, setEntry]
        split_ifs <;> first | rfl | (exfalso; (try simp only [and_true, true_and] at *); omega) | exact hZ l j (Or.inr le_rfl)
      have hs2 : (∑ l in Finset.range j, s.fac_V r l * H2 l j) = β * s.fac_V r (j - 1) := by
        rw [Finset.sum_congr rfl (fun l hl => by rw [hH2l l (Finset.mem_range.mp hl)])]
        simp only [mul_ite, mul_zero]
        rw [Finset.sum_ite_eq' (Finset.range j) (j - 1) (fun l => s.fac_V r l * β)]
        rw [if_pos (Finset.mem_range.mpr (by omega))]
        ring
      rw [hs2, hH2jj]
      show w r = _
      simp only [hf1def]
      rw [hV1r r (j - 1) (by omega)]
      ring
    · have hj2 : j < i := by omega
      rw [hcol j hji, hA j hj2 r hr, if_neg (show ¬ j + 1 = i + 1 by omega)]
      have hH2l : ∀ l, l < i → H2 l j = s.fac_H l j := by
        intro l hl
        simp only [hH2def, setEntry]
        split_ifs <;> first | rfl | (exfalso; (try simp only [and_true, true_and] at *); omega)
      have hH2i : H2 i j = if j + 1 = i then β else 0 := by
        simp only [hH2def, setEntry]
        split_ifs <;> first | rfl | (exfalso; (try simp only [and_true, true_and] at *); omega) | exact hZ i j (Or.inl le_rfl)
      have hs : (∑ l in Finset.range i, s.fac_V r l * H2 l j) =
          ∑ l in Finset.range i, s.fac_V r l * s.fac_H l j :=
        Finset.sum_congr rfl (fun l hl => by rw [hH2l l (Finset.mem_range.mp hl)])
      rw [hs, hH2i, add_zero]
      congr 1
      split
      · simp only [hvdef]
        field_simp
      · ring

theorem factorize_steps_H_old (ops : Ops K) (cnt : Nat) :
    ∀ (i0 : Nat) (s : SymEigsSolver K) (r c : Nat), r < i0 → c < i0 →
      ((List.range' i0 cnt).foldl (fun s i => SymEigsSolver.factorize_step ops i s) s).fac_H r c
        = s.fac_H r c := by
  induction cnt with
  | zero => intro i0 s r c _ _; rfl
  | succ cnt ih =>
    intro i0 s r c hr hc
    rw [List.range'_succ, List.foldl_cons, ih (i0 + 1) _ r c (by omega) (by omega)]
    exact factorize_step_H_old ops s i0 r c (by omega)

theorem factorize_step_beta (ops : Ops K) (s : SymEigsSolver K) (i : Nat) (hi : 1 ≤ i) :
    (SymEigsSolver.factorize_step ops i s).fac_H i (i - 1) = ops.norm s.dim_n s.fac_f := by
  have h3 : i - 1 ≠ i := by omega
  simp [SymEigsSolver.factorize_step, setEntry, h3]

theorem factorize_loop_inv (ops : Ops K) (n : Nat)
    (hsym : ∀ x y, dot n x (ops.prod y) = dot n (ops.prod x) y)
    (hnorm : ∀ x, ops.norm n x * ops.norm n x = dot n x x) (cnt : Nat) :
    ∀ (i : Nat) (s : SymEigsSolver K), 1 ≤ i → s.dim_n = n → 0 ≤ s.prec →
      LanczosInv ops.prod i s →
      (∀ j, i ≤ j → j < i + cnt →
        ((List.range' i cnt).foldl (fun s i => SymEigsSolver.factorize_step ops i s) s).fac_H
          j (j - 1) ≠ 0) →
      LanczosInv ops.prod (i + cnt)
        ((List.range' i cnt).foldl (fun s i => SymEigsSolver.factorize_step ops i s) s) ∧
      ((List.range' i cnt).foldl (fun s i => SymEigsSolver.factorize_step ops i s) s).dim_n
        = n := by
  induction cnt with
  | zero =>
    intro i s _ hn _ hinv _
    exact ⟨hinv, hn⟩
  | succ cnt ih =>
    intro i s hi hn hprec hinv hnb
    rw [List.range'_succ, List.foldl_cons] at hnb ⊢
    have hβ : ops.norm s.dim_n s.fac_f ≠ 0 := by
      have h := hnb i le_rfl (by omega)
      rw [factorize_steps_H_old ops cnt (i + 1) _ i (i - 1) (by omega) (by omega),
        factorize_step_beta ops s i hi] at h
      exact h
    have hstep := factorize_step_inv ops s i hi hprec (by rw [hn]; exact hsym)
      (by rw [hn]; exact hnorm _) hβ hinv
    have h := ih (i + 1) (SymEigsSolver.factorize_step ops i s) (by omega) hn hprec hstep
      (fun j hj1 hj2 => hnb j (by omega) (by omega))
    have e : i + 1 + cnt = i + (cnt + 1) := by omega
    rw [e] at h
    exact h

/-- C7, amended: let `A` be symmetric and the norm Euclidean, `1 ≤ from_k < ncv`, and on entry
let the first `from_k` columns of `V` be orthonormal, the leading `from_k × from_k` block of `H`
symmetric tridiagonal, `A·V[:, :k] = V[:, :k]·H[:k, :k] + fk·e_{k−1}ᵀ` and `fk` orthogonal to
those columns. If no pass meets a zero residual norm (every `β = H[i, i−1]` that
`factorize_from(from_k, ncv, fk)` stores is nonzero), then afterwards
`A·V = V·H + f·e_{m−1}ᵀ` with `m = ncv`, all `m` columns of `V` are orthonormal, `H` is
symmetric and zero outside of its tridiagonal band, and `f` is orthogonal to the columns. -/
theorem C7_factorize_from_invariant (ops : Ops K) (st : SymEigsSolver K) (from_k : Nat)
    (fk : Vec K) (hk : 1 ≤ from_k) (hkm : from_k < st.ncv) (hprec : 0 ≤ st.prec)
    (hsym : ∀ x y, dot st.dim_n x (ops.prod y) = dot st.dim_n (ops.prod x) y)
    (hnorm : ∀ x, ops.norm st.dim_n x * ops.norm st.dim_n x = dot st.dim_n x x)
    (horth : ∀ a b, a < from_k → b < from_k →
      dot st.dim_n (col st.fac_V a) (col st.fac_V b) = if a = b then 1 else 0)
    (hHsym : ∀ r c, r < from_k → c < from_k → st.fac_H r c = st.fac_H c r)
    (hHtri : ∀ r c, r < from_k → c < from_k → r + 1 < c → st.fac_H r c = 0)
    (hfact : ∀ j, j < from_k → ∀ r, r < st.dim_n →
      ops.prod (col st.fac_V j) r =
        (∑ l in Finset.range from_k, st.fac_V r l * st.fac_H l j) +
          (if j = from_k - 1 then fk r else 0))
    (hfk : ∀ a, a < from_k → dot st.dim_n (col st.fac_V a) fk = 0)
    (hnb : ∀ i, from_k ≤ i → i < st.ncv →
      (SymEigsSolver.factorize_from ops st from_k st.ncv fk).fac_H i (i - 1) ≠ 0) :
    (∀ j, j < st.ncv → ∀ r, r < st.dim_n →
      ops.prod (col (SymEigsSolver.factorize_from ops st from_k st.ncv fk).fac_V j) r =
        (∑ l in Finset.range st.ncv,
          (SymEigsSolver.factorize_from ops st from_k st.ncv fk).fac_V r l *
            (SymEigsSolver.factorize_from ops st from_k st.ncv fk).fac_H l j) +
          (if j = st.ncv - 1 then
            (SymEigsSolver.factorize_from ops st from_k st.ncv fk).fac_f r else 0)) ∧
    (∀ a b, a < st.ncv → b < st.ncv →
      dot st.dim_n (col (SymEigsSolver.factorize_from ops st from_k st.ncv fk).fac_V a)
        (col (SymEigsSolver.factorize_from ops st from_k st.ncv fk).fac_V b) =
        if a = b then 1 else 0) ∧
    (∀ r c, r < st.ncv → c < st.ncv →
      (SymEigsSolver.factorize_from ops st from_k st.ncv fk).fac_H r c =
        (SymEigsSolver.factorize_from ops st from_k st.ncv fk).fac_H c r) ∧
    (∀ r c, r < st.ncv → c < st.ncv → r + 1 < c ∨ c + 1 < r →
      (SymEigsSolver.factorize_from ops st from_k st.ncv fk).fac_H r c = 0) ∧
    (∀ a, a < st.ncv →
      dot st.dim_n (col (SymEigsSolver.factorize_from ops st from_k st.ncv fk).fac_V a)
        (SymEigsSolver.factorize_from ops st from_k st.ncv fk).fac_f = 0) := by
  have hunf : SymEigsSolver.factorize_from ops st from_k st.ncv fk =
      (List.range' from_k (st.ncv - from_k)).foldl
        (fun s i => SymEigsSolver.factorize_step ops i s)
        { st with
          fac_f := fk
          fac_H := fun r c => if from_k ≤ c ∨ from_k ≤ r then 0 else st.fac_H r c } := by
    unfold SymEigsSolver.factorize_from
    rw [if_neg (by omega)]
  have hinit : LanczosInv ops.prod from_k
      { st with
        fac_f := fk
        fac_H := fun r c => if from_k ≤ c ∨ from_k ≤ r then 0 else st.fac_H r c } := by
    refine ⟨horth, hfk, ?_, ?_, ?_, ?_⟩
    · intro r c hrc
      show (if from_k ≤ c ∨ from_k ≤ r then 0 else st.fac_H r c) = 0
      rw [if_pos (by omega)]
    · intro r c
      show (if from_k ≤ c ∨ from_k ≤ r then 0 else st.fac_H r c) =
        (if from_k ≤ r ∨ from_k ≤ c then 0 else st.fac_H c r)
      by_cases h : from_k ≤ c ∨ from_k ≤ r
      · rw [if_pos h, if_pos (by omega)]
      · rw [if_neg h, if_neg (by omega)]
        exact hHsym r c (by omega) (by omega)
    · intro r c hrc
      show (if from_k ≤ c ∨ from_k ≤ r then 0 else st.fac_H r c) = 0
      by_cases h : from_k ≤ c ∨ from_k ≤ r
      · rw [if_pos h]
      · rw [if_neg h]
        exact hHtri r c (by omega) (by omega) hrc
    · intro j hj r hr
      show ops.prod (col st.fac_V j) r =
        (∑ l in Finset.range from_k,
          st.fac_V r l * (if from_k ≤ j ∨ from_k ≤ l then 0 else st.fac_H l j)) +
          (if j + 1 = from_k then fk r else 0)
      rw [hfact j hj r hr]
      congr 1
      · apply Finset.sum_congr rfl
        intro l hl
        have := Finset.mem_range.mp hl
        rw [if_neg (by omega)]
      · by_cases h : j + 1 = from_k
        · rw [if_pos h, if_pos (by omega)]
        · rw [if_neg h, if_neg (by omega)]
  rw [hunf] at hnb ⊢
  have hloop := factorize_loop_inv ops st.dim_n hsym hnorm (st.ncv - from_k) from_k
    { st with
      fac_f := fk
      fac_H := fun r c => if from_k ≤ c ∨ from_k ≤ r then 0 else st.fac_H r c } hk rfl
    hprec hinit (fun j hj1 hj2 => hnb j hj1 (by omega))
  have e : from_k + (st.ncv - from_k) = st.ncv := by omega
  rw [e] at hloop
  obtain ⟨⟨hO, hF, hZ, hS, hT, hA⟩, hdim⟩ := hloop
  rw [hdim] at hO hF hA
  refine ⟨?_, hO, fun r c _ _ => hS r c, ?_, hF⟩
  · intro j hj r hr
    rw [hA j hj r hr]
    congr 1
    by_cases h : j + 1 = st.ncv
    · rw [if_pos h, if_pos (by omega)]
    · rw [if_neg h, if_neg (by omega)]
  · intro r c _ _ hrc
    rcases hrc with h | h
    · exact hT r c h
    · rw [hS r c]
      exact hT c r h

theorem mulVec_symmetric (n : Nat) (A : Mat K) (hA : ∀ r c, r < n → c < n → A r c = A c r)
    (x y : Vec K) : dot n x (mulVec n A y) = dot n (mulVec n A x) y := by
  unfold dot mulVec
  simp only [Finset.mul_sum, Finset.sum_mul]
  rw [Finset.sum_comm]
  apply Finset.sum_congr rfl
  intro c hc
  apply Finset.sum_congr rfl
  intro r hr
  rw [hA r c (Finset.mem_range.mp hr) (Finset.mem_range.mp hc)]
  ring

theorem dot_self_nonneg (n : Nat) (x : Vec K) : 0 ≤ dot n x x := by
  unfold dot
  exact Finset.sum_nonneg (fun i _ => mul_self_nonneg (x i))

theorem factorize_from_beta_first (ops : Ops K) (st : SymEigsSolver K) (from_k to_m : Nat)
    (fk : Vec K) (hk : 1 ≤ from_k) (hkm : from_k < to_m) :
    (SymEigsSolver.factorize_from ops st from_k to_m fk).fac_H from_k (from_k - 1) =
      ops.norm st.dim_n fk := by
  unfold SymEigsSolver.factorize_from
  rw [if_neg (by omega)]
  have e : to_m - from_k = (to_m - from_k - 1) + 1 := by omega
  simp only
  rw [e, List.range'_succ, List.foldl_cons,
    factorize_steps_H_old ops _ (from_k + 1) _ from_k (from_k - 1) (by omega) (by omega),
    factorize_step_beta ops _ from_k hk]

/-- C7 at a concrete input over the reals: the operator `swap2`, `V[:, 0] = e0`, `fk = e1`,
`from_k = 1`, `ncv = 2`. -/
theorem C7_factorize_from_invariant_witness :
    dot 2 (col (SymEigsSolver.factorize_from (sqrtOps Real.sqrt 2 swap2)
        (lanczos_start : SymEigsSolver ℝ) 1 2 (fun r => if r = 1 then 1 else 0)).fac_V 1)
      (col (SymEigsSolver.factorize_from (sqrtOps Real.sqrt 2 swap2)
        (lanczos_start : SymEigsSolver ℝ) 1 2 (fun r => if r = 1 then 1 else 0)).fac_V 1) = 1 ∧
    dot 2 (col (SymEigsSolver.factorize_from (sqrtOps Real.sqrt 2 swap2)
        (lanczos_start : SymEigsSolver ℝ) 1 2 (fun r => if r = 1 then 1 else 0)).fac_V 0)
      (col (SymEigsSolver.factorize_from (sqrtOps Real.sqrt 2 swap2)
        (lanczos_start : SymEigsSolver ℝ) 1 2 (fun r => if r = 1 then 1 else 0)).fac_V 1) = 0 := by
  have hnb : ∀ i, 1 ≤ i → i < (lanczos_start : SymEigsSolver ℝ).ncv →
      (SymEigsSolver.factorize_from (sqrtOps Real.sqrt 2 swap2) (lanczos_start : SymEigsSolver ℝ)
        1 (lanczos_start : SymEigsSolver ℝ).ncv (fun r => if r = 1 then 1 else 0)).fac_H
          i (i - 1) ≠ 0 := by
    intro i h1 h2
    have hi : i = 1 := by
      have : (lanczos_start : SymEigsSolver ℝ).ncv = 2 := rfl
      omega
    subst hi
    rw [factorize_from_beta_first _ _ 1 _ _ le_rfl (by decide)]
    simp [sqrtOps, lanczos_start, dot, Finset.sum_range_succ]
  have h := C7_factorize_from_invariant (sqrtOps Real.sqrt 2 swap2)
    (lanczos_start : SymEigsSolver ℝ) 1 (fun r => if r = 1 then 1 else 0) le_rfl (by decide)
    (by simp [lanczos_start])
    (mulVec_symmetric 2 swap2 (by intro r c _ _; simp [swap2, add_comm]))
    (fun x => Real.mul_self_sqrt (dot_self_nonneg _ x))
    (by
      intro a b ha hb
      have ha0 : a = 0 := by omega
      have hb0 : b = 0 := by omega
      subst ha0 hb0
      simp [lanczos_start, dot, col, Finset.sum_range_succ])
    (by intro r c _ _; rfl)
    (by intro r c _ _ _; rfl)
    (by
      intro j hj r hr
      have hj0 : j = 0 := by omega
      subst hj0
      have hr2 : r < 2 := hr
      interval_cases r <;>
        simp [sqrtOps, mulVec, lanczos_start, swap2, col, Finset.sum_range_succ])
    (by
      intro a ha
      have ha0 : a = 0 := by omega
      subst ha0
      simp [lanczos_start, dot, col, Finset.sum_range_succ])
    hnb
  exact ⟨h.2.1 1 1 (by decide) (by decide), h.2.1 0 1 (by decide) (by decide)⟩

/-- C7 refuted where the residual vanishes: for the identity operator and `V[:, 0] = e0` the
hypotheses of the claim hold with `fk = 0` (the state after `init`), and
`factorize_from(1, 2, fk)` computes `β = ‖fk‖ = 0` and `v = fk/β`; the quotient by zero (here
`0`, in floating point not a number) is stored as column 1 of `V`, which is not a unit
vector. -/
theorem C7_breakdown_counterexample :
    solver_id.dim_n = 2 ∧ solver_id.ncv = 2 ∧
    (∀ r, r < 2 → solver_id.fac_f r = 0) ∧
    (∀ r, r < 2 → ∀ c, c < 2 → id2 r c = id2 c r) ∧
    dot 2 (col solver_id.fac_V 0) (col solver_id.fac_V 0) = 1 ∧
    dot 2 (col solver_id.fac_V 0) solver_id.fac_f = 0 ∧
    (∀ r, r < 2 → (ratOps 2 id2).prod (col solver_id.fac_V 0) r =
      (∑ l in Finset.range 1, solver_id.fac_V r l * solver_id.fac_H l 0) + solver_id.fac_f r) ∧
    rat_norm 2 solver_id.fac_f * rat_norm 2 solver_id.fac_f =
      dot 2 solver_id.fac_f solver_id.fac_f ∧
    (SymEigsSolver.factorize_from (ratOps 2 id2) solver_id 1 2 solver_id.fac_f).fac_H 1 0 = 0 ∧
    dot 2 (col (SymEigsSolver.factorize_from (ratOps 2 id2) solver_id 1 2 solver_id.fac_f).fac_V 1)
      (col (SymEigsSolver.factorize_from (ratOps 2 id2) solver_id 1 2 solver_id.fac_f).fac_V 1)
      = 0 ∧
    ¬(∀ a, a < 2 → ∀ b, b < 2 →
      dot 2 (col (SymEigsSolver.factorize_from (ratOps 2 id2) solver_id 1 2 solver_id.fac_f).fac_V a)
        (col (SymEigsSolver.factorize_from (ratOps 2 id2) solver_id 1 2 solver_id.fac_f).fac_V b)
        = if a = b then 1 else 0) := by
  decide!

/-- When `compute` returns less than `nev` after `maxit ≥ 1`, `maxit` was reached: the last
action of the loop was a `restart`, and the flags in `ritz_conv` are the ones that the last
`num_converged` call set on the state before that restart. -/
theorem compute_exhausted_flags (ops : Ops K) (st st1 : SymEigsSolver K) (maxit : Int) (tol : K)
    (nconv0 r : Int) (hmaxit : 1 ≤ maxit)
    (h : SymEigsSolver.compute ops st maxit tol nconv0 = .ok (st1, r))
    (hlt : r < (st1.nev : Int)) :
    ∃ (stX sta : SymEigsSolver K) (nc : Nat),
      SymEigsSolver.num_converged ops stX tol = .ok (sta, nc) ∧ r = nc ∧
      (SymEigsSolver.restart ops sta (SymEigsSolver.nev_adjusted sta nc).toNat).ritz_conv
        = sta.ritz_conv ∧
      st1.ritz_conv = (SymEigsSolver.sort_ritzpair ops
        (SymEigsSolver.restart ops sta (SymEigsSolver.nev_adjusted sta nc).toNat)).ritz_conv ∧
      st1.ritz_val = (SymEigsSolver.sort_ritzpair ops
        (SymEigsSolver.restart ops sta (SymEigsSolver.nev_adjusted sta nc).toNat)).ritz_val := by
  obtain ⟨st2, nc, k, hloop, h1, h2⟩ := compute_with_ok _ ops st maxit tol nconv0 st1 r h
  have hrem : maxit.toNat ≠ 0 := by omega
  have hnev : st1.nev = st2.nev := by rw [h1]; rfl
  have hr2 : r = min (st2.nev : Int) nc := h2
  rcases compute_loop_spec ops tol _ _ _ _ _ _ _ hloop with ⟨h0, _⟩ |
    ⟨stX, nc', _, hb, hc, _⟩ | ⟨stX, sta, nc', ha, hb, hc, hd, _⟩
  · exact absurd h0 hrem
  · exfalso
    rw [hb] at hr2
    have : (st2.nev : Int) ≤ (nc' : Int) := by exact_mod_cast hc
    rw [min_eq_left this] at hr2
    omega
  · have hr := restart_frame ops sta (SymEigsSolver.nev_adjusted sta nc').toNat
    refine ⟨stX, sta, nc', ha, ?_, hr.2.1, ?_, ?_⟩
    · rw [hr2, hb]
      have e : st2.nev = sta.nev := by rw [hd]; exact hr.1.1
      rw [min_eq_right]
      have : (nc' : Int) < (sta.nev : Int) := by exact_mod_cast hc
      omega
    · rw [h1, hd]
    · rw [h1, hd]

/-- Below `ncv` the function `restart(k)` is its shift loop followed by the residual `fk`,
`factorize_from(k, ncv, fk)` and `retrieve_ritzpair()`. -/
theorem restart_eq_shift_loop (ops : Ops K) (st : SymEigsSolver K) (k : Nat) (hk : k < st.ncv) :
    SymEigsSolver.restart ops st k =
      SymEigsSolver.retrieve_ritzpair ops
        (SymEigsSolver.factorize_from ops (SymEigsSolver.shift_loop ops st k (st.ncv - k)).1 k
          st.ncv (SymEigsSolver.restart_fk (SymEigsSolver.shift_loop ops st k (st.ncv - k)) k)) := by
  unfold SymEigsSolver.restart
  rw [if_neg (by omega)]
  rfl

/-- C14: `nev_adjusted(nconv)` is `ncv / 2` when `nev = 1` and `ncv ≥ 6`, is `2` when `nev = 1`
and `2 < ncv < 6`, and is `nev + min(nconv, (ncv - nev) / 2)` in every other case, the
divisions being truncating integer divisions. -/
theorem C14_nev_adjusted_formula {F : Type} (st : SymEigsSolver F) (nconv : Int) :
    SymEigsSolver.nev_adjusted st nconv =
      if st.nev = 1 ∧ 6 ≤ st.ncv then Int.tdiv (st.ncv : Int) 2
      else if st.nev = 1 ∧ 2 < st.ncv ∧ st.ncv < 6 then 2
      else (st.nev : Int) + min nconv (Int.tdiv ((st.ncv : Int) - (st.nev : Int)) 2) := by
  unfold SymEigsSolver.nev_adjusted
  by_cases h1 : st.nev = 1 ∧ 6 ≤ st.ncv
  · rw [if_pos h1, if_pos (by omega)]
  · rw [if_neg h1, if_neg (by omega)]
    by_cases h2 : st.nev = 1 ∧ 2 < st.ncv ∧ st.ncv < 6
    · rw [if_pos h2, if_pos (by omega)]
    · rw [if_neg h2, if_neg (by omega)]

/-- C15: with `1 ≤ nev < ncv` and `nconv ≥ 0` the restart size `k = nev_adjusted(nconv)`
satisfies `nev ≤ k < ncv` and `k ≥ 1`; so `restart(k)` does not take its early return, its shift
loop `i = k, …, ncv - 1` makes at least one pass, and the indices `k - 1` and `k` of `em`,
`fac_V`, `fac_H` and every index `i` of `ritz_val` read by the loop lie in `0 .. ncv - 1`. -/
theorem C15_restart_size_in_bounds (ops : Ops K) (st : SymEigsSolver K) (nconv : Int)
    (hnev : 1 ≤ st.nev) (hncv : st.nev < st.ncv) (hnc : 0 ≤ nconv) :
    (st.nev : Int) ≤ SymEigsSolver.nev_adjusted st nconv ∧
    SymEigsSolver.nev_adjusted st nconv < (st.ncv : Int) ∧
    1 ≤ SymEigsSolver.nev_adjusted st nconv ∧
    (((SymEigsSolver.nev_adjusted st nconv).toNat : Nat) : Int)
      = SymEigsSolver.nev_adjusted st nconv ∧
    ¬ ((SymEigsSolver.nev_adjusted st nconv).toNat ≥ st.ncv) ∧
    SymEigsSolver.restart ops st (SymEigsSolver.nev_adjusted st nconv).toNat =
      SymEigsSolver.retrieve_ritzpair ops
        (SymEigsSolver.factorize_from ops
          (SymEigsSolver.shift_loop ops st (SymEigsSolver.nev_adjusted st nconv).toNat
            (st.ncv - (SymEigsSolver.nev_adjusted st nconv).toNat)).1
          (SymEigsSolver.nev_adjusted st nconv).toNat st.ncv
          (SymEigsSolver.restart_fk
            (SymEigsSolver.shift_loop ops st (SymEigsSolver.nev_adjusted st nconv).toNat
              (st.ncv - (SymEigsSolver.nev_adjusted st nconv).toNat))
            (SymEigsSolver.nev_adjusted st nconv).toNat)) ∧
    1 ≤ (List.range' (SymEigsSolver.nev_adjusted st nconv).toNat
          (st.ncv - (SymEigsSolver.nev_adjusted st nconv).toNat)).length ∧
    (∀ i ∈ List.range' (SymEigsSolver.nev_adjusted st nconv).toNat
          (st.ncv - (SymEigsSolver.nev_adjusted st nconv).toNat),
        (SymEigsSolver.nev_adjusted st nconv).toNat ≤ i ∧ i < st.ncv) ∧
    1 ≤ (SymEigsSolver.nev_adjusted st nconv).toNat ∧
    (SymEigsSolver.nev_adjusted st nconv).toNat - 1 < st.ncv ∧
    (SymEigsSolver.nev_adjusted st nconv).toNat < st.ncv := by
  have hm : (0 : Int) ≤ (st.ncv : Int) := Int.ofNat_nonneg _
  have hd : (0 : Int) ≤ (st.ncv : Int) - (st.nev : Int) := by omega
  have hlo : (st.nev : Int) ≤ SymEigsSolver.nev_adjusted st nconv := by
    unfold SymEigsSolver.nev_adjusted
    simp only []
    rw [Int.tdiv_eq_ediv hm (by decide), Int.tdiv_eq_ediv hd (by decide)]
    split_ifs with h1 h2
    · omega
    · omega
    · have := le_min hnc (show (0 : Int) ≤ ((st.ncv : Int) - (st.nev : Int)) / 2 by omega)
      omega
  have hhi : SymEigsSolver.nev_adjusted st nconv < (st.ncv : Int) := by
    unfold SymEigsSolver.nev_adjusted
    simp only []
    rw [Int.tdiv_eq_ediv hm (by decide), Int.tdiv_eq_ediv hd (by decide)]
    split_ifs with h1 h2
    · omega
    · omega
    · have := min_le_right nconv (((st.ncv : Int) - (st.nev : Int)) / 2)
      omega
  have hk : (((SymEigsSolver.nev_adjusted st nconv).toNat : Nat) : Int)
      = SymEigsSolver.nev_adjusted st nconv := Int.toNat_of_nonneg (by omega)
  have hklt : (SymEigsSolver.nev_adjusted st nconv).toNat < st.ncv := by omega
  have hk1 : 1 ≤ (SymEigsSolver.nev_adjusted st nconv).toNat := by omega
  refine ⟨hlo, hhi, by omega, hk, by omega, restart_eq_shift_loop ops st _ hklt, ?_, ?_, hk1,
    by omega, hklt⟩
  · rw [List.length_range']
    omega
  · intro i hi
    rw [List.mem_range'_1] at hi
    omega

/-- C15 at the solver `solver3` (`nev = 1`, `ncv = 2`) with no converged value: the restart
size is `1`. -/
theorem C15_restart_size_in_bounds_witness :
    (1 ≤ solver3.nev ∧ solver3.nev < solver3.ncv ∧ (0 : Int) ≤ 0) ∧
    SymEigsSolver.nev_adjusted solver3 0 = 1 ∧
    (SymEigsSolver.nev_adjusted solver3 0).toNat < solver3.ncv :=
  ⟨by decide, by decide,
    (C15_restart_size_in_bounds (ratOps 3 A3) solver3 0 (by decide) (by decide)
      (by decide)).2.2.2.2.2.2.2.2.2.2⟩

/-! ## The iteration counter -/

theorem okState_eq {K : Type} (d : SymEigsSolver K) (x : Except Err (SymEigsSolver K))
    (h : x.isOk = true) : x = .ok (okState d x) := by
  cases x with
  | error e => simp [Except.isOk, Except.toBool] at h
  | ok p => rfl

/-- The loop counter of `compute` at loop exit is its start value plus the number of `restart`
calls; the loop leaves `niter` and `nev` alone, and it ends either with all passes used, each
by a `restart`, or by the `break`, where `nconv ≥ nev`. -/
theorem compute_loop_counts (ops : Ops K) (tol : K) (rem : Nat) :
    ∀ (st : SymEigsSolver K) (nconv : Int) (i : Nat) (st2 : SymEigsSolver K) (nc2 : Int)
      (i2 : Nat),
      SymEigsSolver.compute_loop ops tol rem st nconv i = .ok (st2, nc2, i2) →
      i2 = i + SymEigsSolver.restart_calls ops tol rem st ∧
      st2.niter = st.niter ∧ st2.nev = st.nev ∧
      SymEigsSolver.restart_calls ops tol rem st ≤ rem ∧
      (SymEigsSolver.restart_calls ops tol rem st = rem ∨
        (SymEigsSolver.restart_calls ops tol rem st < rem ∧ (st2.nev : Int) ≤ nc2)) := by
  induction rem with
  | zero =>
    intro st nconv i st2 nc2 i2 h
    unfold SymEigsSolver.compute_loop at h
    injection h with h
    injection h with h1 h
    injection h with h2 h3
    subst h1 h2 h3
    exact ⟨rfl, rfl, rfl, le_refl _, Or.inl rfl⟩
  | succ rem ih =>
    intro st nconv i st2 nc2 i2 h
    unfold SymEigsSolver.compute_loop at h
    unfold SymEigsSolver.restart_calls
    split at h
    · cases h
    · rename_i sta nc heq
      try rw [heq]
      try simp only []
      have hf := num_converged_frame ops st sta tol nc heq
      by_cases hc : (nc : Int) ≥ (sta.nev : Int)
      · rw [if_pos hc] at h
        rw [if_pos hc]
        injection h with h
        injection h with h1 h
        injection h with h2 h3
        subst h1 h2 h3
        exact ⟨rfl, hf.2, hf.1.1, Nat.zero_le _, Or.inr ⟨Nat.succ_pos _, hc⟩⟩
      · rw [if_neg hc] at h
        rw [if_neg hc]
        obtain ⟨h1, h2, h3, h4, h5⟩ := ih _ _ _ _ _ _ h
        have hr := restart_frame ops sta (SymEigsSolver.nev_adjusted sta nc).toNat
        refine ⟨by omega, by rw [h2, hr.2.2, hf.2], by rw [h3, hr.1.1, hf.1.1], by omega, ?_⟩
        rcases h5 with h5 | h5
        · exact Or.inl (by omega)
        · exact Or.inr ⟨by omega, h5.2⟩

/-- C11, amended: after `init` and one `compute(maxit, tol)` call that returns, the `iters`
value reported by `info` is the number of `restart` calls made by `compute` plus one
(`niter += i + 1`), whether `compute` stopped by convergence or used all `maxit` passes;
the number of `restart` calls is at most `maxit`, and it is less than `maxit` only when the
returned count is `nev`. -/
theorem C11_iters_is_restart_calls_plus_one (ops : Ops K) (st st0 st1 : SymEigsSolver K)
    (init_resid : Vec K) (maxit : Int) (tol : K) (nconv0 r : Int)
    (hinit : SymEigsSolver.init ops st init_resid = .ok st0)
    (h : SymEigsSolver.compute ops st0 maxit tol nconv0 = .ok (st1, r)) :
    (SymEigsSolver.info st1).1 =
      SymEigsSolver.restart_calls ops tol maxit.toNat
        (SymEigsSolver.retrieve_ritzpair ops
          (SymEigsSolver.factorize_from ops st0 1 st0.ncv st0.fac_f)) + 1 ∧
    SymEigsSolver.restart_calls ops tol maxit.toNat
        (SymEigsSolver.retrieve_ritzpair ops
          (SymEigsSolver.factorize_from ops st0 1 st0.ncv st0.fac_f)) ≤ maxit.toNat ∧
    (SymEigsSolver.restart_calls ops tol maxit.toNat
        (SymEigsSolver.retrieve_ritzpair ops
          (SymEigsSolver.factorize_from ops st0 1 st0.ncv st0.fac_f)) = maxit.toNat ∨
      r = (st1.nev : Int)) := by
  have h0 : st0.niter = 0 := by
    unfold SymEigsSolver.init at hinit
    simp only [] at hinit
    split at hinit
    · cases hinit
    · injection hinit with hinit
      rw [← hinit]
  obtain ⟨st2, nc, i, hloop, h1, h2⟩ := compute_with_ok _ ops st0 maxit tol nconv0 st1 r h
  obtain ⟨hi, hn, hnev, hle, hor⟩ := compute_loop_counts ops tol _ _ _ _ _ _ _ hloop
  have hniter : st2.niter = 0 := by
    rw [hn, (retrieve_ritzpair_frame ops _).2.2.1, (factorize_from_frame ops _ _ _ _).2.2, h0]
  have hs : (SymEigsSolver.sort_ritzpair ops st2).niter = st2.niter := rfl
  have hsn : (SymEigsSolver.sort_ritzpair ops st2).nev = st2.nev := rfl
  have e1 : st1.niter = (SymEigsSolver.sort_ritzpair ops st2).niter + (i + 1) := by rw [h1]
  have e2 : st1.nev = (SymEigsSolver.sort_ritzpair ops st2).nev := by rw [h1]
  refine ⟨?_, hle, ?_⟩
  · show st1.niter = _
    rw [e1, hs, hniter, hi]
    omega
  · rcases hor with hor | hor
    · exact Or.inl hor
    · right
      rw [h2, e2, hsn]
      exact min_eq_left hor.2

/-- C11 at the run `init(e0)`, `compute(2, 1/4)` on the operator `A3`: one `restart` call, then
convergence; `iters = 2`. -/
theorem C11_iters_is_restart_calls_plus_one_witness :
    (SymEigsSolver.info run_restarted.1).1 =
      SymEigsSolver.restart_calls (ratOps 3 A3) (1 / 4) (2 : Int).toNat
        (SymEigsSolver.retrieve_ritzpair (ratOps 3 A3)
          (SymEigsSolver.factorize_from (ratOps 3 A3) solver3_init 1 solver3_init.ncv
            solver3_init.fac_f)) + 1 ∧
    (SymEigsSolver.info run_restarted.1).1 = 2 ∧ run_restarted.2 = 1 :=
  ⟨(C11_iters_is_restart_calls_plus_one (ratOps 3 A3) solver3 solver3_init run_restarted.1 e0 2
      (1 / 4) 0 run_restarted.2
      (okState_eq solver3 _ (by decide!))
      (okResult_eq solver3 _ (by decide!))).1, by decide!, by decide!⟩

/-- C11 as stated fails on both exits: `init(e0)`, `compute(5, 1)` on the operator `A3` stops
by convergence at the first test, without any `restart` call, and `info` reports `iters = 1`;
`init(e0)`, `compute(1, 1/4)` reaches `maxit = 1` after one `restart` call and `info` reports
`iters = 2`. -/
theorem C11_iters_counterexample :
    (SymEigsSolver.init (ratOps 3 A3) solver3 e0).isOk = true ∧
    (SymEigsSolver.compute (ratOps 3 A3) solver3_init 5 1 0).isOk = true ∧
    run_converged.2 = 1 ∧
    SymEigsSolver.restart_calls (ratOps 3 A3) 1 (5 : Int).toNat
      (SymEigsSolver.retrieve_ritzpair (ratOps 3 A3)
        (SymEigsSolver.factorize_from (ratOps 3 A3) solver3_init 1 solver3_init.ncv
          solver3_init.fac_f)) = 0 ∧
    (SymEigsSolver.info run_converged.1).1 = 1 ∧
    (SymEigsSolver.compute (ratOps 3 A3) solver3_init 1 (1 / 4) 0).isOk = true ∧
    run_maxit.2 = 0 ∧
    SymEigsSolver.restart_calls (ratOps 3 A3) (1 / 4) (1 : Int).toNat
      (SymEigsSolver.retrieve_ritzpair (ratOps 3 A3)
        (SymEigsSolver.factorize_from (ratOps 3 A3) solver3_init 1 solver3_init.ncv
          solver3_init.fac_f)) = 1 ∧
    (SymEigsSolver.info run_maxit.1).1 = 2 := by
  decide!

/-! ## The convergence test -/

/-- C13 at the failing input `init(e0)`, `compute(5, 1/4)` on the operator `A5`: in the state
of the first `num_converged` call the only wanted Ritz value has magnitude `25 · 2⁻⁴⁰`, below
`prec`; the residual estimate `|z[m-1]| · ‖f‖` is below `tol · max(prec, |θ|)`, so the flag
should be set and 1 returned; but `rv.max() < prec`, `arma::clamp` throws `std::logic_error`,
and `num_converged`, and with it `compute`, ends by that exception. -/
theorem C13_num_converged_throws_below_prec :
    (SymEigsSolver.init (ratOps 3 A5) solver3 e0).isOk = true ∧
    solver_tiny.nev = 1 ∧ solver_tiny.ncv = 2 ∧
    |solver_tiny.ritz_val 0| = 25 / 2 ^ 40 ∧
    |solver_tiny.ritz_val 0| < solver_tiny.prec ∧
    vec_max solver_tiny.nev (fun i => |solver_tiny.ritz_val i|) < solver_tiny.prec ∧
    |solver_tiny.ritz_vec (solver_tiny.ncv - 1) 0| * rat_norm 3 solver_tiny.fac_f <
      1 / 4 * max solver_tiny.prec |solver_tiny.ritz_val 0| ∧
    thrown (SymEigsSolver.num_converged (ratOps 3 A5) solver_tiny (1 / 4)) =
      some (.logic_error "clamp(): min_val has to be smaller than max_val") ∧
    thrown (SymEigsSolver.compute (ratOps 3 A5) solver_tiny_init 5 (1 / 4) 0) =
      some (.logic_error "clamp(): min_val has to be smaller than max_val") := by
  decide!

/-- With the `clamp` of Armadillo, `num_converged` returns exactly when `prec ≤ rv.max()`:
then it sets `ritz_conv[i]`, `i < nev`, exactly when
`|ritz_vec[m-1, i]| · ‖f‖ < tol · max(prec, |ritz_val[i]|)` and returns the number of flags
set; when `rv.max() < prec` it ends by the `std::logic_error` of `clamp`. -/
theorem num_converged_arma (ops : Ops K) (hclamp : ops.clamp = arma_clamp)
    (st : SymEigsSolver K) (tol : K) :
    (st.prec ≤ vec_max st.nev (fun i => |st.ritz_val i|) →
      ∃ st1 nc, SymEigsSolver.num_converged ops st tol = .ok (st1, nc) ∧
        (∀ i, i < st.nev → (st1.ritz_conv i = true ↔
          |st.ritz_vec (st.ncv - 1) i| * ops.norm st.dim_n st.fac_f
            < tol * max st.prec |st.ritz_val i|)) ∧
        nc = (List.range st.nev).countP st1.ritz_conv) ∧
    (vec_max st.nev (fun i => |st.ritz_val i|) < st.prec →
      thrown (SymEigsSolver.num_converged ops st tol) =
        some (.logic_error "clamp(): min_val has to be smaller than max_val")) := by
  constructor
  · intro hle
    have hcl : ops.clamp st.nev (fun i => |st.ritz_val i|) st.prec
        (vec_max st.nev (fun i => |st.ritz_val i|)) =
        .ok (fun i => if |st.ritz_val i| < st.prec then st.prec
          else if |st.ritz_val i| > vec_max st.nev (fun i => |st.ritz_val i|)
            then vec_max st.nev (fun i => |st.ritz_val i|) else |st.ritz_val i|) := by
      rw [hclamp]
      unfold arma_clamp
      rw [if_neg (not_lt.mpr hle)]
    have hnum : SymEigsSolver.num_converged ops st tol = .ok
        ({ st with ritz_conv := (fun i =>
            decide (|st.ritz_vec (st.ncv - 1) i| * ops.norm st.dim_n st.fac_f <
              tol * (if |st.ritz_val i| < st.prec then st.prec
                else if |st.ritz_val i| > vec_max st.nev (fun i => |st.ritz_val i|)
                  then vec_max st.nev (fun i => |st.ritz_val i|) else |st.ritz_val i|))) },
          (List.range st.nev).countP (fun i =>
            decide (|st.ritz_vec (st.ncv - 1) i| * ops.norm st.dim_n st.fac_f <
              tol * (if |st.ritz_val i| < st.prec then st.prec
                else if |st.ritz_val i| > vec_max st.nev (fun i => |st.ritz_val i|)
                  then vec_max st.nev (fun i => |st.ritz_val i|) else |st.ritz_val i|)))) := by
      unfold SymEigsSolver.num_converged
      simp only []
      rw [hcl]
    refine ⟨_, _, hnum, ?_, rfl⟩
    intro i hi
    have hmax := vec_max_ge st.nev (fun i => |st.ritz_val i|) i hi
    have hspec := arma_clamp_spec st.nev (fun i => |st.ritz_val i|) st.prec
      (vec_max st.nev (fun i => |st.ritz_val i|)) _ (by rw [← hclamp]; exact hcl) i hi hmax
    simp only [] at hspec
    simp only [decide_eq_true_eq]
    rw [hspec]
  · intro hlt
    unfold SymEigsSolver.num_converged
    simp only []
    rw [hclamp]
    unfold arma_clamp
    rw [if_pos hlt]
    rfl

/-! ## The implicit restart -/

theorem apply_rots_succ (d : TridiagQR K) (p : Nat) (Y : Mat K) :
    d.apply_rots (p + 1) Y = rot_cols (d.rot_cos p) (d.rot_sin p) p (d.apply_rots p Y) := by
  unfold TridiagQR.apply_rots
  rw [List.range_succ, List.foldl_append]
  rfl

/-- The rotations act on every row of `Y` in the same way: `Y·G1⋯Gp = Y·(I·G1⋯Gp)` on the
first `m` columns, as long as the rotations stay inside them. -/
theorem apply_rots_linear (d : TridiagQR K) (m p : Nat) (hp : p + 1 ≤ m) (Y : Mat K)
    (r j : Nat) (hj : j < m) :
    d.apply_rots p Y r j = matMul m Y (d.apply_rots p idMat) r j := by
  induction p generalizing j with
  | zero =>
    unfold matMul TridiagQR.apply_rots idMat
    simp only [List.range_zero, List.foldl_nil]
    rw [Finset.sum_eq_single j]
    · rw [if_pos rfl, mul_one]
    · intro b _ hb
      rw [if_neg hb, mul_zero]
    · intro hn
      exact absurd (Finset.mem_range.mpr hj) hn
  | succ p ih =>
    have ihp := ih (by omega) p (by omega)
    have ihp1 := ih (by omega) (p + 1) (by omega)
    rw [apply_rots_succ]
    unfold matMul at ihp ihp1 ⊢
    by_cases h1 : j = p
    · subst h1
      have e : ∀ l, d.apply_rots (j + 1) idMat l j =
          d.rot_cos j * d.apply_rots j idMat l j - d.rot_sin j * d.apply_rots j idMat l (j + 1) := by
        intro l
        rw [apply_rots_succ]
        unfold rot_cols
        rw [if_pos rfl]
      unfold rot_cols
      rw [if_pos rfl, ihp, ihp1, Finset.mul_sum, Finset.mul_sum, ← Finset.sum_sub_distrib]
      apply Finset.sum_congr rfl
      intro l _
      rw [e l]
      ring
    · by_cases h2 : j = p + 1
      · subst h2
        have e : ∀ l, d.apply_rots (p + 1) idMat l (p + 1) =
            d.rot_sin p * d.apply_rots p idMat l p + d.rot_cos p * d.apply_rots p idMat l (p + 1) := by
          intro l
          rw [apply_rots_succ]
          unfold rot_cols
          rw [if_neg (by omega), if_pos rfl]
        unfold rot_cols
        rw [if_neg (by omega), if_pos rfl, ihp, ihp1, Finset.mul_sum, Finset.mul_sum,
          ← Finset.sum_add_distrib]
        apply Finset.sum_congr rfl
        intro l _
        rw [e l]
        ring
      · have e : ∀ l, d.apply_rots (p + 1) idMat l j = d.apply_rots p idMat l j := by
          intro l
          rw [apply_rots_succ]
          unfold rot_cols
          rw [if_neg h1, if_neg h2]
        have ihj := ih (by omega) j hj
        unfold matMul at ihj
        unfold rot_cols
        rw [if_neg h1, if_neg h2, ihj]
        apply Finset.sum_congr rfl
        intro l _
        rw [e l]

/-- The product of the first `p` rotations is the identity right of column `p`, and zero
below the first subdiagonal. -/
theorem apply_rots_shape (d : TridiagQR K) (p : Nat) :
    (∀ j, p < j → ∀ l, d.apply_rots p idMat l j = idMat l j) ∧
    (∀ l, p < l → d.apply_rots p idMat l p = 0) ∧
    (∀ j, j < p → ∀ l, j + 1 < l → d.apply_rots p idMat l j = 0) := by
  induction p with
  | zero =>
    refine ⟨fun j _ l => rfl, ?_, fun j hj => absurd hj (Nat.not_lt_zero _)⟩
    intro l hl
    show idMat l 0 = 0
    unfold idMat
    rw [if_neg (by omega)]
  | succ p ih =>
    obtain ⟨h1, h2, h3⟩ := ih
    refine ⟨?_, ?_, ?_⟩
    · intro j hj l
      rw [apply_rots_succ]
      unfold rot_cols
      rw [if_neg (by omega), if_neg (by omega)]
      exact h1 j (by omega) l
    · intro l hl
      rw [apply_rots_succ]
      unfold rot_cols
      rw [if_neg (by omega), if_pos rfl, h2 l (by omega), h1 (p + 1) (by omega) l]
      unfold idMat
      rw [if_neg (by omega)]
      ring
    · intro j hj l hl
      rw [apply_rots_succ]
      unfold rot_cols
      by_cases e1 : j = p
      · subst e1
        rw [if_pos rfl, h2 l (by omega), h1 (j + 1) (by omega) l]
        unfold idMat
        rw [if_neg (by omega)]
        ring
      · rw [if_neg e1, if_neg (by omega)]
        exact h3 j (by omega) l hl

/-- The matrix `Q` of a decomposition is upper Hessenberg. -/
theorem Qmat_hessenberg (d : TridiagQR K) (l j : Nat) (h : j + 1 < l) : d.Qmat l j = 0 := by
  have hs := apply_rots_shape d (d.n - 1)
  show d.apply_rots (d.n - 1) idMat l j = 0
  rcases Nat.lt_trichotomy j (d.n - 1) with hj | hj | hj
  · exact hs.2.2 j hj l h
  · rw [hj]
    exact hs.2.1 l (by omega)
  · rw [hs.1 j hj l]
    unfold idMat
    rw [if_neg (by omega)]

/-- On the first `n` columns `apply_YQ` is the product with `Q`. -/
theorem apply_YQ_eq (d : TridiagQR K) (m : Nat) (hm : d.n = m) (Y : Mat K) (r j : Nat)
    (hj : j < m) : d.apply_YQ Y r j = matMul m Y d.Qmat r j :=
  apply_rots_linear d m (d.n - 1) (by omega) Y r j hj

/-- The vector `apply_QtY(y)` is the row `yᵀ·Q`. -/
theorem apply_QtY_eq_row (d : TridiagQR K) (y : Vec K) (j : Nat) :
    d.apply_QtY y j = d.apply_YQ (fun _ c => y c) 0 j := by
  unfold TridiagQR.apply_QtY TridiagQR.apply_YQ
  generalize List.range (d.n - 1) = l
  induction l generalizing y with
  | nil => rfl
  | cons i l ih =>
    rw [List.foldl_cons, List.foldl_cons, ih]
    rfl

theorem apply_QtY_eq (d : TridiagQR K) (m : Nat) (hm : d.n = m) (y : Vec K) (j : Nat)
    (hj : j < m) : d.apply_QtY y j = ∑ l in Finset.range m, y l * d.Qmat l j := by
  rw [apply_QtY_eq_row, apply_YQ_eq d m hm _ 0 j hj]
  rfl

theorem blk_matMul (m : Nat) (X Y : Mat K) : blk m (matMul m X Y) = blk m X * blk m Y := by
  ext a b
  simp only [blk, matMul, Matrix.mul_apply]
  exact Finset.sum_range (fun l => X a.val l * Y l b.val)

theorem blk_transp {K : Type} (m : Nat) (X : Mat K) : blk m (transp X) = (blk m X).transpose := rfl

theorem blk_idMat (m : Nat) : blk m (idMat : Mat K) = 1 := by
  ext a b
  simp only [blk, idMat, Matrix.one_apply, Fin.ext_iff]

theorem blk_addDiag (m : Nat) (M : Mat K) (x : K) :
    blk m (addDiag M x) = blk m M + x • (1 : Matrix (Fin m) (Fin m) K) := by
  ext a b
  simp only [blk, addDiag, Matrix.add_apply, Matrix.smul_apply, Matrix.one_apply, Fin.ext_iff,
    smul_eq_mul]
  split <;> simp

theorem blk_eq_iff {K : Type} (m : Nat) (F G : Mat K) :
    blk m F = blk m G ↔ ∀ a, a < m → ∀ b, b < m → F a b = G a b := by
  constructor
  · intro h a ha b hb
    exact congrFun (congrFun h ⟨a, ha⟩) ⟨b, hb⟩
  · intro h
    ext a b
    exact h a.val a.isLt b.val b.isLt

theorem rowOf_matMul (m : Nat) (V X : Mat K) (r : Nat) :
    rowOf m (matMul m V X r) = Matrix.vecMul (rowOf m (V r)) (blk m X) := by
  ext j
  simp only [rowOf, matMul, Matrix.vecMul, Matrix.dotProduct, blk]
  exact Finset.sum_range (fun l => V r l * X l j.val)

theorem rowOf_eq_iff {K : Type} (m : Nat) (x y : Vec K) :
    rowOf m x = rowOf m y ↔ ∀ j, j < m → x j = y j := by
  constructor
  · intro h j hj
    exact congrFun h ⟨j, hj⟩
  · intro h
    ext j
    exact h j.val j.isLt

/-- The matrix form of `QRExact`. -/
theorem QRExact.blk_form {m : Nat} {T : Mat K} {d : TridiagQR K} (h : QRExact m T d) :
    (blk m d.Qmat).transpose * blk m d.Qmat = 1 ∧ blk m d.Qmat * blk m d.mat_T = blk m T := by
  obtain ⟨_, h2, _, h4⟩ := h
  constructor
  · rw [← blk_transp, ← blk_matMul, ← blk_idMat]
    exact (blk_eq_iff m _ _).mpr h2
  · rw [← blk_matMul]
    exact (blk_eq_iff m _ _).mpr h4

/-- One pass of the shift loop of `restart` with an exact decomposition `Q·R = H − μ·I`:
`V ← V·Q`, `H ← Qᵀ·H·Q`, `em ← Qᵀ·em`, and the new `H` is upper Hessenberg. -/
theorem restart_shift_exact (ops : Ops K) (i : Nat) (s : SymEigsSolver K × Vec K) (m : Nat)
    (d : TridiagQR K)
    (hd : ops.qr_compute s.1.ncv (addDiag s.1.fac_H (-(s.1.ritz_val i))) = d)
    (hqr : QRExact m (addDiag s.1.fac_H (-(s.1.ritz_val i))) d) :
    (∀ r j, j < m → (SymEigsSolver.restart_shift ops i s).1.fac_V r j =
      matMul m s.1.fac_V d.Qmat r j) ∧
    (∀ j, j < m → (SymEigsSolver.restart_shift ops i s).2 j =
      ∑ l in Finset.range m, s.2 l * d.Qmat l j) ∧
    blk m (SymEigsSolver.restart_shift ops i s).1.fac_H =
      (blk m d.Qmat).transpose * blk m s.1.fac_H * blk m d.Qmat ∧
    blk m d.Qmat * blk m (SymEigsSolver.restart_shift ops i s).1.fac_H =
      blk m s.1.fac_H * blk m d.Qmat ∧
    (∀ l, l < m → ∀ j, j + 1 < l → (SymEigsSolver.restart_shift ops i s).1.fac_H l j = 0) := by
  have hn : d.n = m := hqr.1
  have hR := hqr.2.2.1
  obtain ⟨horth, hQR⟩ := hqr.blk_form
  rw [blk_addDiag] at hQR
  have hV : (SymEigsSolver.restart_shift ops i s).1.fac_V = d.apply_YQ s.1.fac_V := by
    unfold SymEigsSolver.restart_shift
    simp only [hd]
  have hH : (SymEigsSolver.restart_shift ops i s).1.fac_H =
      addDiag d.matrix_RQ (s.1.ritz_val i) := by
    unfold SymEigsSolver.restart_shift
    simp only [hd]
  have hE : (SymEigsSolver.restart_shift ops i s).2 = d.apply_QtY s.2 := by
    unfold SymEigsSolver.restart_shift
    simp only [hd]
  have hRQ : blk m d.matrix_RQ = blk m d.mat_T * blk m d.Qmat := by
    rw [← blk_matMul]
    exact (blk_eq_iff _ _ _).mpr (fun a _ b hb => apply_YQ_eq d _ hn d.mat_T a b hb)
  have hH2 : blk m (SymEigsSolver.restart_shift ops i s).1.fac_H =
      blk m d.mat_T * blk m d.Qmat + s.1.ritz_val i • (1 : Matrix (Fin m) (Fin m) K) := by
    rw [hH, blk_addDiag, hRQ]
  have hQH : blk m d.Qmat * blk m (SymEigsSolver.restart_shift ops i s).1.fac_H =
      blk m s.1.fac_H * blk m d.Qmat := by
    rw [hH2, Matrix.mul_add, ← Matrix.mul_assoc, hQR, Matrix.add_mul, Matrix.smul_mul,
      Matrix.mul_smul, Matrix.one_mul, Matrix.mul_one, neg_smul]
    abel
  refine ⟨?_, ?_, ?_, hQH, ?_⟩
  · intro r j hj
    rw [hV]
    exact apply_YQ_eq d _ hn _ r j hj
  · intro j hj
    rw [hE]
    exact apply_QtY_eq d _ hn _ j hj
  · have e : blk m (SymEigsSolver.restart_shift ops i s).1.fac_H =
        ((blk m d.Qmat).transpose * blk m d.Qmat) *
          blk m (SymEigsSolver.restart_shift ops i s).1.fac_H := by
      rw [horth, Matrix.one_mul]
    rw [e, Matrix.mul_assoc, hQH, Matrix.mul_assoc]
  · intro l hl j hj
    rw [hH]
    unfold addDiag
    rw [if_neg (by omega)]
    show d.apply_YQ d.mat_T l j = 0
    rw [apply_YQ_eq d _ hn _ l j (by omega)]
    unfold matMul
    apply Finset.sum_eq_zero
    intro a ha
    by_cases hal : a < l
    · rw [hR l hl a hal, zero_mul]
    · rw [Qmat_hessenberg d a j (by omega), mul_zero]

theorem shift_loop_succ (ops : Ops K) (st : SymEigsSolver K) (k p : Nat) :
    SymEigsSolver.shift_loop ops st k (p + 1) =
      SymEigsSolver.restart_shift ops (k + p) (SymEigsSolver.shift_loop ops st k p) := by
  unfold SymEigsSolver.shift_loop
  rw [List.range'_1_concat, List.foldl_append]
  rfl

/-- The shift loop of `restart` changes `fac_V`, `fac_H` and `em` only. -/
theorem shift_loop_frame (ops : Ops K) (st : SymEigsSolver K) (k p : Nat) :
    (SymEigsSolver.shift_loop ops st k p).1.ncv = st.ncv ∧
    (SymEigsSolver.shift_loop ops st k p).1.dim_n = st.dim_n ∧
    (SymEigsSolver.shift_loop ops st k p).1.fac_f = st.fac_f ∧
    (SymEigsSolver.shift_loop ops st k p).1.ritz_val = st.ritz_val := by
  induction p with
  | zero => exact ⟨rfl, rfl, rfl, rfl⟩
  | succ p ih =>
    rw [shift_loop_succ]
    exact ih

/-- The state of the shift loop of `restart(k)` after `p` passes with exact decompositions, in
terms of the accumulated `Q`. -/
theorem shift_loop_exact (ops : Ops K) (st : SymEigsSolver K) (k : Nat)
    (hlin : LinearOp st.dim_n ops.prod)
    (hfact : ∀ j, j < st.ncv → ∀ r, r < st.dim_n →
      ops.prod (col st.fac_V j) r =
        matMul st.ncv st.fac_V st.fac_H r j + (if j = st.ncv - 1 then st.fac_f r else 0))
    (p : Nat)
    (hqr : ∀ j, j < p → QRExact st.ncv
      (addDiag (SymEigsSolver.shift_loop ops st k j).1.fac_H (-(st.ritz_val (k + j))))
      (SymEigsSolver.shift_decomp ops st k j)) :
    (blk st.ncv (SymEigsSolver.shift_Q ops st k p)).transpose *
        blk st.ncv (SymEigsSolver.shift_Q ops st k p) = 1 ∧
    (∀ r j, j < st.ncv → (SymEigsSolver.shift_loop ops st k p).1.fac_V r j =
      matMul st.ncv st.fac_V (SymEigsSolver.shift_Q ops st k p) r j) ∧
    blk st.ncv (SymEigsSolver.shift_loop ops st k p).1.fac_H =
      (blk st.ncv (SymEigsSolver.shift_Q ops st k p)).transpose * blk st.ncv st.fac_H *
        blk st.ncv (SymEigsSolver.shift_Q ops st k p) ∧
    (∀ j, j < st.ncv → (SymEigsSolver.shift_loop ops st k p).2 j =
      SymEigsSolver.shift_Q ops st k p (st.ncv - 1) j) ∧
    (∀ j, j < st.ncv → ∀ r, r < st.dim_n →
      ops.prod (col (SymEigsSolver.shift_loop ops st k p).1.fac_V j) r =
        matMul st.ncv (SymEigsSolver.shift_loop ops st k p).1.fac_V
          (SymEigsSolver.shift_loop ops st k p).1.fac_H r j +
        st.fac_f r * (SymEigsSolver.shift_loop ops st k p).2 j) ∧
    (∀ j, j + p + 1 < st.ncv → (SymEigsSolver.shift_loop ops st k p).2 j = 0) ∧
    (1 ≤ p → ∀ l, l < st.ncv → ∀ j, j + 1 < l →
      (SymEigsSolver.shift_loop ops st k p).1.fac_H l j = 0) := by
  induction p with
  | zero =>
    have hQ : blk st.ncv (SymEigsSolver.shift_Q ops st k 0) = 1 := blk_idMat st.ncv
    have hem : ∀ j, (SymEigsSolver.shift_loop ops st k 0).2 j =
        if j = st.ncv - 1 then 1 else 0 := fun j => rfl
    have hst : (SymEigsSolver.shift_loop ops st k 0).1 = st := rfl
    refine ⟨by rw [hQ, Matrix.transpose_one, Matrix.one_mul], ?_, ?_, ?_, ?_, ?_, ?_⟩
    · intro r j hj
      rw [hst]
      show st.fac_V r j = ∑ l in Finset.range st.ncv, st.fac_V r l * (if l = j then 1 else 0)
      rw [Finset.sum_eq_single j]
      · rw [if_pos rfl, mul_one]
      · intro b _ hb
        rw [if_neg hb, mul_zero]
      · intro hn
        exact absurd (Finset.mem_range.mpr hj) hn
    · rw [hQ, Matrix.transpose_one, Matrix.one_mul, Matrix.mul_one, hst]
    · intro j hj
      rw [hem]
      show _ = (if st.ncv - 1 = j then (1 : K) else 0)
      by_cases e : j = st.ncv - 1
      · rw [if_pos e, if_pos e.symm]
      · rw [if_neg e, if_neg (fun h => e h.symm)]
    · intro j hj r hr
      rw [hst, hem, hfact j hj r hr]
      congr 1
      split <;> simp
    · intro j hj
      rw [hem, if_neg (by omega)]
    · intro h
      omega
  | succ p ih =>
    obtain ⟨i1, i2, i3, i4, i5, i6, _⟩ := ih (fun j hj => hqr j (by omega))
    obtain ⟨f1, f2, f3, f4⟩ := shift_loop_frame ops st k p
    have hq := hqr p (by omega)
    obtain ⟨s1, s2, s3, s4, s5⟩ := restart_shift_exact ops (k + p)
      (SymEigsSolver.shift_loop ops st k p) st.ncv (SymEigsSolver.shift_decomp ops st k p) rfl
      (by rw [f4]; exact hq)
    rw [← shift_loop_succ] at s1 s2 s3 s4 s5
    obtain ⟨horth, _⟩ := hq.blk_form
    have hQs : blk st.ncv (SymEigsSolver.shift_Q ops st k (p + 1)) =
        blk st.ncv (SymEigsSolver.shift_Q ops st k p) *
          blk st.ncv (SymEigsSolver.shift_decomp ops st k p).Qmat := blk_matMul _ _ _
    have hVrow : ∀ r, rowOf st.ncv ((SymEigsSolver.shift_loop ops st k (p + 1)).1.fac_V r) =
        Matrix.vecMul (rowOf st.ncv ((SymEigsSolver.shift_loop ops st k p).1.fac_V r))
          (blk st.ncv (SymEigsSolver.shift_decomp ops st k p).Qmat) := by
      intro r
      rw [← rowOf_matMul]
      exact (rowOf_eq_iff _ _ _).mpr (fun j hj => s1 r j hj)
    refine ⟨?_, ?_, ?_, ?_, ?_, ?_, ?_⟩
    · rw [hQs, Matrix.transpose_mul, Matrix.mul_assoc,
        ← Matrix.mul_assoc (blk st.ncv (SymEigsSolver.shift_Q ops st k p)).transpose, i1,
        Matrix.one_mul, horth]
    · intro r j hj
      have hi2 : rowOf st.ncv ((SymEigsSolver.shift_loop ops st k p).1.fac_V r) =
          Matrix.vecMul (rowOf st.ncv (st.fac_V r))
            (blk st.ncv (SymEigsSolver.shift_Q ops st k p)) := by
        rw [← rowOf_matMul]
        exact (rowOf_eq_iff _ _ _).mpr (fun j hj => i2 r j hj)
      have e1 : rowOf st.ncv ((SymEigsSolver.shift_loop ops st k (p + 1)).1.fac_V r) =
          rowOf st.ncv (matMul st.ncv st.fac_V (SymEigsSolver.shift_Q ops st k (p + 1)) r) := by
        rw [hVrow, hi2, rowOf_matMul, hQs, Matrix.vecMul_vecMul]
      exact (rowOf_eq_iff _ _ _).mp e1 j hj
    · rw [s3, i3, hQs, Matrix.transpose_mul]
      simp only [Matrix.mul_assoc]
    · intro j hj
      rw [s2 j hj]
      show _ = ∑ l in Finset.range st.ncv, SymEigsSolver.shift_Q ops st k p (st.ncv - 1) l *
        (SymEigsSolver.shift_decomp ops st k p).Qmat l j
      apply Finset.sum_congr rfl
      intro l hl
      rw [i4 l (Finset.mem_range.mp hl)]
    · intro j hj r hr
      have hcol : col (SymEigsSolver.shift_loop ops st k (p + 1)).1.fac_V j =
          mulVec st.ncv (SymEigsSolver.shift_loop ops st k p).1.fac_V
            (col (SymEigsSolver.shift_decomp ops st k p).Qmat j) := by
        funext r
        exact s1 r j hj
      rw [hcol, linear_mulVec st.dim_n ops.prod hlin _ _ _ r hr, s2 j hj, Finset.mul_sum]
      have e2 : rowOf st.ncv (matMul st.ncv (SymEigsSolver.shift_loop ops st k (p + 1)).1.fac_V
          (SymEigsSolver.shift_loop ops st k (p + 1)).1.fac_H r) =
          rowOf st.ncv (matMul st.ncv
            (matMul st.ncv (SymEigsSolver.shift_loop ops st k p).1.fac_V
              (SymEigsSolver.shift_loop ops st k p).1.fac_H)
            (SymEigsSolver.shift_decomp ops st k p).Qmat r) := by
        rw [rowOf_matMul, hVrow, Matrix.vecMul_vecMul, s4, ← Matrix.vecMul_vecMul,
          ← rowOf_matMul, ← rowOf_matMul]
      rw [(rowOf_eq_iff _ _ _).mp e2 j hj]
      show _ = (∑ i in Finset.range st.ncv,
          matMul st.ncv (SymEigsSolver.shift_loop ops st k p).1.fac_V
            (SymEigsSolver.shift_loop ops st k p).1.fac_H r i *
            (SymEigsSolver.shift_decomp ops st k p).Qmat i j) + _
      rw [← Finset.sum_add_distrib]
      apply Finset.sum_congr rfl
      intro i hi
      rw [i5 i (Finset.mem_range.mp hi) r hr]
      unfold col
      ring
    · intro j hj
      rw [s2 j (by omega)]
      apply Finset.sum_eq_zero
      intro l _
      by_cases hl : l + p + 1 < st.ncv
      · rw [i6 l hl, zero_mul]
      · rw [Qmat_hessenberg _ l j (by omega), mul_zero]
    · intro _ l hl j hj
      exact s5 l hl j hj

/-- C12: let `A·V = V·H + f·e_{m−1}ᵀ` hold on entry of `restart(k)`, `1 ≤ k < m = ncv`, for a
linear operator, and let every `TridiagQR::compute` of the shift loop return an orthogonal
`Q = G1⋯G_{m−1}` and an upper triangular `R` with `Q·R = H − μ·I`. Then after the shift loop,
with `Q` the product of the matrices `Q` of all passes: `Q` is orthogonal, `V` is the old
`V·Q`, `H` is `Qᵀ·H·Q` for the old `H`, `em = Qᵀ·e_{m−1}`, `f` is unchanged,
`A·V = V·H + f·emᵀ`, `em` is zero below index `k − 1`, and with
`fk = f·em[k−1] + V[:, k]·H[k, k−1]` the first `k` columns satisfy
`A·V[:, :k] = V[:, :k]·H[:k, :k] + fk·e_{k−1}ᵀ`. -/
theorem C12_restart_shift_loop_factorization (ops : Ops K) (st : SymEigsSolver K) (k : Nat)
    (hlin : LinearOp st.dim_n ops.prod) (hk1 : 1 ≤ k) (hkm : k < st.ncv)
    (hfact : ∀ j, j < st.ncv → ∀ r, r < st.dim_n →
      ops.prod (col st.fac_V j) r =
        matMul st.ncv st.fac_V st.fac_H r j + (if j = st.ncv - 1 then st.fac_f r else 0))
    (hqr : ∀ j, j < st.ncv - k → QRExact st.ncv
      (addDiag (SymEigsSolver.shift_loop ops st k j).1.fac_H (-(st.ritz_val (k + j))))
      (SymEigsSolver.shift_decomp ops st k j)) :
    (∀ a, a < st.ncv → ∀ b, b < st.ncv →
      matMul st.ncv (transp (SymEigsSolver.shift_Q ops st k (st.ncv - k)))
        (SymEigsSolver.shift_Q ops st k (st.ncv - k)) a b = if a = b then 1 else 0) ∧
    (∀ r j, j < st.ncv → (SymEigsSolver.shift_loop ops st k (st.ncv - k)).1.fac_V r j =
      matMul st.ncv st.fac_V (SymEigsSolver.shift_Q ops st k (st.ncv - k)) r j) ∧
    (∀ a, a < st.ncv → ∀ b, b < st.ncv →
      (SymEigsSolver.shift_loop ops st k (st.ncv - k)).1.fac_H a b =
        matMul st.ncv (transp (SymEigsSolver.shift_Q ops st k (st.ncv - k)))
          (matMul st.ncv st.fac_H (SymEigsSolver.shift_Q ops st k (st.ncv - k))) a b) ∧
    (∀ j, j < st.ncv → (SymEigsSolver.shift_loop ops st k (st.ncv - k)).2 j =
      SymEigsSolver.shift_Q ops st k (st.ncv - k) (st.ncv - 1) j) ∧
    (SymEigsSolver.shift_loop ops st k (st.ncv - k)).1.fac_f = st.fac_f ∧
    (∀ j, j < st.ncv → ∀ r, r < st.dim_n →
      ops.prod (col (SymEigsSolver.shift_loop ops st k (st.ncv - k)).1.fac_V j) r =
        matMul st.ncv (SymEigsSolver.shift_loop ops st k (st.ncv - k)).1.fac_V
          (SymEigsSolver.shift_loop ops st k (st.ncv - k)).1.fac_H r j +
        (SymEigsSolver.shift_loop ops st k (st.ncv - k)).1.fac_f r *
          (SymEigsSolver.shift_loop ops st k (st.ncv - k)).2 j) ∧
    (∀ j, j + 1 < k → (SymEigsSolver.shift_loop ops st k (st.ncv - k)).2 j = 0) ∧
    (∀ j, j < k → ∀ r, r < st.dim_n →
      ops.prod (col (SymEigsSolver.shift_loop ops st k (st.ncv - k)).1.fac_V j) r =
        matMul k (SymEigsSolver.shift_loop ops st k (st.ncv - k)).1.fac_V
          (SymEigsSolver.shift_loop ops st k (st.ncv - k)).1.fac_H r j +
        (if j = k - 1 then
          SymEigsSolver.restart_fk (SymEigsSolver.shift_loop ops st k (st.ncv - k)) k r
        else 0)) := by
  obtain ⟨i1, i2, i3, i4, i5, i6, i7⟩ := shift_loop_exact ops st k hlin hfact (st.ncv - k) hqr
  have hf : (SymEigsSolver.shift_loop ops st k (st.ncv - k)).1.fac_f = st.fac_f :=
    (shift_loop_frame ops st k (st.ncv - k)).2.2.1
  have hem : ∀ j, j + 1 < k → (SymEigsSolver.shift_loop ops st k (st.ncv - k)).2 j = 0 :=
    fun j hj => i6 j (by omega)
  have hH := i7 (by omega)
  refine ⟨?_, i2, ?_, i4, hf, ?_, hem, ?_⟩
  · rw [← blk_transp, ← blk_matMul, ← blk_idMat] at i1
    exact (blk_eq_iff _ _ _).mp i1
  · rw [Matrix.mul_assoc, ← blk_transp, ← blk_matMul, ← blk_matMul] at i3
    exact (blk_eq_iff _ _ _).mp i3
  · intro j hj r hr
    rw [hf]
    exact i5 j hj r hr
  · intro j hj r hr
    rw [i5 j (by omega) r hr]
    have hsplit : matMul st.ncv (SymEigsSolver.shift_loop ops st k (st.ncv - k)).1.fac_V
        (SymEigsSolver.shift_loop ops st k (st.ncv - k)).1.fac_H r j =
        matMul k (SymEigsSolver.shift_loop ops st k (st.ncv - k)).1.fac_V
          (SymEigsSolver.shift_loop ops st k (st.ncv - k)).1.fac_H r j +
        (SymEigsSolver.shift_loop ops st k (st.ncv - k)).1.fac_V r k *
          (SymEigsSolver.shift_loop ops st k (st.ncv - k)).1.fac_H k j := by
      unfold matMul
      rw [← Finset.sum_range_add_sum_Ico _ (le_of_lt hkm)]
      congr 1
      rw [Finset.sum_eq_single k]
      · intro l hl hlk
        rw [Finset.mem_Ico] at hl
        rw [hH l hl.2 j (by omega), mul_zero]
      · intro hn
        exact absurd (Finset.mem_Ico.mpr ⟨le_refl _, hkm⟩) hn
    rw [hsplit]
    by_cases hjk : j = k - 1
    · rw [if_pos hjk]
      unfold SymEigsSolver.restart_fk
      rw [hf, hjk]
      ring
    · rw [if_neg hjk, hem j (by omega), hH k hkm j (by omega)]
      ring

theorem solver3_ritz_dims : solver3_ritz.ncv = 2 ∧ solver3_ritz.dim_n = 3 := by
  decide!

/-- C12 at the first restart of the run on the operator `A3`: `restart(1)` on the state with
`H = (34, 12; 12, 41)`, `f = (0, 0, 30)` and the shift `μ = 25`. The decomposition of
`H − 25·I = (9, 12; 12, 16)` is exact (`cos = 3/5`, `sin = -4/5`), `em` becomes
`(4/5, 3/5)`, `fk = (0, 0, 24)`, and `A·V[:, 0] = 50·V[:, 0] + fk`. -/
theorem C12_restart_shift_loop_factorization_witness :
    (LinearOp solver3_ritz.dim_n (ratOps 3 A3).prod ∧ 1 ≤ 1 ∧ 1 < solver3_ritz.ncv ∧
      (∀ j, j < solver3_ritz.ncv → ∀ r, r < solver3_ritz.dim_n →
        (ratOps 3 A3).prod (col solver3_ritz.fac_V j) r =
          matMul solver3_ritz.ncv solver3_ritz.fac_V solver3_ritz.fac_H r j +
            (if j = solver3_ritz.ncv - 1 then solver3_ritz.fac_f r else 0)) ∧
      (∀ j, j < solver3_ritz.ncv - 1 → QRExact solver3_ritz.ncv
        (addDiag (SymEigsSolver.shift_loop (ratOps 3 A3) solver3_ritz 1 j).1.fac_H
          (-(solver3_ritz.ritz_val (1 + j))))
        (SymEigsSolver.shift_decomp (ratOps 3 A3) solver3_ritz 1 j))) ∧
    (∀ j, j < 1 → ∀ r, r < solver3_ritz.dim_n →
      (ratOps 3 A3).prod
          (col (SymEigsSolver.shift_loop (ratOps 3 A3) solver3_ritz 1
            (solver3_ritz.ncv - 1)).1.fac_V j) r =
        matMul 1 (SymEigsSolver.shift_loop (ratOps 3 A3) solver3_ritz 1
            (solver3_ritz.ncv - 1)).1.fac_V
          (SymEigsSolver.shift_loop (ratOps 3 A3) solver3_ritz 1
            (solver3_ritz.ncv - 1)).1.fac_H r j +
        (if j = 1 - 1 then
          SymEigsSolver.restart_fk
            (SymEigsSolver.shift_loop (ratOps 3 A3) solver3_ritz 1 (solver3_ritz.ncv - 1)) 1 r
        else 0)) ∧
    (SymEigsSolver.shift_loop (ratOps 3 A3) solver3_ritz 1 (solver3_ritz.ncv - 1)).2 0 = 4 / 5 ∧
    SymEigsSolver.restart_fk
      (SymEigsSolver.shift_loop (ratOps 3 A3) solver3_ritz 1 (solver3_ritz.ncv - 1)) 1 2 = 24 ∧
    (SymEigsSolver.shift_loop (ratOps 3 A3) solver3_ritz 1 (solver3_ritz.ncv - 1)).1.fac_H 0 0
      = 50 :=
  ⟨⟨by rw [solver3_ritz_dims.2]; exact mulVec_linear 3 3 A3, by decide, by decide!, by decide!,
      fun j hj => by
        rw [solver3_ritz_dims.1] at hj
        have h0 : j = 0 := Nat.lt_one_iff.mp hj
        subst h0
        unfold QRExact
        decide!⟩,
    (C12_restart_shift_loop_factorization (ratOps 3 A3) solver3_ritz 1
      (by rw [solver3_ritz_dims.2]; exact mulVec_linear 3 3 A3)
      (by decide) (by decide!) (by decide!)
      (fun j hj => by
        rw [solver3_ritz_dims.1] at hj
        have h0 : j = 0 := Nat.lt_one_iff.mp hj
        subst h0
        unfold QRExact
        decide!)).2.2.2.2.2.2.2,
    by decide!, by decide!, by decide!⟩

end Theorems

end ArpackArma
